import Mathlib

/-!
WordRank: the lexicographic rank of a word among the rearrangements of its letters.

A shallow embedding of `src/wordrank.c`.

Modelling conventions.

* A C string is the list of its characters before the terminating NUL; a
  character is its ASCII code (`'A'` is 65, `'Z'` is 90). Reading past the end
  of a string yields the terminator 0.
* The 26-entry arrays `counts`, `numerPieces`, `denomPieces`, `factorials` and
  `upper` are lists of length 26; `a[i]` is `a.getD i 0` and `a[i] = v` is
  `a.set i v`.
* `unsigned long long` arithmetic goes through the parameter `wrap`. The
  program itself is the instance `wrap = u64` (reduction modulo `2 ^ 64`); the
  instance `wrap = id` computes the same expressions over unbounded integers.
* `double extraSum` is modelled twice. In `Globals`, `divFactorials`,
  `printedRank` and `main` it is an exact rational number, and the final
  conversion `(unsigned long long)(float)extraSum` is the truncation of that
  rational. In `exBitDouble`, `extraSumDouble`, `printedRankFloat` and
  `mainFloat` it is a `double`: every conversion to `double` and every
  `double` operation rounds to the nearest number with a significand of 53
  bits, a tie going to the even significand, and the final conversion rounds
  to a significand of 24 bits before it truncates. The exponent is unbounded
  in the model; the values of a run lie between `2 ^ (-64)` and `2 ^ 64`,
  inside the normal range of both formats.
* The global variables are threaded through the functions as a `Globals`
  record. Its field `peak` is a ghost variable recording the largest value that
  `penalty` or `totalPenalty` has held.
* Loops whose termination is not syntactically evident carry a fuel argument
  and return `none` when it runs out. A loop with a fixed number of rounds is
  a recursion on that number.
* Counters of type `unsigned char` and the entries of `counts` are natural
  numbers; only the counter of the first loop of `checkWord`, which is compared
  with the `unsigned int wordLength`, is reduced modulo 256. The entries of
  `counts` are of type `char` in the source: the model follows the program as
  long as no letter occurs more than 127 times in the word.
* Division and remainder by 0, undefined in C, follow Lean: `x / 0 = 0` and
  `x % 0 = x`. The subtraction `strlen(word) - reit - 1` is only evaluated for
  `reit < strlen(word)`.
* What a run does besides computing its result is recorded by functions that follow
  the same loops and return a list of events (`wordToNumberTrace`, `mainTrace`) or
  the list of the indices written (`checkWordWrites`); they take the globals of every
  step from the functions of the program itself.
* The functions named `...Checked` are a second embedding of `divFactorials` in which
  an access to `numerPieces` or `denomPieces` outside the 26 entries, or a division by
  0, ends the run with `none`.
-/

namespace WordRank

/-! ## The program -/

/-- Reduction of an unbounded integer to an `unsigned long long`. -/
def u64 (x : Nat) : Nat := x % 2 ^ 64

def ERR_TOO_MANY_WORDS : Nat := 0x01
def ERR_TOO_MANY_LETTERS : Nat := 0x02
def ERR_TOO_FEW_LETTERS : Nat := 0x04
def ERR_TOO_FEW_WORDS : Nat := 0x08
def ERR_NOT_ALL_CAPS : Nat := 0x10

/-- The global variables of the program (`remainder` is never used and is left out). -/
structure Globals where
  err : Nat
  wordLength : Nat
  counts : List Nat
  repeatsTrue : Nat
  alphaWord : List Nat
  penalty : Nat
  totalPenalty : Nat
  extraSum : ℚ
  peak : Nat

/-- The values the globals are initialised with. -/
def initGlobals : Globals :=
  { err := 0, wordLength := 0, counts := List.replicate 26 0, repeatsTrue := 0,
    alphaWord := [], penalty := 0, totalPenalty := 1, extraSum := 0, peak := 1 }

/-- The table `upper`: the capital letters in alphabetical order. -/
def upper : List Nat :=
  [65, 66, 67, 68, 69, 70, 71, 72, 73, 74, 75, 76, 77, 78, 79, 80, 81, 82, 83, 84, 85, 86, 87,
   88, 89, 90]

/-- The table `factorials`. -/
def factorials : List Nat :=
  [1, 1, 2, 6, 24, 120, 720, 5040, 40320, 362880, 3628800, 39916800, 479001600, 6227020800,
   87178291200, 1307674368000, 20922789888000, 355687428096000, 6402373705728000,
   121645100408832000, 2432902008176640000, 1, 1, 1, 1, 1]

/-- First loop of `checkWord`: count the letters of the word. The loop counter is an
`unsigned char`. The result is the value returned early, or 0 when the loop ran to its end. -/
def checkWordCount : Nat → List Nat → Nat → Globals → Option (Nat × Globals)
  | 0, _, _, _ => none
  | fuel + 1, word, i, g =>
    if i < g.wordLength then
      if 65 ≤ word.getD i 0 ∧ word.getD i 0 ≤ 90 then
        checkWordCount fuel word ((i + 1) % 256)
          { g with counts := g.counts.set (word.getD i 0 - 65)
                      (g.counts.getD (word.getD i 0 - 65) 0 + 1) }
      else some (ERR_NOT_ALL_CAPS, g)
    else some (0, g)

/-- Inner loop of the second part of `checkWord`: `n` more copies of the letter `c` are
written at `alphaWord[letterCount]`, where `letterCount` is the current length. -/
def buildAlphaInner (c : Nat) : Nat → List Nat → List Nat
  | 0, a => a
  | n + 1, a => buildAlphaInner c n (a ++ [c])

/-- Outer loop of the second part of `checkWord`, over the letters `j, j+1, ...`. -/
def buildAlphaOuter (counts : List Nat) : Nat → Nat → List Nat → List Nat
  | 0, _, a => a
  | n + 1, j, a =>
    buildAlphaOuter counts n (j + 1) (buildAlphaInner (upper.getD j 0) (counts.getD j 0) a)

/-- The function `checkWord`: returns the error code and the new globals. -/
def checkWord (fuel : Nat) (word : List Nat) (g : Globals) : Option (Nat × Globals) :=
  match checkWordCount fuel word 0 g with
  | none => none
  | some (e, g1) =>
    if e ≠ 0 then some (e, g1)
    else some (0, { g1 with alphaWord := buildAlphaOuter g1.counts 26 0 g1.alphaWord })

/-- The function `shrinkWord`: `newWord` is a zeroed buffer (the empty string); the result
is `word` without the first occurrence of `letter`, or `newWord` when there is none. -/
def shrinkWord (word : List Nat) (letter : Nat) (newWord : List Nat) : List Nat :=
  if word.indexOf letter = word.length then newWord
  else word.take (word.indexOf letter) ++ word.drop (word.indexOf letter + 1)

/-- The loop of `checkCounts` over the letters `k, k+1, ...`. -/
def checkCountsLoop (counts : List Nat) : Nat → Nat → Nat
  | 0, _ => 0
  | n + 1, k => if counts.getD k 0 > 1 then 1 else checkCountsLoop counts n (k + 1)

/-- The function `checkCounts`. -/
def checkCounts (g : Globals) : Nat := checkCountsLoop g.counts 26 0

/-- The local arrays and counters of `divFactorials` while the factorials are exploded. -/
structure Pieces where
  numerPieces : List Nat
  denomPieces : List Nat
  numTemp : Nat
  denomTemp : Nat

/-- Inner loop of the explosion: `denomPieces[denomTemp+j] = d-j` for `j, j+1, ...`. -/
def explodeDenom (d denomTemp : Nat) : Nat → Nat → List Nat → List Nat
  | 0, _, dp => dp
  | n + 1, j, dp => explodeDenom d denomTemp n (j + 1) (dp.set (denomTemp + j) (d - j))

/-- The loop of `divFactorials` that explodes the factorials into their factors. -/
def explode (denominators : List Nat) : Nat → Nat → Pieces → Pieces
  | 0, _, p => p
  | n + 1, i, p =>
    let d := denominators.getD i 0
    let p1 : Pieces :=
      if d > 1 then
        { p with
          denomPieces := explodeDenom d p.denomTemp (d - 1) 1 (p.denomPieces.set p.denomTemp d)
          denomTemp := p.denomTemp + (d - 1) }
      else p
    let p2 : Pieces :=
      if p1.numTemp ≠ 0 then
        { p1 with numerPieces := p1.numerPieces.set i p1.numTemp, numTemp := p1.numTemp - 1 }
      else p1
    explode denominators n (i + 1) p2

/-- Inner loop of the cancellation for the numerator factor `i`, over the denominator
factors `j, j+1, ...`. Returns the arrays and the value of `i` when the loop is left: a
cancellation increments `i` before the `break`. -/
def cancelInner (i : Nat) : Nat → Nat → List Nat → List Nat → List Nat × List Nat × Nat
  | 0, _, np, dp => (np, dp, i)
  | n + 1, j, np, dp =>
    if np.getD i 0 % dp.getD j 0 = 0 then
      if np.getD i 0 / dp.getD j 0 = 1 then
        (np.set i 1, dp.set j 1, i + 1)
      else if np.getD i 0 / dp.getD j 0 < np.getD i 0 then
        (np.set i (np.getD i 0 / dp.getD j 0), dp.set j 1, i + 1)
      else cancelInner i n (j + 1) np dp
    else cancelInner i n (j + 1) np dp

/-- Outer loop of the cancellation: after the inner loop the loop header increments `i`
once more. Every round increases `i`, so `numerator` rounds of fuel are never used up
before the loop ends. -/
def cancelOuter (numerator denomTemp : Nat) : Nat → Nat → List Nat → List Nat →
    List Nat × List Nat
  | 0, _, np, dp => (np, dp)
  | fuel + 1, i, np, dp =>
    if i < numerator then
      cancelOuter numerator denomTemp fuel ((cancelInner i denomTemp 0 np dp).2.2 + 1)
        (cancelInner i denomTemp 0 np dp).1 (cancelInner i denomTemp 0 np dp).2.1
    else (np, dp)

/-- The loops that total up the numerator and the denominator: the product of the entries
greater than 1 among `pieces[i], pieces[i+1], ...`. -/
def totalUp (wrap : Nat → Nat) (pieces : List Nat) : Nat → Nat → Nat → Nat
  | 0, _, s => s
  | n + 1, i, s =>
    totalUp wrap pieces n (i + 1) (if pieces.getD i 0 > 1 then wrap (s * pieces.getD i 0) else s)

/-- The arrays `numerPieces` and `denomPieces` of `divFactorials` after the cancellation. -/
def cancelled (numerator : Nat) (denominators : List Nat) : List Nat × List Nat :=
  let p := explode denominators 26 0
    { numerPieces := List.replicate 26 0, denomPieces := List.replicate 26 0,
      numTemp := numerator, denomTemp := 0 }
  cancelOuter numerator p.denomTemp numerator 0 p.numerPieces p.denomPieces

/-- The value of `denomTemp` in `divFactorials` after the explosion. -/
def denomCount (numerator : Nat) (denominators : List Nat) : Nat :=
  (explode denominators 26 0
    { numerPieces := List.replicate 26 0, denomPieces := List.replicate 26 0,
      numTemp := numerator, denomTemp := 0 }).denomTemp

/-- The value of `numSum` in `divFactorials`. -/
def numSum (wrap : Nat → Nat) (numerator : Nat) (denominators : List Nat) : Nat :=
  totalUp wrap (cancelled numerator denominators).1 numerator 0 1

/-- The value of `demSum` in `divFactorials`. -/
def demSum (wrap : Nat → Nat) (numerator : Nat) (denominators : List Nat) : Nat :=
  totalUp wrap (cancelled numerator denominators).2 (denomCount numerator denominators) 0 1

/-- The value `exBit` that `divFactorials` adds to `extraSum`. -/
def exBit (wrap : Nat → Nat) (numerator : Nat) (denominators : List Nat) : ℚ :=
  if numSum wrap numerator denominators % demSum wrap numerator denominators ≠ 0 then
    ((numSum wrap numerator denominators % demSum wrap numerator denominators : Nat) : ℚ) /
      ((demSum wrap numerator denominators : Nat) : ℚ)
  else 0

/-- The function `divFactorials`: returns `result` and the globals with `extraSum` updated. -/
def divFactorials (wrap : Nat → Nat) (numerator : Nat) (denominators : List Nat)
    (g : Globals) : Nat × Globals :=
  (numSum wrap numerator denominators / demSum wrap numerator denominators,
   { g with extraSum := g.extraSum + exBit wrap numerator denominators })

/-- Assignment of `v` to `penalty`. -/
def setPenalty (g : Globals) (v : Nat) : Globals :=
  { g with penalty := v, peak := max g.peak v }

/-- Assignment of `v` to `totalPenalty`. -/
def setTotalPenalty (g : Globals) (v : Nat) : Globals :=
  { g with totalPenalty := v, peak := max g.peak v }

/-- The body of the `if(newAlpha[j]!=word[i])` branch of `wordToNumber`: `penalty` grows
by `divFactorials(strlen(word) - reit - 1, counts)` when `repeatsTrue` is set, and by
`factorials[strlen(word) - reit - 1]` otherwise. -/
def addPenalty (wrap : Nat → Nat) (word : List Nat) (reit : Nat) (g : Globals) : Globals :=
  if g.repeatsTrue ≠ 0 then
    setPenalty (divFactorials wrap (word.length - reit - 1) g.counts g).2
      (wrap ((divFactorials wrap (word.length - reit - 1) g.counts g).2.penalty +
        (divFactorials wrap (word.length - reit - 1) g.counts g).1))
  else
    setPenalty g (wrap (g.penalty + factorials.getD (word.length - reit - 1) 0))

/-- The loop of `wordToNumber` over the alphabetized word, from position `j` to the first
match: returns the index of the match, if there is one, and the globals. -/
def scanAlpha (wrap : Nat → Nat) (word newAlpha : List Nat) (reit i : Nat) :
    Nat → Nat → Globals → Option Nat × Globals
  | 0, _, g => (none, g)
  | n + 1, j, g =>
    if newAlpha.getD j 0 ≠ word.getD i 0 then
      scanAlpha wrap word newAlpha reit i n (j + 1) (addPenalty wrap word reit g)
    else (some j, g)

/-- The loop over `k` in the match branch of `wordToNumber`: the count of the matched
letter `c` is reduced if it is above 1, and `repeatsTrue` is recomputed. -/
def decrementCount (c : Nat) : Nat → Nat → Globals → Globals
  | 0, _, g => g
  | n + 1, k, g =>
    if upper.getD k 0 = c ∧ g.counts.getD k 0 > 1 then
      { g with
        counts := g.counts.set k (g.counts.getD k 0 - 1)
        repeatsTrue := checkCounts { g with counts := g.counts.set k (g.counts.getD k 0 - 1) } }
    else decrementCount c n (k + 1) g

/-- The match branch of `wordToNumber` up to the recursive call, for the matched letter
`c`: the count of `c` is reduced, `penalty` is added to `totalPenalty` and reset. -/
def matchStep (wrap : Nat → Nat) (c : Nat) (g : Globals) : Globals :=
  { setTotalPenalty (decrementCount c 26 0 g)
      (wrap ((decrementCount c 26 0 g).totalPenalty + (decrementCount c 26 0 g).penalty)) with
    penalty := 0 }

/-- The number printed at the end of `wordToNumber`. -/
def printedRank (wrap : Nat → Nat) (g : Globals) : Nat :=
  wrap (g.totalPenalty + wrap (Int.toNat (Rat.floor g.extraSum)))

/-- The loop over `i` of `wordToNumber` together with the recursive call: a match at `j`
leaves the loop through the call `wordToNumber(word, newWord1, strlen(newWord1), i+1)`.
Returns the printed rank and the final globals. -/
def wordToNumberLoop (wrap : Nat → Nat) (word : List Nat) :
    Nat → List Nat → Nat → Nat → Nat → Globals → Option (Nat × Globals)
  | 0, _, _, _, _, _ => none
  | fuel + 1, newAlpha, alphaLength, reit, i, g =>
    if i < g.wordLength then
      match scanAlpha wrap word newAlpha reit i alphaLength 0 g with
      | (some j, g1) =>
        wordToNumberLoop wrap word fuel
          (shrinkWord newAlpha (newAlpha.getD j 0) [])
          (shrinkWord newAlpha (newAlpha.getD j 0) []).length (i + 1) (i + 1)
          (matchStep wrap (newAlpha.getD j 0) g1)
      | (none, g1) => wordToNumberLoop wrap word fuel newAlpha alphaLength reit (i + 1) g1
    else some (printedRank wrap g, g)

/-- The function `wordToNumber`. -/
def wordToNumber (wrap : Nat → Nat) (fuel : Nat) (word newAlpha : List Nat)
    (alphaLength reit : Nat) (g : Globals) : Option (Nat × Globals) :=
  wordToNumberLoop wrap word fuel newAlpha alphaLength reit reit g

/-- The function `printErr`, as the truth value of its result. -/
def printErr (num : Nat) : Bool := num ≠ 0

/-- The function `main`: `argv` holds the program name and the arguments. Returns the exit
status, the rank that was printed, if any, and the final globals. -/
def main (wrap : Nat → Nat) (fuel : Nat) (argv : List (List Nat)) :
    Option (Nat × Option Nat × Globals) :=
  if argv.length < 2 then
    some (ERR_TOO_FEW_WORDS, none, { initGlobals with err := ERR_TOO_FEW_WORDS })
  else if argv.length > 2 then
    some (ERR_TOO_MANY_WORDS, none, { initGlobals with err := ERR_TOO_MANY_WORDS })
  else
    let g0 : Globals := { initGlobals with wordLength := (argv.getD 1 []).length }
    let g1 : Globals :=
      if g0.wordLength < 1 then { g0 with err := g0.err ||| ERR_TOO_FEW_LETTERS }
      else if g0.wordLength > 25 then { g0 with err := g0.err ||| ERR_TOO_MANY_LETTERS }
      else g0
    match checkWord fuel (argv.getD 1 []) g1 with
    | none => none
    | some (e, g2) =>
      let g3 : Globals := { g2 with err := g2.err ||| e }
      if printErr g3.err then some (g3.err, none, g3)
      else
        let g4 : Globals := { g3 with repeatsTrue := checkCounts g3 }
        match wordToNumber wrap fuel (argv.getD 1 []) g4.alphaWord g4.wordLength 0 g4 with
        | none => none
        | some (r, g5) => some (0, some r, g5)

/-- The rank the program prints for the single argument `word`, if it prints one; the fuel
suffices for every word of fewer than 256 characters. -/
def reportedRank (word : List Nat) : Option Nat :=
  match main u64 (word.length + 1) [[], word] with
  | some (_, r, _) => r
  | none => none

/-! ## The specification -/

/-- A valid word: 1 to 25 capital letters. -/
def validWord (w : List Nat) : Prop :=
  1 ≤ w.length ∧ w.length ≤ 25 ∧ ∀ c ∈ w, 65 ≤ c ∧ c ≤ 90

/-- The program, called with the single argument `w`, exits with status 0 after printing
the rank `r`, whatever the program name and for every sufficient amount of fuel. -/
def reports (w : List Nat) (r : Nat) : Prop :=
  ∀ (fuel : Nat) (name : List Nat), w.length < fuel →
    ∃ g, main u64 fuel [name, w] = some (0, some r, g)

/-- Strict lexicographic order on words. -/
def lexLt : List Nat → List Nat → Bool
  | [], [] => false
  | [], _ :: _ => true
  | _ :: _, [] => false
  | a :: as, b :: bs => decide (a < b) || (a == b && lexLt as bs)

/-- The distinct rearrangements of the letters of a word. -/
def rearrangements (w : List Nat) : List (List Nat) := w.permutations.dedup

/-- The number of distinct rearrangements of `w` that are lexicographically smaller
than `w`. -/
def countBelow (w : List Nat) : Nat :=
  ((rearrangements w).filter (fun p => lexLt p w)).length

/-- The rank of a word: its 1-based position in the ascending lexicographic list of the
distinct rearrangements of its letters. -/
def lexRank (w : List Nat) : Nat := 1 + countBelow w

/-- The product of `r!` over the multiplicities `r` of the distinct letters of `w`. -/
def repeatProduct (w : List Nat) : Nat := (w.dedup.map (fun c => (w.count c).factorial)).prod

/-- The number `n! / (r_1! * ... * r_k!)`, as a quotient of natural numbers. -/
def arrangementCount (w : List Nat) : Nat := w.length.factorial / repeatProduct w

/-- The number of distinct rearrangements of `w` whose first letter is below `a`. -/
def smallerFirst (w : List Nat) (a : Nat) : Nat :=
  ∑ b in w.toFinset.filter (fun b => b < a), (rearrangements (w.erase b)).length

/-- The number of distinct rearrangements below `w`, counted position by position: a
smaller letter `b` in first place leaves `(n-1)! / ∏ r!` arrangements of the rest, with
`r` the multiplicities after the removal of `b`; summed over the occurrences of the smaller
letters this is `j * (n-1)! / ∏ r!` with `j` their number and `r` the multiplicities in
`w`. -/
def countingBelow : List Nat → Nat
  | [] => 0
  | c :: s =>
    ((c :: s).filter (fun b => b < c)).length * s.length.factorial / repeatProduct (c :: s) +
      countingBelow s

/-- The letter counts of a word, as `checkWord` stores them in `counts`. -/
def letterCounts (w : List Nat) : List Nat := (List.range 26).map (fun k => w.count (65 + k))

/-- The product of `r!` over the entries `r > 1` of a denominators array. -/
def denomProduct (denominators : List Nat) : Nat :=
  ((List.range 26).map
    (fun k => if denominators.getD k 0 > 1 then (denominators.getD k 0).factorial else 1)).prod

/-- The sum of the entries greater than 1 of a denominators array. -/
def repeatSum (denominators : List Nat) : Nat :=
  ((List.range 26).map
    (fun k => if denominators.getD k 0 > 1 then denominators.getD k 0 else 0)).sum

/-- The product of the first `k` entries of an array. -/
def prodUpTo (l : List Nat) (k : Nat) : Nat := ∏ t in Finset.range k, l.getD t 0

/-- The invariant of the cancellation loop of `divFactorials`: the factors stay positive
and the quotient of the two products stays `N0 / D0`. -/
def cancelInv (n dt N0 D0 : Nat) (np dp : List Nat) : Prop :=
  np.length = 26 ∧ dp.length = 26 ∧ (∀ t, t < n → 1 ≤ np.getD t 0) ∧
    (∀ t, t < dt → 1 ≤ dp.getD t 0) ∧ prodUpTo np n * D0 = N0 * prodUpTo dp dt ∧
    prodUpTo dp dt ≤ D0

/-- The invariant of the explosion loop of `divFactorials` before letter `i`. -/
def explodeInv (den : List Nat) (n i : Nat) (p : Pieces) : Prop :=
  p.numerPieces.length = 26 ∧ p.denomPieces.length = 26 ∧ p.numTemp = n - i ∧
    (∀ t, t < i → t < n → p.numerPieces.getD t 0 = n - t) ∧
    p.denomTemp = ∑ t in Finset.range i, (den.getD t 0 - 1) ∧
    prodUpTo p.denomPieces p.denomTemp = ∏ t in Finset.range i, (den.getD t 0).factorial ∧
    ∀ t, t < p.denomTemp → 1 ≤ p.denomPieces.getD t 0

/-- The amount one mismatch adds to `penalty` in `wordToNumber`, for the numerator
degree `m`. -/
def costQ (wrap : Nat → Nat) (m : Nat) (g : Globals) : Nat :=
  if g.repeatsTrue ≠ 0 then numSum wrap m g.counts / demSum wrap m g.counts
  else factorials.getD m 0

/-- The amount one mismatch adds to `extraSum` in `wordToNumber`. -/
def costF (wrap : Nat → Nat) (m : Nat) (g : Globals) : ℚ :=
  if g.repeatsTrue ≠ 0 then exBit wrap m g.counts else 0

/-- The invariant of `wordToNumber` at position `i` of the word `w`: `alpha` holds the
letters not yet matched in ascending order, and `counts` holds their multiplicities, with 1
in the place of a multiplicity that has dropped to 0. -/
def rankInv (w : List Nat) (i : Nat) (alpha : List Nat) (g : Globals) : Prop :=
  g.wordLength = w.length ∧ i ≤ w.length ∧ alpha.Sorted (fun a b => a ≤ b) ∧
    alpha.Perm (w.drop i) ∧ g.counts.length = 26 ∧
    (∀ k, k < 26 → max 1 (g.counts.getD k 0) = max 1 ((w.drop i).count (65 + k))) ∧
    g.repeatsTrue = checkCounts g ∧ ∀ c ∈ w, 65 ≤ c ∧ c ≤ 90

/-- Every position of `w` at which some remaining letter is smaller than the letter of
the word has at most 20 letters left, or at most 21 letters, all distinct. -/
def safeFrom : List Nat → Prop
  | [] => True
  | c :: s =>
    ((∃ b ∈ s, b < c) →
        (c :: s).length ≤ 20 ∨ ((c :: s).Nodup ∧ (c :: s).length ≤ 21)) ∧
      safeFrom s

instance decidableValidWord (w : List Nat) : Decidable (validWord w) := by
  unfold validWord
  infer_instance

/-! ## Words used as examples -/

/-- The word `BACDEFGHIJKLMNOPQRSTUV`: 22 distinct letters. -/
def wordBACD : List Nat :=
  [66, 65, 67, 68, 69, 70, 71, 72, 73, 74, 75, 76, 77, 78, 79, 80, 81, 82, 83, 84, 85, 86]

/-- The word `ABCDEFGHIJKLMNOPQRSTVU`: the same 22 letters. -/
def wordABVU : List Nat :=
  [65, 66, 67, 68, 69, 70, 71, 72, 73, 74, 75, 76, 77, 78, 79, 80, 81, 82, 83, 84, 86, 85]

/-- The word `HMOEDUFJGLASKQBCIRTNP`: 21 distinct letters, with `2 ^ 64` rearrangements
below it. -/
def wordHMOE : List Nat :=
  [72, 77, 79, 69, 68, 85, 70, 74, 71, 76, 65, 83, 75, 81, 66, 67, 73, 82, 84, 78, 80]

/-- The word `HMOEDUFJGLASKQBCIRPTN`: 21 distinct letters, with `2 ^ 64 - 1`
rearrangements below it. -/
def wordHMOP : List Nat :=
  [72, 77, 79, 69, 68, 85, 70, 74, 71, 76, 65, 83, 75, 81, 66, 67, 73, 82, 80, 84, 78]

/-- The word `UTSRQPONMLKJIHGFEDCBA`: 21 distinct letters in descending order. -/
def wordUTSR : List Nat :=
  [85, 84, 83, 82, 81, 80, 79, 78, 77, 76, 75, 74, 73, 72, 71, 70, 69, 68, 67, 66, 65]

/-- The word `BAACDEFGHIJKLMNOPQRSTU`: 22 letters, `A` twice. -/
def wordBAAC : List Nat :=
  [66, 65, 65, 67, 68, 69, 70, 71, 72, 73, 74, 75, 76, 77, 78, 79, 80, 81, 82, 83, 84, 85]

/-- The word `ABCDYEFGHIJKLMNOPQRSTUVWX`: 25 distinct letters. -/
def wordABCDY : List Nat :=
  [65, 66, 67, 68, 89, 69, 70, 71, 72, 73, 74, 75, 76, 77, 78, 79, 80, 81, 82, 83, 84, 85, 86,
   87, 88]

/-- The word `ABCDEFGHIJKLMNOPQRSTUVWXY`: 25 distinct letters in ascending order. -/
def wordAtoY : List Nat :=
  [65, 66, 67, 68, 69, 70, 71, 72, 73, 74, 75, 76, 77, 78, 79, 80, 81, 82, 83, 84, 85, 86, 87,
   88, 89]

/-- The word `BBCEGGGHEBCHGFAADDHHGFFDH`: 25 letters with repeats. -/
def wordBBCE : List Nat :=
  [66, 66, 67, 69, 71, 71, 71, 72, 69, 66, 67, 72, 71, 70, 65, 65, 68, 68, 72, 72, 71, 70, 70,
   68, 72]

/-! ## The program, observed -/

/-- Inner loop of the second part of `checkWord`, as the indices `letterCount` at which
`alphaWord` is written for `n` more copies of a letter; `letterCount` is an
`unsigned char`. -/
def alphaWritesInner : Nat → Nat → List Nat
  | 0, _ => []
  | n + 1, letterCount => letterCount :: alphaWritesInner n ((letterCount + 1) % 256)

/-- Outer loop of the second part of `checkWord`, as the indices written from letter `j`
on. -/
def alphaWritesOuter (counts : List Nat) : Nat → Nat → Nat → List Nat
  | 0, _, _ => []
  | n + 1, j, letterCount =>
    alphaWritesInner (counts.getD j 0) letterCount ++
      alphaWritesOuter counts n (j + 1) ((letterCount + counts.getD j 0) % 256)

/-- The indices `letterCount` of the writes `alphaWord[letterCount] = upper[j]` that
`checkWord` performs, in order; `none` when the first loop does not end. -/
def checkWordWrites (fuel : Nat) (word : List Nat) (g : Globals) : Option (List Nat) :=
  match checkWordCount fuel word 0 g with
  | none => none
  | some (e, g1) => if e ≠ 0 then some [] else some (alphaWritesOuter g1.counts 26 0 0)

/-- What a run of `wordToNumber` does, as far as it can be observed from outside. -/
inductive Event where
  /-- The call `wordToNumber(word, newAlpha, alphaLength, reit)`, entered with globals `g`. -/
  | call (newAlpha : List Nat) (alphaLength reit : Nat) (g : Globals)
  /-- The loop over `j` for position `i` has ended after `compares` evaluations of
  `newAlpha[j] != word[i]`. -/
  | scan (i compares : Nat)
  /-- A mismatch that calls `divFactorials(numerator, denominators)`. -/
  | divide (numerator : Nat) (denominators : List Nat)
  /-- A mismatch that reads `factorials[index]`. -/
  | table (index : Nat)
  /-- The loop over `k` after a match has ended after `compares` evaluations of
  `upper[k] == newAlpha[j]`. -/
  | lookup (compares : Nat)
  /-- The function `shrinkWord` has not found the letter and has reported an error. -/
  | shrinkError
  /-- The rank has been printed. -/
  | print (rank : Nat)

/-- The events of the loop of `wordToNumber` over the alphabetized word, from position
`j` on, `j` comparisons having been made: one event for each mismatch, then the number
of comparisons made when the loop is left, by a match or at the end of the word. -/
def scanAlphaTrace (wrap : Nat → Nat) (word newAlpha : List Nat) (reit i : Nat) :
    Nat → Nat → Globals → List Event
  | 0, j, _ => [Event.scan i j]
  | n + 1, j, g =>
    if newAlpha.getD j 0 ≠ word.getD i 0 then
      (if g.repeatsTrue ≠ 0 then Event.divide (word.length - reit - 1) g.counts
        else Event.table (word.length - reit - 1)) ::
        scanAlphaTrace wrap word newAlpha reit i n (j + 1) (addPenalty wrap word reit g)
    else [Event.scan i (j + 1)]

/-- The number of evaluations of `upper[k] == newAlpha[j]` in the loop over `k` in the
match branch of `wordToNumber`, from letter `k` on. -/
def decrementCountCompares (c : Nat) : Nat → Nat → Globals → Nat
  | 0, k, _ => k
  | n + 1, k, g =>
    if upper.getD k 0 = c ∧ g.counts.getD k 0 > 1 then k + 1
    else decrementCountCompares c n (k + 1) g

/-- The events of `wordToNumberLoop`, in order. -/
def wordToNumberTrace (wrap : Nat → Nat) (word : List Nat) :
    Nat → List Nat → Nat → Nat → Nat → Globals → List Event
  | 0, _, _, _, _, _ => []
  | fuel + 1, newAlpha, alphaLength, reit, i, g =>
    if i < g.wordLength then
      scanAlphaTrace wrap word newAlpha reit i alphaLength 0 g ++
        match scanAlpha wrap word newAlpha reit i alphaLength 0 g with
        | (some j, g1) =>
          Event.lookup (decrementCountCompares (newAlpha.getD j 0) 26 0 g1) ::
            ((if newAlpha.indexOf (newAlpha.getD j 0) = newAlpha.length then [Event.shrinkError]
              else []) ++
            Event.call (shrinkWord newAlpha (newAlpha.getD j 0) [])
                (shrinkWord newAlpha (newAlpha.getD j 0) []).length (i + 1)
                (matchStep wrap (newAlpha.getD j 0) g1) ::
              wordToNumberTrace wrap word fuel (shrinkWord newAlpha (newAlpha.getD j 0) [])
                (shrinkWord newAlpha (newAlpha.getD j 0) []).length (i + 1) (i + 1)
                (matchStep wrap (newAlpha.getD j 0) g1))
        | (none, g1) => wordToNumberTrace wrap word fuel newAlpha alphaLength reit (i + 1) g1
    else [Event.print (printedRank wrap g)]

/-- The events of `main`: none when `wordToNumber` is not called, else the call
`wordToNumber(argv[1], alphaWord, wordLength, 0)` and what follows from it. -/
def mainTrace (wrap : Nat → Nat) (fuel : Nat) (argv : List (List Nat)) : List Event :=
  if argv.length < 2 then []
  else if argv.length > 2 then []
  else
    let g0 : Globals := { initGlobals with wordLength := (argv.getD 1 []).length }
    let g1 : Globals :=
      if g0.wordLength < 1 then { g0 with err := g0.err ||| ERR_TOO_FEW_LETTERS }
      else if g0.wordLength > 25 then { g0 with err := g0.err ||| ERR_TOO_MANY_LETTERS }
      else g0
    match checkWord fuel (argv.getD 1 []) g1 with
    | none => []
    | some (e, g2) =>
      let g3 : Globals := { g2 with err := g2.err ||| e }
      if printErr g3.err then []
      else
        let g4 : Globals := { g3 with repeatsTrue := checkCounts g3 }
        Event.call g4.alphaWord g4.wordLength 0 g4 ::
          wordToNumberTrace wrap (argv.getD 1 []) fuel g4.alphaWord g4.wordLength 0 0 g4

/-- The globals after the checks of the word length in `main`, for the single word
`word`. -/
def lengthChecked (word : List Nat) : Globals :=
  if word.length < 1 then
    { initGlobals with wordLength := word.length, err := 0 ||| ERR_TOO_FEW_LETTERS }
  else if word.length > 25 then
    { initGlobals with wordLength := word.length, err := 0 ||| ERR_TOO_MANY_LETTERS }
  else { initGlobals with wordLength := word.length }

/-- Whether an event is a call of `wordToNumber`. -/
def Event.isCall : Event → Bool
  | Event.call _ _ _ _ => true
  | _ => false

/-- Whether an event is the end of a loop over the alphabetized word. -/
def Event.isScan : Event → Bool
  | Event.scan _ _ => true
  | _ => false

/-- Whether an event is the printing of the rank. -/
def Event.isPrint : Event → Bool
  | Event.print _ => true
  | _ => false

/-- The inner loop of the explosion in `divFactorials`, with every access checked: `none`
as soon as an index into `denomPieces` is not below 26. -/
def explodeDenomChecked (d denomTemp : Nat) : Nat → Nat → List Nat → Option (List Nat)
  | 0, _, dp => some dp
  | n + 1, j, dp =>
    if denomTemp + j < 26 then
      explodeDenomChecked d denomTemp n (j + 1) (dp.set (denomTemp + j) (d - j))
    else none

/-- The explosion loop of `divFactorials`, with every access to `numerPieces` and
`denomPieces` checked. -/
def explodeChecked (denominators : List Nat) : Nat → Nat → Pieces → Option Pieces
  | 0, _, p => some p
  | n + 1, i, p =>
    match
      (if denominators.getD i 0 > 1 then
        if p.denomTemp < 26 then
          match explodeDenomChecked (denominators.getD i 0) p.denomTemp
              (denominators.getD i 0 - 1) 1 (p.denomPieces.set p.denomTemp (denominators.getD i 0))
          with
          | none => none
          | some dp =>
            some { p with denomPieces := dp, denomTemp := p.denomTemp + (denominators.getD i 0 - 1) }
        else none
      else some p : Option Pieces) with
    | none => none
    | some p1 =>
      if p1.numTemp ≠ 0 then
        if i < 26 then
          explodeChecked denominators n (i + 1)
            { p1 with numerPieces := p1.numerPieces.set i p1.numTemp, numTemp := p1.numTemp - 1 }
        else none
      else explodeChecked denominators n (i + 1) p1

/-- The inner loop of the cancellation, with every access checked: `none` as soon as
`numerPieces[i]` or `denomPieces[j]` is read or written with an index that is not below 26,
or `denomPieces[j]` is 0 when it is used as a divisor. -/
def cancelInnerChecked (i : Nat) :
    Nat → Nat → List Nat → List Nat → Option (List Nat × List Nat × Nat)
  | 0, _, np, dp => some (np, dp, i)
  | n + 1, j, np, dp =>
    if i < 26 ∧ j < 26 ∧ dp.getD j 0 ≠ 0 then
      if np.getD i 0 % dp.getD j 0 = 0 then
        if np.getD i 0 / dp.getD j 0 = 1 then
          some (np.set i 1, dp.set j 1, i + 1)
        else if np.getD i 0 / dp.getD j 0 < np.getD i 0 then
          some (np.set i (np.getD i 0 / dp.getD j 0), dp.set j 1, i + 1)
        else cancelInnerChecked i n (j + 1) np dp
      else cancelInnerChecked i n (j + 1) np dp
    else none

/-- The outer loop of the cancellation over the checked inner loop. -/
def cancelOuterChecked (numerator denomTemp : Nat) :
    Nat → Nat → List Nat → List Nat → Option (List Nat × List Nat)
  | 0, _, np, dp => some (np, dp)
  | fuel + 1, i, np, dp =>
    if i < numerator then
      match cancelInnerChecked i denomTemp 0 np dp with
      | none => none
      | some (np1, dp1, i1) => cancelOuterChecked numerator denomTemp fuel (i1 + 1) np1 dp1
    else some (np, dp)

/-- The loops that total up the factors, with every access checked. -/
def totalUpChecked (wrap : Nat → Nat) (pieces : List Nat) : Nat → Nat → Nat → Option Nat
  | 0, _, s => some s
  | n + 1, i, s =>
    if i < 26 then
      totalUpChecked wrap pieces n (i + 1)
        (if pieces.getD i 0 > 1 then wrap (s * pieces.getD i 0) else s)
    else none

/-- The function `divFactorials` with every access to `numerPieces` and `denomPieces` and
every division checked: `none` when an index is not below 26 or a divisor is 0. -/
def divFactorialsChecked (wrap : Nat → Nat) (numerator : Nat) (denominators : List Nat)
    (g : Globals) : Option (Nat × Globals) :=
  match explodeChecked denominators 26 0
      { numerPieces := List.replicate 26 0, denomPieces := List.replicate 26 0,
        numTemp := numerator, denomTemp := 0 } with
  | none => none
  | some p =>
    match cancelOuterChecked numerator p.denomTemp numerator 0 p.numerPieces p.denomPieces with
    | none => none
    | some (np, dp) =>
      match totalUpChecked wrap np numerator 0 1, totalUpChecked wrap dp p.denomTemp 0 1 with
      | some ns, some ds =>
        if ds = 0 then none
        else
          some (ns / ds,
            { g with
              extraSum := g.extraSum +
                (if ns % ds ≠ 0 then ((ns % ds : Nat) : ℚ) / ((ds : Nat) : ℚ) else 0) })
      | _, _ => none

/-! ## The specification, continued -/

/-- The scan of the reference pass for the numerator factor `i`: the first denominator
factor from `j` on that divides it evenly either cancels with it (quotient 1) or is set to
1 while the numerator factor is replaced by the quotient. With `reduced` set, a factor
only counts when the quotient is 1 or smaller than the numerator factor, so that the
factors already cancelled are passed over. -/
def referenceScan (reduced : Bool) (i : Nat) :
    Nat → Nat → List Nat → List Nat → List Nat × List Nat
  | 0, _, np, dp => (np, dp)
  | n + 1, j, np, dp =>
    if np.getD i 0 % dp.getD j 0 = 0 ∧
        (reduced = true →
          np.getD i 0 / dp.getD j 0 = 1 ∨ np.getD i 0 / dp.getD j 0 < np.getD i 0) then
      if np.getD i 0 / dp.getD j 0 = 1 then (np.set i 1, dp.set j 1)
      else (np.set i (np.getD i 0 / dp.getD j 0), dp.set j 1)
    else referenceScan reduced i n (j + 1) np dp

/-- The reference pass of the specification: every numerator factor `i, i+1, ...` is
visited in turn, none is skipped. -/
def referencePass (reduced : Bool) (denomTemp : Nat) :
    Nat → Nat → List Nat → List Nat → List Nat × List Nat
  | 0, _, np, dp => (np, dp)
  | n + 1, i, np, dp =>
    referencePass reduced denomTemp n (i + 1) (referenceScan reduced i denomTemp 0 np dp).1
      (referenceScan reduced i denomTemp 0 np dp).2

/-- The arrays the reference pass leaves for `divFactorials(numerator, denominators)`. -/
def referenceCancelled (reduced : Bool) (numerator : Nat) (denominators : List Nat) :
    List Nat × List Nat :=
  let p := explode denominators 26 0
    { numerPieces := List.replicate 26 0, denomPieces := List.replicate 26 0,
      numTemp := numerator, denomTemp := 0 }
  referencePass reduced p.denomTemp numerator 0 p.numerPieces p.denomPieces

/-- The array `counts` at position `i` of the word `w`: the multiplicity among the letters
not yet matched, with 1 in the place of 0, for a letter of `w`, and 0 for any other
letter. -/
def countsInv (w : List Nat) (i : Nat) (g : Globals) : Prop :=
  ∀ k, k < 26 →
    g.counts.getD k 0 = if 65 + k ∈ w then max 1 ((w.drop i).count (65 + k)) else 0

/-- The penalty of a mismatch as an exact rational number: the quotient of the exact
products `numSum` and `demSum`, or the entry of the table. -/
def exactPenalty : Event → ℚ
  | Event.divide n den => ((numSum id n den : Nat) : ℚ) / ((demSum id n den : Nat) : ℚ)
  | Event.table m => ((factorials.getD m 0 : Nat) : ℚ)
  | _ => 0

/-- The fraction `remain / demSum` a mismatch adds to `extraSum`, with exact products. -/
def fraction : Event → ℚ
  | Event.divide n den => exBit id n den
  | _ => 0

/-- A word of 27 letters `A`. -/
def wordA27 : List Nat := List.replicate 27 65

/-- A word of 256 letters `A`. -/
def wordA256 : List Nat := List.replicate 256 65

/-- The word `BAAAC`. -/
def wordBAAAC : List Nat := [66, 65, 65, 65, 67]

/-- The globals of the run of `BA` when `wordToNumber` calls itself for position 1. -/
def globalsBA : Globals :=
  { err := 0, wordLength := 2, counts := 1 :: 1 :: List.replicate 24 0, repeatsTrue := 0,
    alphaWord := [65, 66], penalty := 0, totalPenalty := 2, extraSum := 0, peak := 2 }

/-- The globals of the run of `AAB` when `wordToNumber` calls itself for position 2. -/
def globalsAAB : Globals :=
  { err := 0, wordLength := 3, counts := 1 :: 1 :: List.replicate 24 0, repeatsTrue := 0,
    alphaWord := [65, 65, 66], penalty := 0, totalPenalty := 1, extraSum := 0, peak := 1 }

/-! ## The floating-point arithmetic of the program -/

/-- Rounding of a rational number to the nearest integer, a tie going to the even one. -/
def roundHalfEven (m : ℚ) : ℤ :=
  if m - (⌊m⌋ : ℚ) < 1 / 2 then ⌊m⌋
  else if 1 / 2 < m - (⌊m⌋ : ℚ) then ⌊m⌋ + 1
  else if ⌊m⌋ % 2 = 0 then ⌊m⌋ else ⌊m⌋ + 1

/-- Rounding of a rational number to the nearest binary floating-point number with a
significand of `p` bits, a tie going to the even significand (the default rounding of
IEEE 754). The exponent is unbounded: the values of a run are far from the overflow and
underflow thresholds of `float` and `double`. -/
def roundNearest (p : Nat) (x : ℚ) : ℚ :=
  if x = 0 then 0
  else
    (if x < 0 then -1 else 1) *
      ((roundHalfEven (|x| / (2 : ℚ) ^ (Int.log 2 |x| - p + 1)) : ℤ) : ℚ) *
        (2 : ℚ) ^ (Int.log 2 |x| - p + 1)

/-- Conversion to `double`, and the rounding of a `double` operation: 53 bits. -/
def toDouble (x : ℚ) : ℚ := roundNearest 53 x

/-- Conversion to `float`: 24 bits. -/
def toFloat (x : ℚ) : ℚ := roundNearest 24 x

/-- The value `exBit` of `divFactorials` in `double` arithmetic:
`(double) remain / (double) demSum` when `remain` is not 0, and `0.0` otherwise. -/
def exBitDouble (wrap : Nat → Nat) (numerator : Nat) (denominators : List Nat) : ℚ :=
  if numSum wrap numerator denominators % demSum wrap numerator denominators ≠ 0 then
    toDouble
      (toDouble ((numSum wrap numerator denominators % demSum wrap numerator denominators :
          Nat) : ℚ) /
        toDouble ((demSum wrap numerator denominators : Nat) : ℚ))
  else 0

/-- The `double` variable `extraSum` after the events `es`, from the value `s`: every call
of `divFactorials` runs `extraSum += exBit` in `double` arithmetic. -/
def extraSumDouble (wrap : Nat → Nat) : List Event → ℚ → ℚ
  | [], s => s
  | Event.divide n den :: es, s =>
    extraSumDouble wrap es (toDouble (s + exBitDouble wrap n den))
  | Event.call _ _ _ _ :: es, s => extraSumDouble wrap es s
  | Event.scan _ _ :: es, s => extraSumDouble wrap es s
  | Event.table _ :: es, s => extraSumDouble wrap es s
  | Event.lookup _ :: es, s => extraSumDouble wrap es s
  | Event.shrinkError :: es, s => extraSumDouble wrap es s
  | Event.print _ :: es, s => extraSumDouble wrap es s

/-- The rank that `wordToNumber` prints,
`(unsigned long long)totalPenalty + (unsigned long long)(float)extraSum`, from the value
of `totalPenalty` and the `double` value of `extraSum`. -/
def printedRankFloat (wrap : Nat → Nat) (totalPenalty : Nat) (extraSum : ℚ) : Nat :=
  wrap (totalPenalty + wrap (Int.toNat ⌊toFloat extraSum⌋))

/-- The function `main` with `extraSum` in `double` arithmetic: the exit status and the
rank printed. The integer variables are those of `main`; `extraSum` starts from `0.0` and
follows the calls of `divFactorials` that the run makes. -/
def mainFloat (wrap : Nat → Nat) (fuel : Nat) (argv : List (List Nat)) :
    Option (Nat × Option Nat) :=
  match main wrap fuel argv with
  | none => none
  | some (e, none, _) => some (e, none)
  | some (e, some _, g) =>
    some (e, some (printedRankFloat wrap g.totalPenalty
      (extraSumDouble wrap (mainTrace wrap fuel argv) 0)))

/-! ## The specification: runs in which no product wraps -/

/-- Whether the event is a call of `divFactorials`. -/
def Event.isDivide : Event → Bool
  | Event.divide _ _ => true
  | _ => false

/-- Whether the products of the event fit in 64 bits: for a call of `divFactorials`,
the products `numSum` and `demSum` over unbounded integers are below `2 ^ 64`. -/
def Event.fits : Event → Bool
  | Event.divide n den => decide (numSum id n den < 2 ^ 64) && decide (demSum id n den < 2 ^ 64)
  | _ => true

/-- No product wraps in the run of the program on the single word `w`, with the program
name `name` and the fuel `fuel`: the products of every call of `divFactorials` that the run
makes fit in 64 bits. -/
def runFits (fuel : Nat) (name w : List Nat) : Prop :=
  ∀ e ∈ mainTrace u64 fuel [name, w], e.fits = true

/-- The fraction `remain / demSum` a mismatch adds to `extraSum`, as an exact rational
number, in the arithmetic `wrap`. -/
def fractionOf (wrap : Nat → Nat) : Event → ℚ
  | Event.divide n den => exBit wrap n den
  | _ => 0

/-- The word `BBBBBBBBBBBBBBBBBBBAAAAAA` of the comment in `wordToNumber`: 19 letters `B`
and 6 letters `A`. -/
def wordB19A6 : List Nat :=
  [66, 66, 66, 66, 66, 66, 66, 66, 66, 66, 66, 66, 66, 66, 66, 66, 66, 66, 66, 65, 65, 65, 65,
   65, 65]

/-- The word `AAAAABBBBBBBBBBBBBBBBBBBA`, a rearrangement of `wordB19A6`. -/
def wordA5B19A : List Nat :=
  [65, 65, 65, 65, 65, 66, 66, 66, 66, 66, 66, 66, 66, 66, 66, 66, 66, 66, 66, 66, 66, 66, 66,
   66, 65]

/-- The word `ABCDEYXWVUTSRQPONMLKJIHGF`: 25 distinct letters, the last 20 descending. -/
def wordABCDEY : List Nat :=
  [65, 66, 67, 68, 69, 89, 88, 87, 86, 85, 84, 83, 82, 81, 80, 79, 78, 77, 76, 75, 74, 73, 72,
   71, 70]

/-- The word `ABCDEFGHIJKLMNOPQRSUT`: 21 distinct letters, the last two exchanged. -/
def wordAtoSUT : List Nat :=
  [65, 66, 67, 68, 69, 70, 71, 72, 73, 74, 75, 76, 77, 78, 79, 80, 81, 82, 83, 85, 84]

/-- The word `JIIIIIIIHHHGGFFFEDCCCBBBA`: 25 letters in descending order. -/
def wordJIII : List Nat :=
  [74, 73, 73, 73, 73, 73, 73, 73, 72, 72, 72, 71, 71, 70, 70, 70, 69, 68, 67, 67, 67, 66, 66,
   66, 65]

/-! ## The rank of a word: combinatorics -/

theorem mem_rearrangements {w p : List Nat} : p ∈ rearrangements w ↔ p.Perm w := by
  simp [rearrangements]

theorem nodup_rearrangements (w : List Nat) : (rearrangements w).Nodup := List.nodup_dedup _

/-- The rearrangements as a finite set. -/
theorem mem_toFinset_rearrangements {w p : List Nat} :
    p ∈ (rearrangements w).toFinset ↔ p.Perm w := by
  simp [mem_rearrangements]

theorem length_rearrangements (w : List Nat) :
    (rearrangements w).length = (rearrangements w).toFinset.card := by
  rw [List.toFinset_card_of_nodup (nodup_rearrangements w)]

theorem rearrangements_decomp (w : List Nat) (hw : w ≠ []) :
    (rearrangements w).toFinset =
      w.toFinset.biUnion
        (fun b => ((rearrangements (w.erase b)).toFinset).image (List.cons b)) := by
  ext p
  simp only [List.mem_toFinset, mem_rearrangements, Finset.mem_biUnion, Finset.mem_image]
  constructor
  · intro h
    cases p with
    | nil => exact absurd (List.Perm.nil_eq h) (Ne.symm hw) 
    | cons b q =>
      have := (List.cons_perm_iff_perm_erase).1 h
      exact ⟨b, this.1, q, this.2, rfl⟩
  · rintro ⟨b, hb, q, hq, rfl⟩
    exact (List.cons_perm_iff_perm_erase).2 ⟨hb, hq⟩

theorem length_rearrangements_decomp (w : List Nat) (hw : w ≠ []) :
    (rearrangements w).length = ∑ b in w.toFinset, (rearrangements (w.erase b)).length := by
  rw [length_rearrangements, rearrangements_decomp w hw, Finset.card_biUnion]
  · apply Finset.sum_congr rfl
    intro b _
    rw [Finset.card_image_of_injective _ (List.cons_injective), ← length_rearrangements]
  · intro b _ c _ hbc
    rw [Finset.disjoint_left]
    intro p hp hp2
    simp only [Finset.mem_image] at hp hp2
    obtain ⟨q, _, rfl⟩ := hp
    obtain ⟨q2, _, h2⟩ := hp2
    exact hbc (List.cons.inj h2).1.symm

theorem repeatProduct_eq (w : List Nat) :
    repeatProduct w = ∏ c in w.toFinset, (w.count c).factorial := by
  unfold repeatProduct
  rw [← List.prod_toFinset _ (List.nodup_dedup w)]
  congr 1
  ext c
  simp

theorem repeatProduct_eq_of_subset (w : List Nat) (F : Finset Nat) (h : w.toFinset ⊆ F) :
    repeatProduct w = ∏ c in F, (w.count c).factorial := by
  rw [repeatProduct_eq]
  apply Finset.prod_subset h
  intro c _ hc
  have : w.count c = 0 := List.count_eq_zero_of_not_mem (by simpa using hc)
  simp [this]

theorem repeatProduct_pos (w : List Nat) : 0 < repeatProduct w := by
  rw [repeatProduct_eq]
  exact Finset.prod_pos (fun c _ => Nat.factorial_pos _)

theorem repeatProduct_erase (w : List Nat) (b : Nat) (hb : b ∈ w) :
    repeatProduct w = w.count b * repeatProduct (w.erase b) := by
  have hsub : (w.erase b).toFinset ⊆ w.toFinset := by
    intro c hc
    simp only [List.mem_toFinset] at hc ⊢
    exact List.mem_of_mem_erase hc
  have hbF : b ∈ w.toFinset := by simpa using hb
  rw [repeatProduct_eq w, repeatProduct_eq_of_subset (w.erase b) w.toFinset hsub,
    ← Finset.mul_prod_erase _ _ hbF,
    ← Finset.mul_prod_erase _ (fun c => ((w.erase b).count c).factorial) hbF]
  have h1 : 0 < w.count b := List.count_pos_iff.mpr hb
  have h2 : (w.erase b).count b = w.count b - 1 := by simp [List.count_erase]
  have h3 : ∏ c in w.toFinset.erase b, ((w.erase b).count c).factorial =
      ∏ c in w.toFinset.erase b, (w.count c).factorial := by
    apply Finset.prod_congr rfl
    intro c hc
    have hne : c ≠ b := (Finset.mem_erase.1 hc).1
    have : (w.erase b).count c = w.count c := by
      rw [List.count_erase]
      have : (b == c) = false := by simpa using (Ne.symm hne)
      simp [this]
    rw [this]
  rw [h2, h3, ← mul_assoc, Nat.mul_factorial_pred h1]

theorem length_rearrangements_mul_aux (n : Nat) : ∀ w : List Nat, w.length = n →
    (rearrangements w).length * repeatProduct w = n.factorial := by
  induction n with
  | zero =>
    intro w h
    have : w = [] := List.length_eq_zero.1 h
    subst this
    simp [rearrangements, repeatProduct]
  | succ n ih =>
    intro w h
    have hw : w ≠ [] := by
      intro h0
      rw [h0] at h
      simp at h
    rw [length_rearrangements_decomp w hw, Finset.sum_mul]
    have hterm : ∀ b ∈ w.toFinset,
        (rearrangements (w.erase b)).length * repeatProduct w = w.count b * n.factorial := by
      intro b hb
      have hb' : b ∈ w := by simpa using hb
      have hl : (w.erase b).length = n := by
        rw [List.length_erase_of_mem hb', h]
        rfl
      rw [repeatProduct_erase w b hb', mul_left_comm, ih (w.erase b) hl]
    rw [Finset.sum_congr rfl hterm, ← Finset.sum_mul, List.sum_toFinset_count_eq_length, h,
      Nat.factorial_succ]

/-- The number of distinct rearrangements times the product of the factorials of the
letter multiplicities is the factorial of the length. -/
theorem length_rearrangements_mul (w : List Nat) :
    (rearrangements w).length * repeatProduct w = w.length.factorial :=
  length_rearrangements_mul_aux w.length w rfl

theorem arrangementCount_eq (w : List Nat) : arrangementCount w = (rearrangements w).length := by
  unfold arrangementCount
  rw [← length_rearrangements_mul w]
  exact Nat.mul_div_cancel _ (repeatProduct_pos w)

theorem countBelow_eq_card (w : List Nat) :
    countBelow w = ((rearrangements w).toFinset.filter (fun p => lexLt p w = true)).card := by
  unfold countBelow
  rw [← List.toFinset_card_of_nodup ((nodup_rearrangements w).filter _), List.toFinset_filter]

theorem below_decomp (a : Nat) (w : List Nat) :
    (rearrangements (a :: w)).toFinset.filter (fun p => lexLt p (a :: w) = true) =
      ((a :: w).toFinset.filter (fun b => b < a)).biUnion
          (fun b => ((rearrangements ((a :: w).erase b)).toFinset).image (List.cons b)) ∪
        ((rearrangements w).toFinset.filter (fun p => lexLt p w = true)).image (List.cons a) := by
  ext p
  simp only [Finset.mem_filter, List.mem_toFinset, mem_rearrangements, Finset.mem_union,
    Finset.mem_biUnion, Finset.mem_image]
  constructor
  · rintro ⟨hp, hlt⟩
    cases p with
    | nil => exact absurd (List.Perm.nil_eq hp) (by simp)
    | cons b q =>
      have hbq := (List.cons_perm_iff_perm_erase).1 hp
      simp only [lexLt, Bool.or_eq_true, decide_eq_true_eq, Bool.and_eq_true, beq_iff_eq] at hlt
      rcases hlt with hlt | ⟨hba, hlt⟩
      · exact Or.inl ⟨b, ⟨hbq.1, hlt⟩, q, hbq.2, rfl⟩
      · subst hba
        refine Or.inr ⟨q, ⟨?_, hlt⟩, rfl⟩
        simpa using hbq.2
  · rintro (⟨b, ⟨hb, hlt⟩, q, hq, rfl⟩ | ⟨q, ⟨hq, hlt⟩, rfl⟩)
    · refine ⟨(List.cons_perm_iff_perm_erase).2 ⟨hb, hq⟩, ?_⟩
      simp [lexLt, hlt]
    · refine ⟨List.Perm.cons a hq, ?_⟩
      simp [lexLt, hlt]

/-- The rearrangements below `a :: w` are those with a smaller first letter and those that
start with `a` and continue below `w`. -/
theorem countBelow_cons (a : Nat) (w : List Nat) :
    countBelow (a :: w) = smallerFirst (a :: w) a + countBelow w := by
  rw [countBelow_eq_card, below_decomp, Finset.card_union_of_disjoint, Finset.card_biUnion,
    Finset.card_image_of_injective _ (List.cons_injective), ← countBelow_eq_card]
  · congr 1
    apply Finset.sum_congr rfl
    intro b _
    rw [Finset.card_image_of_injective _ (List.cons_injective), ← length_rearrangements]
  · intro b _ c _ hbc
    rw [Finset.disjoint_left]
    intro p hp hp2
    simp only [Finset.mem_image] at hp hp2
    obtain ⟨q, _, rfl⟩ := hp
    obtain ⟨q2, _, h2⟩ := hp2
    exact hbc (List.cons.inj h2).1.symm
  · rw [Finset.disjoint_left]
    intro p hp hp2
    simp only [Finset.mem_biUnion, Finset.mem_filter, Finset.mem_image] at hp hp2
    obtain ⟨b, ⟨_, hlt⟩, q, _, rfl⟩ := hp
    obtain ⟨q2, _, h2⟩ := hp2
    have := (List.cons.inj h2).1
    omega

theorem countBelow_nil : countBelow [] = 0 := by
  simp [countBelow, rearrangements, lexLt]

theorem sum_count_filter_lt (w : List Nat) (a : Nat) :
    ∑ b in w.toFinset.filter (fun b => b < a), w.count b =
      (w.filter (fun b => b < a)).length := by
  rw [← List.sum_toFinset_count_eq_length, List.toFinset_filter]
  apply Finset.sum_congr
  · ext b; simp
  · intro b hb
    have hlt : b < a := by simpa using (Finset.mem_filter.1 hb).2
    rw [List.count_filter]
    simpa using hlt

/-- The rearrangements with a first letter below `a`, counted through the multiplicities. -/
theorem smallerFirst_mul (w : List Nat) (a : Nat) :
    smallerFirst w a * repeatProduct w =
      (w.filter (fun b => b < a)).length * (w.length - 1).factorial := by
  unfold smallerFirst
  rw [Finset.sum_mul, ← sum_count_filter_lt, Finset.sum_mul]
  apply Finset.sum_congr rfl
  intro b hb
  have hb' : b ∈ w := by simpa using (Finset.mem_filter.1 hb).1
  rw [repeatProduct_erase w b hb', mul_left_comm, length_rearrangements_mul,
    List.length_erase_of_mem hb']

theorem lexLt_irrefl (w : List Nat) : lexLt w w = false := by
  induction w with
  | nil => rfl
  | cons a w ih => simp [lexLt, ih]

theorem lexLt_trans : ∀ (u v w : List Nat), lexLt u v = true → lexLt v w = true →
    lexLt u w = true
  | [], [], _, h, _ => by simp [lexLt] at h
  | [], _ :: _, [], _, h => by simp [lexLt] at h
  | [], _ :: _, _ :: _, _, _ => by simp [lexLt]
  | _ :: _, [], _, h, _ => by simp [lexLt] at h
  | _ :: _, _ :: _, [], _, h => by simp [lexLt] at h
  | a :: u, b :: v, c :: w, h1, h2 => by
    simp only [lexLt, Bool.or_eq_true, decide_eq_true_eq, Bool.and_eq_true, beq_iff_eq] at h1 h2 ⊢
    rcases h1 with h1 | ⟨h1, h1'⟩ <;> rcases h2 with h2 | ⟨h2, h2'⟩
    · exact Or.inl (by omega)
    · exact Or.inl (by omega)
    · exact Or.inl (by omega)
    · exact Or.inr ⟨by omega, lexLt_trans u v w h1' h2'⟩

theorem lexLt_total : ∀ (u v : List Nat), u ≠ v → lexLt u v = true ∨ lexLt v u = true
  | [], [], h => absurd rfl h
  | [], _ :: _, _ => by simp [lexLt]
  | _ :: _, [], _ => by simp [lexLt]
  | a :: u, b :: v, h => by
    simp only [lexLt, Bool.or_eq_true, decide_eq_true_eq, Bool.and_eq_true, beq_iff_eq]
    rcases Nat.lt_trichotomy a b with hab | hab | hab
    · exact Or.inl (Or.inl hab)
    · subst hab
      have huv : u ≠ v := fun e => h (by rw [e])
      rcases lexLt_total u v huv with h' | h'
      · exact Or.inl (Or.inr ⟨rfl, h'⟩)
      · exact Or.inr (Or.inr ⟨rfl, h'⟩)
    · exact Or.inr (Or.inl hab)

theorem below_card_congr (u v : List Nat) (h : u.Perm v) :
    (rearrangements u).toFinset = (rearrangements v).toFinset := by
  ext p
  simp only [List.mem_toFinset, mem_rearrangements]
  exact ⟨fun hp => hp.trans h, fun hp => hp.trans h.symm⟩

theorem countBelow_lt_of_lexLt (u v : List Nat) (h : u.Perm v) (hlt : lexLt u v = true) :
    countBelow u < countBelow v := by
  rw [countBelow_eq_card, countBelow_eq_card, below_card_congr u v h]
  apply Finset.card_lt_card
  rw [Finset.ssubset_iff_of_subset]
  · refine ⟨u, ?_, ?_⟩
    · simp only [Finset.mem_filter, List.mem_toFinset, mem_rearrangements]
      exact ⟨h, hlt⟩
    · simp [lexLt_irrefl]
  · intro p hp
    simp only [Finset.mem_filter] at hp ⊢
    exact ⟨hp.1, lexLt_trans p u v hp.2 hlt⟩

theorem countBelow_succ_of_consecutive (u v : List Nat) (h : u.Perm v)
    (hlt : lexLt u v = true)
    (hc : ∀ p : List Nat, p.Perm u → ¬ (lexLt u p = true ∧ lexLt p v = true)) :
    countBelow v = countBelow u + 1 := by
  rw [countBelow_eq_card, countBelow_eq_card, below_card_congr u v h]
  have hu : u ∉ (rearrangements v).toFinset.filter (fun p => lexLt p u = true) := by
    simp [lexLt_irrefl]
  rw [← Finset.card_insert_of_not_mem hu]
  congr 1
  ext p
  simp only [Finset.mem_filter, List.mem_toFinset, mem_rearrangements, Finset.mem_insert]
  constructor
  · rintro ⟨hp, hpv⟩
    by_cases hpu : p = u
    · exact Or.inl hpu
    · rcases lexLt_total p u hpu with h' | h'
      · exact Or.inr ⟨hp, h'⟩
      · exact absurd ⟨h', hpv⟩ (hc p (hp.trans h.symm))
  · rintro (rfl | ⟨hp, hpu⟩)
    · exact ⟨h, hlt⟩
    · exact ⟨hp, lexLt_trans p u v hpu hlt⟩

theorem countBelow_lt_length (w : List Nat) : countBelow w < (rearrangements w).length := by
  rw [countBelow_eq_card, length_rearrangements]
  apply Finset.card_lt_card
  rw [Finset.ssubset_iff_of_subset (Finset.filter_subset _ _)]
  refine ⟨w, ?_, ?_⟩
  · simp only [List.mem_toFinset, mem_rearrangements]
    exact List.Perm.refl w
  · simp [lexLt_irrefl]

theorem length_rearrangements_pos (w : List Nat) : 0 < (rearrangements w).length :=
  Nat.lt_of_le_of_lt (Nat.zero_le _) (countBelow_lt_length w)

theorem smallerFirst_eq_zero_iff (w : List Nat) (a : Nat) :
    smallerFirst w a = 0 ↔ ∀ b ∈ w, a ≤ b := by
  unfold smallerFirst
  rw [Finset.sum_eq_zero_iff]
  constructor
  · intro h b hb
    by_contra hlt
    have := h b (by simp [hb]; omega)
    have := length_rearrangements_pos (w.erase b)
    omega
  · intro h b hb
    simp only [Finset.mem_filter, List.mem_toFinset] at hb
    have := h b hb.1
    omega

/-- No rearrangement is below `w` exactly when `w` is in ascending order. -/
theorem countBelow_eq_zero_iff (w : List Nat) :
    countBelow w = 0 ↔ w.Sorted (fun a b => a ≤ b) := by
  induction w with
  | nil => simp [countBelow_nil]
  | cons a w ih =>
    rw [countBelow_cons, List.sorted_cons, ← ih, Nat.add_eq_zero_iff, smallerFirst_eq_zero_iff]
    constructor
    · rintro ⟨h1, h2⟩
      exact ⟨fun b hb => h1 b (List.mem_cons_of_mem _ hb), h2⟩
    · rintro ⟨h1, h2⟩
      refine ⟨fun b hb => ?_, h2⟩
      rcases List.mem_cons.1 hb with rfl | hb
      · exact le_refl _
      · exact h1 b hb

/-- Every other rearrangement is below a word in descending order. -/
theorem countBelow_of_sorted_ge (w : List Nat) (h : w.Sorted (fun a b => a ≥ b)) :
    countBelow w + 1 = (rearrangements w).length := by
  induction w with
  | nil => simp [countBelow_nil, rearrangements]
  | cons a w ih =>
    rw [List.sorted_cons] at h
    rw [countBelow_cons, add_assoc, ih h.2, length_rearrangements_decomp (a :: w) (by simp)]
    unfold smallerFirst
    have ha : a ∈ (a :: w).toFinset := by simp
    rw [← Finset.add_sum_erase _ _ ha, add_comm]
    congr 1
    · simp
    · apply Finset.sum_congr
      · ext b
        simp only [Finset.mem_filter, List.mem_toFinset, Finset.mem_erase, List.mem_cons]
        constructor
        · rintro ⟨hb, hlt⟩
          exact ⟨by omega, hb⟩
        · rintro ⟨hne, hb⟩
          refine ⟨hb, ?_⟩
          rcases hb with rfl | hb
          · exact absurd rfl hne
          · have := h.1 b hb
            omega
      · intro b _
        rfl

/-- The count of the smaller rearrangements through factorials. -/
theorem countBelow_eq_countingBelow (w : List Nat) : countBelow w = countingBelow w := by
  induction w with
  | nil => exact countBelow_nil
  | cons c s ih =>
    rw [countBelow_cons, countingBelow, ih]
    congr 1
    have h := smallerFirst_mul (c :: s) c
    have e : (c :: s).length - 1 = s.length := rfl
    rw [e] at h
    rw [← h]
    exact (Nat.mul_div_cancel _ (repeatProduct_pos _)).symm

theorem lexRank_eq (w : List Nat) : lexRank w = 1 + countBelow w := rfl

theorem lexRank_eq_counting (w : List Nat) : lexRank w = 1 + countingBelow w := by
  rw [lexRank_eq, countBelow_eq_countingBelow]

/-! ## Arrays -/

theorem getD_set (l : List Nat) (i t v : Nat) :
    (l.set i v).getD t 0 = if i = t ∧ i < l.length then v else l.getD t 0 := by
  simp only [List.getD_eq_getElem?_getD, List.getElem?_set]
  by_cases h : i = t
  · subst h
    by_cases h2 : i < l.length
    · simp [h2]
    · have : l[i]? = none := List.getElem?_eq_none (by omega)
      simp [h2, this]
  · simp [h]

theorem getD_set_ne (l : List Nat) (i t v : Nat) (h : i ≠ t) :
    (l.set i v).getD t 0 = l.getD t 0 := by
  rw [getD_set, if_neg (fun hh => h hh.1)]

theorem getD_set_eq (l : List Nat) (i v : Nat) (h : i < l.length) :
    (l.set i v).getD i 0 = v := by
  rw [getD_set, if_pos ⟨rfl, h⟩]

theorem prodUpTo_succ (l : List Nat) (k : Nat) :
    prodUpTo l (k + 1) = prodUpTo l k * l.getD k 0 := by
  unfold prodUpTo
  rw [Finset.prod_range_succ]

theorem prodUpTo_set_ge (l : List Nat) (i k v : Nat) (h : k ≤ i) :
    prodUpTo (l.set i v) k = prodUpTo l k := by
  unfold prodUpTo
  apply Finset.prod_congr rfl
  intro t ht
  have : t < k := Finset.mem_range.1 ht
  rw [getD_set_ne _ _ _ _ (by omega)]

theorem prodUpTo_set_lt (l : List Nat) (i v : Nat) (hi : i < l.length) :
    ∀ k, i < k → prodUpTo (l.set i v) k * l.getD i 0 = prodUpTo l k * v := by
  intro k
  induction k with
  | zero => intro h; omega
  | succ k ih =>
    intro h
    rw [prodUpTo_succ, prodUpTo_succ]
    by_cases hik : i = k
    · subst hik
      rw [prodUpTo_set_ge _ _ _ _ (le_refl _), getD_set_eq _ _ _ hi]
      ring
    · rw [getD_set_ne _ _ _ _ hik]
      have := ih (by omega)
      calc prodUpTo (l.set i v) k * l.getD k 0 * l.getD i 0
          = (prodUpTo (l.set i v) k * l.getD i 0) * l.getD k 0 := by ring
        _ = prodUpTo l k * v * l.getD k 0 := by rw [this]
        _ = prodUpTo l k * l.getD k 0 * v := by ring

theorem prodUpTo_pos (l : List Nat) (k : Nat) (h : ∀ t < k, 1 ≤ l.getD t 0) :
    0 < prodUpTo l k := by
  unfold prodUpTo
  apply Finset.prod_pos
  intro t ht
  exact h t (Finset.mem_range.1 ht)

/-! ## Totalling up the factors -/

theorem totalUp_eq (wrap : Nat → Nat) (B : Nat) (hw : ∀ x, x < B → wrap x = x)
    (pieces : List Nat) : ∀ (n i s : Nat),
    (∀ t, i ≤ t → t < i + n → 1 ≤ pieces.getD t 0) → 1 ≤ s →
    s * ∏ t in Finset.range n, pieces.getD (i + t) 0 < B →
    totalUp wrap pieces n i s = s * ∏ t in Finset.range n, pieces.getD (i + t) 0 := by
  intro n
  induction n with
  | zero => intro i s _ _ _; simp [totalUp]
  | succ n ih =>
    intro i s hp hs hb
    have hprod : ∏ t in Finset.range (n + 1), pieces.getD (i + t) 0 =
        pieces.getD i 0 * ∏ t in Finset.range n, pieces.getD (i + 1 + t) 0 := by
      rw [Finset.prod_range_succ', mul_comm]
      congr 1
      apply Finset.prod_congr rfl
      intro t _
      rw [show i + (t + 1) = i + 1 + t by omega]
    rw [hprod] at hb ⊢
    have hpi : 1 ≤ pieces.getD i 0 := hp i (le_refl _) (by omega)
    have hrest : 0 < ∏ t in Finset.range n, pieces.getD (i + 1 + t) 0 := by
      apply Finset.prod_pos
      intro t ht
      have := Finset.mem_range.1 ht
      exact hp (i + 1 + t) (by omega) (by omega)
    have hs' : (if pieces.getD i 0 > 1 then wrap (s * pieces.getD i 0) else s) =
        s * pieces.getD i 0 := by
      by_cases h1 : pieces.getD i 0 > 1
      · rw [if_pos h1]
        apply hw
        calc s * pieces.getD i 0 ≤ s * pieces.getD i 0 *
              ∏ t in Finset.range n, pieces.getD (i + 1 + t) 0 := Nat.le_mul_of_pos_right _ hrest
          _ = s * (pieces.getD i 0 * ∏ t in Finset.range n, pieces.getD (i + 1 + t) 0) := by ring
          _ < B := hb
      · rw [if_neg h1]
        have : pieces.getD i 0 = 1 := by omega
        rw [this, mul_one]
    simp only [totalUp]
    rw [hs', ih (i + 1) (s * pieces.getD i 0) (fun t h1 h2 => hp t (by omega) (by omega))
      (Nat.mul_pos hs hpi) (by rw [mul_assoc]; exact hb), mul_assoc]

theorem totalUp_eq_prodUpTo (wrap : Nat → Nat) (B : Nat) (hw : ∀ x, x < B → wrap x = x)
    (pieces : List Nat) (n : Nat) (hp : ∀ t, t < n → 1 ≤ pieces.getD t 0)
    (hb : prodUpTo pieces n < B) : totalUp wrap pieces n 0 1 = prodUpTo pieces n := by
  have h := totalUp_eq wrap B hw pieces n 0 1 (fun t _ h2 => hp t (by omega)) (le_refl _)
    (by simpa [prodUpTo] using hb)
  simpa [prodUpTo] using h

/-! ## The cancellation -/

theorem cancelInner_spec (i : Nat) : ∀ (n j : Nat) (np dp : List Nat),
    cancelInner i n j np dp = (np, dp, i) ∨
      ∃ j', j ≤ j' ∧ j' < j + n ∧ dp.getD j' 0 ∣ np.getD i 0 ∧
        cancelInner i n j np dp = (np.set i (np.getD i 0 / dp.getD j' 0), dp.set j' 1, i + 1) := by
  intro n
  induction n with
  | zero => intro j np dp; exact Or.inl rfl
  | succ n ih =>
    intro j np dp
    simp only [cancelInner]
    by_cases h1 : np.getD i 0 % dp.getD j 0 = 0
    · rw [if_pos h1]
      have hdvd : dp.getD j 0 ∣ np.getD i 0 := Nat.dvd_of_mod_eq_zero h1
      by_cases h2 : np.getD i 0 / dp.getD j 0 = 1
      · rw [if_pos h2]
        exact Or.inr ⟨j, le_refl _, by omega, hdvd, by rw [h2]⟩
      · rw [if_neg h2]
        by_cases h3 : np.getD i 0 / dp.getD j 0 < np.getD i 0
        · rw [if_pos h3]
          exact Or.inr ⟨j, le_refl _, by omega, hdvd, rfl⟩
        · rw [if_neg h3]
          rcases ih (j + 1) np dp with h | ⟨j', h4, h5, h6, h7⟩
          · exact Or.inl h
          · exact Or.inr ⟨j', by omega, by omega, h6, h7⟩
    · rw [if_neg h1]
      rcases ih (j + 1) np dp with h | ⟨j', h4, h5, h6, h7⟩
      · exact Or.inl h
      · exact Or.inr ⟨j', by omega, by omega, h6, h7⟩

theorem cancelInv_step (n dt N0 D0 : Nat) (np dp : List Nat) (i j : Nat) (hi : i < n)
    (hn : n ≤ 26) (hj : j < dt) (hdt : dt ≤ 26) (hdvd : dp.getD j 0 ∣ np.getD i 0)
    (h : cancelInv n dt N0 D0 np dp) :
    cancelInv n dt N0 D0 (np.set i (np.getD i 0 / dp.getD j 0)) (dp.set j 1) := by
  obtain ⟨hl1, hl2, hp1, hp2, heq, hle⟩ := h
  have ha : 1 ≤ np.getD i 0 := hp1 i hi
  have hb : 1 ≤ dp.getD j 0 := hp2 j hj
  have hab : dp.getD j 0 * (np.getD i 0 / dp.getD j 0) = np.getD i 0 := Nat.mul_div_cancel' hdvd
  have hq : 1 ≤ np.getD i 0 / dp.getD j 0 := by
    rcases Nat.eq_zero_or_pos (np.getD i 0 / dp.getD j 0) with h0 | h0
    · rw [h0] at hab; omega
    · exact h0
  have hN := prodUpTo_set_lt np i (np.getD i 0 / dp.getD j 0) (by omega) n hi
  have hD := prodUpTo_set_lt dp j 1 (by omega) dt hj
  rw [mul_one] at hD
  have hN' : prodUpTo (np.set i (np.getD i 0 / dp.getD j 0)) n * dp.getD j 0 = prodUpTo np n := by
    have h1 : prodUpTo (np.set i (np.getD i 0 / dp.getD j 0)) n * dp.getD j 0 * np.getD i 0 =
        prodUpTo np n * np.getD i 0 := by
      calc prodUpTo (np.set i (np.getD i 0 / dp.getD j 0)) n * dp.getD j 0 * np.getD i 0
          = prodUpTo (np.set i (np.getD i 0 / dp.getD j 0)) n * np.getD i 0 * dp.getD j 0 := by
            ring
        _ = prodUpTo np n * (np.getD i 0 / dp.getD j 0) * dp.getD j 0 := by rw [hN]
        _ = prodUpTo np n * (dp.getD j 0 * (np.getD i 0 / dp.getD j 0)) := by ring
        _ = prodUpTo np n * np.getD i 0 := by rw [hab]
    exact Nat.eq_of_mul_eq_mul_right ha h1
  refine ⟨by simp [hl1], by simp [hl2], ?_, ?_, ?_, ?_⟩
  · intro t ht
    rw [getD_set]
    split_ifs
    · exact hq
    · exact hp1 t ht
  · intro t ht
    rw [getD_set]
    split_ifs
    · exact le_refl _
    · exact hp2 t ht
  · have h2 : prodUpTo (np.set i (np.getD i 0 / dp.getD j 0)) n * D0 * dp.getD j 0 =
        N0 * prodUpTo (dp.set j 1) dt * dp.getD j 0 := by
      calc prodUpTo (np.set i (np.getD i 0 / dp.getD j 0)) n * D0 * dp.getD j 0
          = (prodUpTo (np.set i (np.getD i 0 / dp.getD j 0)) n * dp.getD j 0) * D0 := by ring
        _ = N0 * prodUpTo dp dt := by rw [hN', heq]
        _ = N0 * (prodUpTo (dp.set j 1) dt * dp.getD j 0) := by rw [hD]
        _ = N0 * prodUpTo (dp.set j 1) dt * dp.getD j 0 := by ring
    exact Nat.eq_of_mul_eq_mul_right hb h2
  · calc prodUpTo (dp.set j 1) dt ≤ prodUpTo (dp.set j 1) dt * dp.getD j 0 :=
          Nat.le_mul_of_pos_right _ hb
      _ = prodUpTo dp dt := hD
      _ ≤ D0 := hle

theorem cancelInner_inv (n dt N0 D0 : Nat) (np dp : List Nat) (i : Nat) (hi : i < n)
    (hn : n ≤ 26) (hdt : dt ≤ 26) (h : cancelInv n dt N0 D0 np dp) :
    cancelInv n dt N0 D0 (cancelInner i dt 0 np dp).1 (cancelInner i dt 0 np dp).2.1 := by
  rcases cancelInner_spec i dt 0 np dp with h1 | ⟨j, _, hj, hdvd, h1⟩
  · rw [h1]; exact h
  · rw [h1]
    exact cancelInv_step n dt N0 D0 np dp i j hi hn (by omega) hdt hdvd h

theorem cancelOuter_inv (n dt N0 D0 : Nat) (hn : n ≤ 26) (hdt : dt ≤ 26) :
    ∀ (fuel i : Nat) (np dp : List Nat), cancelInv n dt N0 D0 np dp →
      cancelInv n dt N0 D0 (cancelOuter n dt fuel i np dp).1 (cancelOuter n dt fuel i np dp).2 := by
  intro fuel
  induction fuel with
  | zero => intro i np dp h; exact h
  | succ fuel ih =>
    intro i np dp h
    simp only [cancelOuter]
    by_cases hi : i < n
    · rw [if_pos hi]
      exact ih _ _ _ (cancelInner_inv n dt N0 D0 np dp i hi hn hdt h)
    · rw [if_neg hi]
      exact h

/-! ## The explosion of the factorials -/

theorem explodeDenom_spec (d dt : Nat) : ∀ (m j : Nat) (dp : List Nat),
    dt + j + m ≤ dp.length →
    (explodeDenom d dt m j dp).length = dp.length ∧
      ∀ t, (explodeDenom d dt m j dp).getD t 0 =
        if dt + j ≤ t ∧ t < dt + j + m then d - (t - dt) else dp.getD t 0 := by
  intro m
  induction m with
  | zero =>
    intro j dp _
    refine ⟨rfl, fun t => ?_⟩
    rw [if_neg (by omega)]
    rfl
  | succ m ih =>
    intro j dp hlen
    simp only [explodeDenom]
    obtain ⟨h1, h2⟩ := ih (j + 1) (dp.set (dt + j) (d - j)) (by simp; omega)
    refine ⟨by rw [h1]; simp, fun t => ?_⟩
    rw [h2 t, getD_set]
    by_cases ha : dt + (j + 1) ≤ t ∧ t < dt + (j + 1) + m
    · rw [if_pos ha, if_pos (by omega)]
    · rw [if_neg ha]
      by_cases hb : dt + j = t
      · rw [if_pos ⟨hb, by omega⟩, if_pos (by omega)]
        congr 1
        omega
      · rw [if_neg (fun hh => hb hh.1), if_neg (by omega)]

theorem prod_range_sub (d : Nat) (hd : 1 ≤ d) :
    ∏ s in Finset.range (d - 1), (d - s) = d.factorial := by
  rw [← Nat.descFactorial_eq_prod_range]
  have h := Nat.factorial_mul_descFactorial (show d - 1 ≤ d by omega)
  have h1 : d - (d - 1) = 1 := by omega
  rw [h1, Nat.factorial_one, one_mul] at h
  exact h

theorem prod_range_sub_self (n : Nat) : ∏ s in Finset.range n, (n - s) = n.factorial := by
  rw [← Nat.descFactorial_eq_prod_range, Nat.descFactorial_self]

theorem sum_range_le (f : Nat → Nat) (i k : Nat) (h : i ≤ k) :
    ∑ t in Finset.range i, f t ≤ ∑ t in Finset.range k, f t :=
  Finset.sum_le_sum_of_subset (Finset.range_mono h)

/-- One letter of the explosion, denominator part. -/
theorem explodeDenom_letter (d dt : Nat) (dp : List Nat) (hd : 1 < d) (hlen : dp.length = 26)
    (hdt : dt + (d - 1) ≤ 25) (hpos : ∀ t, t < dt → 1 ≤ dp.getD t 0) :
    (explodeDenom d dt (d - 1) 1 (dp.set dt d)).length = 26 ∧
      prodUpTo (explodeDenom d dt (d - 1) 1 (dp.set dt d)) (dt + (d - 1)) =
        prodUpTo dp dt * d.factorial ∧
      ∀ t, t < dt + (d - 1) → 1 ≤ (explodeDenom d dt (d - 1) 1 (dp.set dt d)).getD t 0 := by
  obtain ⟨h1, h2⟩ := explodeDenom_spec d dt (d - 1) 1 (dp.set dt d) (by simp; omega)
  have hval : ∀ t, (explodeDenom d dt (d - 1) 1 (dp.set dt d)).getD t 0 =
      if dt ≤ t ∧ t < dt + d then d - (t - dt) else dp.getD t 0 := by
    intro t
    rw [h2 t, getD_set]
    by_cases ha : dt + 1 ≤ t ∧ t < dt + 1 + (d - 1)
    · rw [if_pos ha, if_pos (by omega)]
    · rw [if_neg ha]
      by_cases hb : dt = t
      · rw [if_pos ⟨hb, by omega⟩, if_pos (by omega)]
        omega
      · rw [if_neg (fun hh => hb hh.1), if_neg (by omega)]
  refine ⟨by rw [h1]; simp [hlen], ?_, ?_⟩
  · unfold prodUpTo
    rw [Finset.prod_range_add, ← prod_range_sub d (by omega)]
    congr 1
    · apply Finset.prod_congr rfl
      intro t ht
      have := Finset.mem_range.1 ht
      rw [hval t, if_neg (by omega)]
    · apply Finset.prod_congr rfl
      intro s hs
      have := Finset.mem_range.1 hs
      rw [hval (dt + s), if_pos (by omega)]
      congr 1
      omega
  · intro t ht
    rw [hval t]
    by_cases ha : dt ≤ t ∧ t < dt + d
    · rw [if_pos ha]; omega
    · rw [if_neg ha]; exact hpos t (by omega)

theorem explode_inv (den : List Nat) (n : Nat)
    (hsum : ∑ t in Finset.range 26, (den.getD t 0 - 1) ≤ 25) :
    ∀ (fuel i : Nat) (p : Pieces), i + fuel ≤ 26 → explodeInv den n i p →
      explodeInv den n (i + fuel) (explode den fuel i p) := by
  intro fuel
  induction fuel with
  | zero => intro i p _ h; exact h
  | succ fuel ih =>
    intro i p hi h
    simp only [explode]
    rw [show i + (fuel + 1) = (i + 1) + fuel by omega]
    apply ih (i + 1) _ (by omega)
    obtain ⟨hl1, hl2, hnt, hnp, hdt, hprod, hpos⟩ := h
    have hbound : ∑ t in Finset.range (i + 1), (den.getD t 0 - 1) ≤ 25 :=
      le_trans (sum_range_le _ _ _ (by omega)) hsum
    rw [Finset.sum_range_succ, ← hdt] at hbound
    by_cases hd : den.getD i 0 > 1
    · obtain ⟨e1, e2, e3⟩ := explodeDenom_letter (den.getD i 0) p.denomTemp p.denomPieces hd
        hl2 hbound hpos
      by_cases hnz : p.numTemp ≠ 0
      · simp only [if_pos hd, if_pos hnz]
        refine ⟨by simp [hl1], e1, by show p.numTemp - 1 = n - (i + 1); omega, ?_, ?_, ?_,
          e3⟩
        · intro t ht htn
          show (p.numerPieces.set i p.numTemp).getD t 0 = n - t
          rw [getD_set]
          by_cases hti : i = t
          · rw [if_pos ⟨hti, by omega⟩, hnt, hti]
          · rw [if_neg (fun hh => hti hh.1)]
            exact hnp t (by omega) htn
        · show p.denomTemp + (den.getD i 0 - 1) = _
          rw [Finset.sum_range_succ, ← hdt]
        · show prodUpTo _ (p.denomTemp + (den.getD i 0 - 1)) = _
          rw [e2, Finset.prod_range_succ, hprod]
      · simp only [if_pos hd, if_neg hnz]
        refine ⟨hl1, e1, by show p.numTemp = n - (i + 1); omega, ?_, ?_, ?_, e3⟩
        · intro t ht htn
          exact hnp t (by omega) htn
        · show p.denomTemp + (den.getD i 0 - 1) = _
          rw [Finset.sum_range_succ, ← hdt]
        · show prodUpTo _ (p.denomTemp + (den.getD i 0 - 1)) = _
          rw [e2, Finset.prod_range_succ, hprod]
    · have hd0 : den.getD i 0 - 1 = 0 := by omega
      have hd1 : (den.getD i 0).factorial = 1 := by
        have : den.getD i 0 = 0 ∨ den.getD i 0 = 1 := by omega
        rcases this with h0 | h0 <;> rw [h0] <;> rfl
      by_cases hnz : p.numTemp ≠ 0
      · simp only [if_neg hd, if_pos hnz]
        refine ⟨by simp [hl1], hl2, by show p.numTemp - 1 = n - (i + 1); omega, ?_, ?_, ?_,
          hpos⟩
        · intro t ht htn
          show (p.numerPieces.set i p.numTemp).getD t 0 = n - t
          rw [getD_set]
          by_cases hti : i = t
          · rw [if_pos ⟨hti, by omega⟩, hnt, hti]
          · rw [if_neg (fun hh => hti hh.1)]
            exact hnp t (by omega) htn
        · show p.denomTemp = _
          rw [Finset.sum_range_succ, ← hdt, hd0]
          rfl
        · show prodUpTo p.denomPieces p.denomTemp = _
          rw [Finset.prod_range_succ, hprod, hd1, mul_one]
      · simp only [if_neg hd, if_neg hnz]
        refine ⟨hl1, hl2, by omega, ?_, ?_, ?_, hpos⟩
        · intro t ht htn
          exact hnp t (by omega) htn
        · rw [Finset.sum_range_succ, ← hdt, hd0]
          rfl
        · rw [Finset.prod_range_succ, hprod, hd1, mul_one]

theorem list_range_prod (f : Nat → Nat) (n : Nat) :
    ((List.range n).map f).prod = ∏ t in Finset.range n, f t := by
  induction n with
  | zero => rfl
  | succ n ih => rw [List.range_succ, List.map_append, List.prod_append, ih,
      Finset.prod_range_succ]; simp

theorem list_range_sum (f : Nat → Nat) (n : Nat) :
    ((List.range n).map f).sum = ∑ t in Finset.range n, f t := by
  induction n with
  | zero => rfl
  | succ n ih => rw [List.range_succ, List.map_append, List.sum_append, ih,
      Finset.sum_range_succ]; simp

theorem denomProduct_eq (den : List Nat) :
    denomProduct den = ∏ t in Finset.range 26, (den.getD t 0).factorial := by
  unfold denomProduct
  rw [list_range_prod]
  apply Finset.prod_congr rfl
  intro t _
  by_cases h : den.getD t 0 > 1
  · rw [if_pos h]
  · rw [if_neg h]
    have : den.getD t 0 = 0 ∨ den.getD t 0 = 1 := by omega
    rcases this with h0 | h0 <;> rw [h0] <;> rfl

theorem denomProduct_pos (den : List Nat) : 0 < denomProduct den := by
  rw [denomProduct_eq]
  exact Finset.prod_pos (fun t _ => Nat.factorial_pos _)

theorem denomProduct_le (den : List Nat) : denomProduct den ≤ (repeatSum den).factorial := by
  unfold denomProduct repeatSum
  rw [list_range_prod, list_range_sum]
  apply Nat.le_of_dvd (Nat.factorial_pos _)
  have h := Nat.prod_factorial_dvd_factorial_sum (Finset.range 26)
    (fun k => if den.getD k 0 > 1 then den.getD k 0 else 0)
  have e : ∏ t in Finset.range 26, (if den.getD t 0 > 1 then (den.getD t 0).factorial else 1) =
      ∏ t in Finset.range 26, (if den.getD t 0 > 1 then den.getD t 0 else 0).factorial := by
    apply Finset.prod_congr rfl
    intro t _
    by_cases h : den.getD t 0 > 1
    · rw [if_pos h, if_pos h]
    · rw [if_neg h, if_neg h]; rfl
  rw [e]
  exact h

theorem sum_pred_le_repeatSum (den : List Nat) :
    ∑ t in Finset.range 26, (den.getD t 0 - 1) ≤ repeatSum den := by
  unfold repeatSum
  rw [list_range_sum]
  apply Finset.sum_le_sum
  intro t _
  by_cases h : den.getD t 0 > 1
  · rw [if_pos h]; omega
  · rw [if_neg h]; omega

/-- The arrays after the cancellation: the quotient of the products is `n! / ∏ r!`. -/
theorem cancelled_inv (den : List Nat) (n : Nat) (hn : n ≤ 26)
    (hsum : ∑ t in Finset.range 26, (den.getD t 0 - 1) ≤ 25) :
    cancelInv n (denomCount n den) n.factorial (denomProduct den)
      (cancelled n den).1 (cancelled n den).2 ∧ denomCount n den ≤ 25 := by
  have h0 : explodeInv den n 0
      { numerPieces := List.replicate 26 0, denomPieces := List.replicate 26 0,
        numTemp := n, denomTemp := 0 } := by
    refine ⟨by simp, by simp, rfl, ?_, ?_, ?_, ?_⟩
    · intro t ht; omega
    · simp
    · simp [prodUpTo]
    · intro t ht
      simp at ht
  have h := explode_inv den n hsum 26 0 _ (by omega) h0
  rw [show 0 + 26 = 26 from rfl] at h
  obtain ⟨hl1, hl2, _, hnp, hdt, hprod, hpos⟩ := h
  have hdt25 : (explode den 26 0
      { numerPieces := List.replicate 26 0, denomPieces := List.replicate 26 0,
        numTemp := n, denomTemp := 0 }).denomTemp ≤ 25 := by
    rw [hdt]
    exact hsum
  refine ⟨?_, hdt25⟩
  unfold cancelled
  apply cancelOuter_inv n _ n.factorial (denomProduct den) hn (by unfold denomCount; omega)
  have hN : prodUpTo (explode den 26 0
      { numerPieces := List.replicate 26 0, denomPieces := List.replicate 26 0,
        numTemp := n, denomTemp := 0 }).numerPieces n = n.factorial := by
    unfold prodUpTo
    rw [← prod_range_sub_self n]
    apply Finset.prod_congr rfl
    intro t ht
    have := Finset.mem_range.1 ht
    exact hnp t (by omega) this
  refine ⟨hl1, hl2, ?_, hpos, ?_, ?_⟩
  · intro t ht
    rw [hnp t (by omega) ht]
    omega
  · rw [hN, denomProduct_eq]
    exact congrArg _ hprod.symm
  · rw [denomProduct_eq]
    exact le_of_eq hprod

/-- Computed over unbounded integers, `numSum` and `demSum` are the products of the
surviving factors, and their quotient is `n! / ∏ r!`. -/
theorem numSum_demSum_id (den : List Nat) (n : Nat) (hn : n ≤ 26)
    (hsum : ∑ t in Finset.range 26, (den.getD t 0 - 1) ≤ 25) :
    numSum id n den = prodUpTo (cancelled n den).1 n ∧
      demSum id n den = prodUpTo (cancelled n den).2 (denomCount n den) ∧
      numSum id n den * denomProduct den = n.factorial * demSum id n den ∧
      0 < demSum id n den ∧ numSum id n den ≤ n.factorial ∧
      demSum id n den ≤ denomProduct den := by
  obtain ⟨⟨hl1, hl2, hp1, hp2, heq, hle⟩, hdt⟩ := cancelled_inv den n hn hsum
  have hNle : prodUpTo (cancelled n den).1 n ≤ n.factorial := by
    have h1 : prodUpTo (cancelled n den).1 n * denomProduct den ≤
        n.factorial * denomProduct den := by
      rw [heq]
      exact Nat.mul_le_mul_left _ hle
    exact Nat.le_of_mul_le_mul_right h1 (denomProduct_pos den)
  have e1 : numSum id n den = prodUpTo (cancelled n den).1 n :=
    totalUp_eq_prodUpTo id (prodUpTo (cancelled n den).1 n + 1) (fun _ _ => rfl) _ n hp1
      (Nat.lt_succ_self _)
  have e2 : demSum id n den = prodUpTo (cancelled n den).2 (denomCount n den) :=
    totalUp_eq_prodUpTo id (prodUpTo (cancelled n den).2 (denomCount n den) + 1)
      (fun _ _ => rfl) _ _ hp2 (Nat.lt_succ_self _)
  rw [e1, e2]
  exact ⟨rfl, rfl, heq, prodUpTo_pos _ _ hp2, hNle, hle⟩

/-- When the unbounded products stay below the bound under which `wrap` is the identity,
no multiplication wraps. -/
theorem numSum_demSum_wrap (wrap : Nat → Nat) (B : Nat) (hw : ∀ x, x < B → wrap x = x)
    (den : List Nat) (n : Nat) (hn : n ≤ 26)
    (hsum : ∑ t in Finset.range 26, (den.getD t 0 - 1) ≤ 25)
    (hN : numSum id n den < B) (hD : demSum id n den < B) :
    numSum wrap n den = numSum id n den ∧ demSum wrap n den = demSum id n den := by
  obtain ⟨⟨_, _, hp1, hp2, _, _⟩, _⟩ := cancelled_inv den n hn hsum
  obtain ⟨e1, e2, _⟩ := numSum_demSum_id den n hn hsum
  rw [e1] at hN ⊢
  rw [e2] at hD ⊢
  exact ⟨totalUp_eq_prodUpTo wrap B hw _ n hp1 hN, totalUp_eq_prodUpTo wrap B hw _ _ hp2 hD⟩

/-! ## The helpers of `wordToNumber` -/

theorem upper_getD (k : Nat) (hk : k < 26) : upper.getD k 0 = 65 + k := by
  have h : ∀ k : Fin 26, upper.getD k.1 0 = 65 + k.1 := by decide
  exact h ⟨k, hk⟩

theorem checkCountsLoop_le_one (counts : List Nat) : ∀ n k, checkCountsLoop counts n k ≤ 1 := by
  intro n
  induction n with
  | zero => intro k; simp [checkCountsLoop]
  | succ n ih =>
    intro k
    simp only [checkCountsLoop]
    split_ifs
    · exact le_refl _
    · exact ih (k + 1)

theorem checkCountsLoop_eq_zero (counts : List Nat) : ∀ n k,
    checkCountsLoop counts n k = 0 ↔ ∀ t, k ≤ t → t < k + n → counts.getD t 0 ≤ 1 := by
  intro n
  induction n with
  | zero => intro k; simp only [checkCountsLoop, true_iff]; intro t h1 h2; omega
  | succ n ih =>
    intro k
    simp only [checkCountsLoop]
    by_cases h : counts.getD k 0 > 1
    · rw [if_pos h]
      constructor
      · intro h0; omega
      · intro h0
        have := h0 k (le_refl _) (by omega)
        omega
    · rw [if_neg h, ih (k + 1)]
      constructor
      · intro h0 t h1 h2
        by_cases e : t = k
        · subst e; omega
        · exact h0 t (by omega) (by omega)
      · intro h0 t h1 h2
        exact h0 t (by omega) (by omega)

theorem checkCounts_eq_zero (g : Globals) :
    checkCounts g = 0 ↔ ∀ t, t < 26 → g.counts.getD t 0 ≤ 1 := by
  unfold checkCounts
  rw [checkCountsLoop_eq_zero]
  constructor
  · intro h t ht; exact h t (Nat.zero_le _) (by omega)
  · intro h t _ ht; exact h t (by omega)

theorem decrementCount_skip (c : Nat) (g : Globals) : ∀ n k,
    (∀ t, k ≤ t → t < k + n → ¬ (upper.getD t 0 = c ∧ g.counts.getD t 0 > 1)) →
    decrementCount c n k g = g := by
  intro n
  induction n with
  | zero => intro k _; rfl
  | succ n ih =>
    intro k h
    simp only [decrementCount]
    rw [if_neg (h k (le_refl _) (by omega))]
    exact ih (k + 1) (fun t h1 h2 => h t (by omega) (by omega))

theorem decrementCount_hit (c k0 : Nat) (g : Globals) (hk0 : upper.getD k0 0 = c)
    (hc : g.counts.getD k0 0 > 1) : ∀ n k, k ≤ k0 → k0 < k + n →
    (∀ t, k ≤ t → t < k0 → upper.getD t 0 ≠ c) →
    decrementCount c n k g =
      { g with
        counts := g.counts.set k0 (g.counts.getD k0 0 - 1)
        repeatsTrue :=
          checkCounts { g with counts := g.counts.set k0 (g.counts.getD k0 0 - 1) } } := by
  intro n
  induction n with
  | zero => intro k h1 h2; omega
  | succ n ih =>
    intro k h1 h2 h3
    simp only [decrementCount]
    by_cases e : k = k0
    · subst e
      rw [if_pos ⟨hk0, hc⟩]
    · rw [if_neg (fun hh => h3 k (le_refl _) (by omega) hh.1)]
      exact ih (k + 1) (by omega) (by omega) (fun t h4 h5 => h3 t (by omega) h5)

theorem decrementCount_fields (c : Nat) : ∀ (n k : Nat) (g : Globals),
    (decrementCount c n k g).wordLength = g.wordLength ∧
      (decrementCount c n k g).penalty = g.penalty ∧
      (decrementCount c n k g).totalPenalty = g.totalPenalty ∧
      (decrementCount c n k g).extraSum = g.extraSum ∧
      (decrementCount c n k g).peak = g.peak := by
  intro n
  induction n with
  | zero => intro k g; exact ⟨rfl, rfl, rfl, rfl, rfl⟩
  | succ n ih =>
    intro k g
    simp only [decrementCount]
    split_ifs
    · exact ⟨rfl, rfl, rfl, rfl, rfl⟩
    · exact ih (k + 1) g

theorem matchStep_fields (wrap : Nat → Nat) (c : Nat) (g : Globals) :
    (matchStep wrap c g).wordLength = g.wordLength ∧
      (matchStep wrap c g).penalty = 0 ∧
      (matchStep wrap c g).totalPenalty = wrap (g.totalPenalty + g.penalty) ∧
      (matchStep wrap c g).extraSum = g.extraSum ∧
      (matchStep wrap c g).peak = max g.peak (wrap (g.totalPenalty + g.penalty)) ∧
      (matchStep wrap c g).counts = (decrementCount c 26 0 g).counts ∧
      (matchStep wrap c g).repeatsTrue = (decrementCount c 26 0 g).repeatsTrue := by
  obtain ⟨h1, h2, h3, h4, h5⟩ := decrementCount_fields c 26 0 g
  unfold matchStep setTotalPenalty
  simp only [h1, h2, h3, h4, h5]
  exact ⟨trivial, trivial, trivial, trivial, trivial, trivial, trivial⟩

/-- The loop over `k` in the match branch, for a capital letter `c`. -/
theorem decrementCount_eq (c : Nat) (g : Globals) (h1 : 65 ≤ c) (h2 : c ≤ 90) :
    decrementCount c 26 0 g =
      if g.counts.getD (c - 65) 0 > 1 then
        { g with
          counts := g.counts.set (c - 65) (g.counts.getD (c - 65) 0 - 1)
          repeatsTrue :=
            checkCounts { g with counts := g.counts.set (c - 65) (g.counts.getD (c - 65) 0 - 1) } }
      else g := by
  by_cases hc : g.counts.getD (c - 65) 0 > 1
  · rw [if_pos hc]
    apply decrementCount_hit c (c - 65) g (by rw [upper_getD _ (by omega)]; omega) hc 26 0
      (Nat.zero_le _) (by omega)
    intro t _ ht
    rw [upper_getD _ (by omega)]
    omega
  · rw [if_neg hc]
    apply decrementCount_skip
    intro t _ ht hh
    rw [upper_getD _ (by omega)] at hh
    have : t = c - 65 := by omega
    rw [this] at hh
    exact hc hh.2

theorem getD_indexOf (c : Nat) : ∀ l : List Nat, c ∈ l → l.getD (l.indexOf c) 0 = c := by
  intro l
  induction l with
  | nil => intro h; simp at h
  | cons a l ih =>
    intro h
    rw [List.indexOf_cons]
    by_cases e : a = c
    · have e' : (a == c) = true := by simpa using e
      simp only [e', cond_true, List.getD_cons_zero]
      exact e
    · have hc : c ∈ l := by
        rcases List.mem_cons.1 h with h' | h'
        · exact absurd h'.symm e
        · exact h'
      have e' : (a == c) = false := by simpa using e
      simp only [e', cond_false, List.getD_cons_succ]
      exact ih hc

theorem getD_ne_of_lt_indexOf (c : Nat) : ∀ (l : List Nat) (t : Nat),
    t < l.indexOf c → l.getD t 0 ≠ c := by
  intro l
  induction l with
  | nil => intro t h; simp at h
  | cons a l ih =>
    intro t h
    rw [List.indexOf_cons] at h
    by_cases e : a = c
    · have e' : (a == c) = true := by simpa using e
      simp only [e', cond_true] at h
      omega
    · have e' : (a == c) = false := by simpa using e
      simp only [e', cond_false] at h
      cases t with
      | zero => simpa using e
      | succ t =>
        simp only [List.getD_cons_succ]
        exact ih t (by omega)

theorem indexOf_lt_of_mem (c : Nat) (l : List Nat) (h : c ∈ l) : l.indexOf c < l.length :=
  List.indexOf_lt_length.2 h

theorem shrinkWord_eq_erase (c : Nat) :
    ∀ l : List Nat, c ∈ l → shrinkWord l c [] = l.erase c := by
  intro l h
  unfold shrinkWord
  rw [if_neg (Nat.ne_of_lt (indexOf_lt_of_mem c l h))]
  clear h
  induction l with
  | nil => simp
  | cons a l ih =>
    rw [List.indexOf_cons]
    by_cases e : a = c
    · simp [e]
    · have e' : (a == c) = false := by simpa using e
      simp only [e', cond_false, List.take_succ_cons, List.drop_succ_cons, List.cons_append]
      rw [ih, List.erase_cons_tail (by simpa using e)]

theorem indexOf_eq_filter_length (c : Nat) : ∀ l : List Nat, l.Sorted (fun a b => a ≤ b) →
    c ∈ l → l.indexOf c = (l.filter (fun b => b < c)).length := by
  intro l
  induction l with
  | nil => intro _ h; simp at h
  | cons a l ih =>
    intro hs h
    rw [List.sorted_cons] at hs
    rw [List.indexOf_cons]
    by_cases e : a = c
    · subst e
      have : l.filter (fun b => b < a) = [] := by
        rw [List.filter_eq_nil_iff]
        intro b hb
        have := hs.1 b hb
        simp
        omega
      simp [this]
    · have hc : c ∈ l := by
        rcases List.mem_cons.1 h with h' | h'
        · exact absurd h'.symm e
        · exact h'
      have hlt : a < c := by
        have := hs.1 c hc
        omega
      have e' : (a == c) = false := by simpa using e
      simp only [e', cond_false]
      rw [ih hs.2 hc, List.filter_cons_of_pos (by simpa using hlt)]
      rfl

/-- The scan of the alphabetized word charges one penalty for every letter before the
first match. -/
theorem scanAlpha_eq (wrap : Nat → Nat) (word newAlpha : List Nat) (reit i j0 : Nat)
    (hne : ∀ t, t < j0 → newAlpha.getD t 0 ≠ word.getD i 0)
    (heq : newAlpha.getD j0 0 = word.getD i 0) :
    ∀ (fuel j : Nat) (g : Globals), j ≤ j0 → j0 - j < fuel →
      scanAlpha wrap word newAlpha reit i fuel j g =
        (some j0, (addPenalty wrap word reit)^[j0 - j] g) := by
  intro fuel
  induction fuel with
  | zero => intro j g _ h; omega
  | succ fuel ih =>
    intro j g h1 h2
    simp only [scanAlpha]
    by_cases e : j = j0
    · subst e
      rw [if_neg (by simpa using heq)]
      simp
    · rw [if_pos (hne j (by omega)), ih (j + 1) _ (by omega) (by omega)]
      rw [show j0 - j = (j0 - (j + 1)) + 1 by omega, Function.iterate_succ_apply]

/-! ## The penalty of one mismatch -/

theorem addPenalty_eq (wrap : Nat → Nat) (w : List Nat) (reit : Nat) (g : Globals) :
    addPenalty wrap w reit g =
      { g with
        penalty := wrap (g.penalty + costQ wrap (w.length - reit - 1) g)
        extraSum := g.extraSum + costF wrap (w.length - reit - 1) g
        peak := max g.peak (wrap (g.penalty + costQ wrap (w.length - reit - 1) g)) } := by
  unfold addPenalty costQ costF divFactorials setPenalty
  by_cases h : g.repeatsTrue ≠ 0
  · simp only [if_pos h]
  · simp only [if_neg h, add_zero]

theorem costQ_congr (wrap : Nat → Nat) (m : Nat) (g g' : Globals) (h1 : g'.counts = g.counts)
    (h2 : g'.repeatsTrue = g.repeatsTrue) : costQ wrap m g' = costQ wrap m g := by
  unfold costQ
  rw [h1, h2]

theorem costF_congr (wrap : Nat → Nat) (m : Nat) (g g' : Globals) (h1 : g'.counts = g.counts)
    (h2 : g'.repeatsTrue = g.repeatsTrue) : costF wrap m g' = costF wrap m g := by
  unfold costF
  rw [h1, h2]

/-- The globals after `t` mismatches in a row, as long as `penalty` stays below the bound
under which `wrap` is the identity. -/
theorem addPenalty_iterate (wrap : Nat → Nat) (B : Nat) (hw : ∀ x, x < B → wrap x = x)
    (w : List Nat) (reit : Nat) (g : Globals) : ∀ t : Nat,
    g.penalty + t * costQ wrap (w.length - reit - 1) g < B →
    ((addPenalty wrap w reit)^[t] g).penalty =
        g.penalty + t * costQ wrap (w.length - reit - 1) g ∧
      ((addPenalty wrap w reit)^[t] g).extraSum =
        g.extraSum + t * costF wrap (w.length - reit - 1) g ∧
      ((addPenalty wrap w reit)^[t] g).peak ≤
        max g.peak (g.penalty + t * costQ wrap (w.length - reit - 1) g) ∧
      ((addPenalty wrap w reit)^[t] g).counts = g.counts ∧
      ((addPenalty wrap w reit)^[t] g).repeatsTrue = g.repeatsTrue ∧
      ((addPenalty wrap w reit)^[t] g).wordLength = g.wordLength ∧
      ((addPenalty wrap w reit)^[t] g).totalPenalty = g.totalPenalty := by
  intro t
  induction t with
  | zero =>
    intro _
    simp
  | succ t ih =>
    intro hb
    have hb' : g.penalty + t * costQ wrap (w.length - reit - 1) g < B := by
      have : t * costQ wrap (w.length - reit - 1) g ≤
          (t + 1) * costQ wrap (w.length - reit - 1) g :=
        Nat.mul_le_mul_right _ (by omega)
      omega
    obtain ⟨h1, h2, h3, h4, h5, h6, h7⟩ := ih hb'
    rw [Function.iterate_succ_apply', addPenalty_eq]
    have hq := costQ_congr wrap (w.length - reit - 1) g _ h4 h5
    have hf := costF_congr wrap (w.length - reit - 1) g _ h4 h5
    have hsum : ((addPenalty wrap w reit)^[t] g).penalty +
        costQ wrap (w.length - reit - 1) ((addPenalty wrap w reit)^[t] g) =
        g.penalty + (t + 1) * costQ wrap (w.length - reit - 1) g := by
      rw [h1, hq]; ring
    rw [hsum, hw _ hb]
    refine ⟨rfl, ?_, ?_, h4, h5, h6, h7⟩
    · show ((addPenalty wrap w reit)^[t] g).extraSum + _ = _
      rw [h2, hf]
      push_cast
      ring
    · show max ((addPenalty wrap w reit)^[t] g).peak _ ≤ _
      have : t * costQ wrap (w.length - reit - 1) g ≤
          (t + 1) * costQ wrap (w.length - reit - 1) g :=
        Nat.mul_le_mul_right _ (by omega)
      omega

theorem factorials_getD (m : Nat) (hm : m ≤ 20) : factorials.getD m 0 = m.factorial := by
  have h : ∀ k : Fin 21, factorials.getD k.1 0 = k.1.factorial := by decide
  exact h ⟨m, by omega⟩

theorem factorial_eq_of_max (a b : Nat) (h : max 1 a = max 1 b) : a.factorial = b.factorial := by
  by_cases ha : a ≤ 1
  · by_cases hb : b ≤ 1
    · have h1 : a = 0 ∨ a = 1 := by omega
      have h2 : b = 0 ∨ b = 1 := by omega
      rcases h1 with h1 | h1 <;> rcases h2 with h2 | h2 <;> rw [h1, h2] <;> rfl
    · omega
  · have : a = b := by omega
    rw [this]

theorem letters_subset (l : List Nat) (hv : ∀ c ∈ l, 65 ≤ c ∧ c ≤ 90) :
    l.toFinset ⊆ (Finset.range 26).image (fun k => 65 + k) := by
  intro c hc
  have := hv c (by simpa using hc)
  simp only [Finset.mem_image, Finset.mem_range]
  exact ⟨c - 65, by omega, by omega⟩

theorem repeatProduct_range (l : List Nat) (hv : ∀ c ∈ l, 65 ≤ c ∧ c ≤ 90) :
    repeatProduct l = ∏ k in Finset.range 26, (l.count (65 + k)).factorial := by
  rw [repeatProduct_eq_of_subset l _ (letters_subset l hv), Finset.prod_image]
  intro a _ b _ h
  omega

theorem sum_count_range (l : List Nat) (hv : ∀ c ∈ l, 65 ≤ c ∧ c ≤ 90) :
    ∑ k in Finset.range 26, l.count (65 + k) = l.length := by
  have e : ∑ c in (Finset.range 26).image (fun k => 65 + k), l.count c =
      ∑ k in Finset.range 26, l.count (65 + k) :=
    Finset.sum_image (by intro a _ b _ h; omega)
  rw [← List.sum_toFinset_count_eq_length, ← e]
  symm
  apply Finset.sum_subset (letters_subset l hv)
  intro c _ hc
  exact List.count_eq_zero_of_not_mem (by simpa using hc)

theorem drop_valid (w : List Nat) (i : Nat) (hv : ∀ c ∈ w, 65 ≤ c ∧ c ≤ 90) :
    ∀ c ∈ w.drop i, 65 ≤ c ∧ c ≤ 90 :=
  fun c hc => hv c (List.mem_of_mem_drop hc)

theorem denomProduct_counts (w : List Nat) (i : Nat) (alpha : List Nat) (g : Globals)
    (h : rankInv w i alpha g) : denomProduct g.counts = repeatProduct (w.drop i) := by
  obtain ⟨_, _, _, _, _, hc, _, hv⟩ := h
  rw [denomProduct_eq, repeatProduct_range _ (drop_valid w i hv)]
  apply Finset.prod_congr rfl
  intro k hk
  exact factorial_eq_of_max _ _ (hc k (Finset.mem_range.1 hk))

theorem repeatSum_counts (w : List Nat) (i : Nat) (alpha : List Nat) (g : Globals)
    (h : rankInv w i alpha g) : repeatSum g.counts ≤ (w.drop i).length := by
  obtain ⟨_, _, _, _, _, hc, _, hv⟩ := h
  rw [← sum_count_range _ (drop_valid w i hv)]
  unfold repeatSum
  rw [list_range_sum]
  apply Finset.sum_le_sum
  intro k hk
  have := hc k (Finset.mem_range.1 hk)
  by_cases h1 : g.counts.getD k 0 > 1
  · rw [if_pos h1]; omega
  · rw [if_neg h1]; omega

theorem repeatProduct_le_factorial (l : List Nat) : repeatProduct l ≤ l.length.factorial := by
  rw [← length_rearrangements_mul l]
  exact Nat.le_mul_of_pos_left _ (length_rearrangements_pos l)

theorem repeatsTrue_zero_counts (w : List Nat) (i : Nat) (alpha : List Nat) (g : Globals)
    (h : rankInv w i alpha g) (h0 : g.repeatsTrue = 0) :
    ∀ k, k < 26 → (w.drop i).count (65 + k) ≤ 1 := by
  obtain ⟨_, _, _, _, _, hc, hr, _⟩ := h
  rw [hr, checkCounts_eq_zero] at h0
  intro k hk
  have := hc k hk
  have := h0 k hk
  omega

theorem repeatProduct_of_repeatsTrue_zero (w : List Nat) (i : Nat) (alpha : List Nat)
    (g : Globals) (h : rankInv w i alpha g) (h0 : g.repeatsTrue = 0) :
    repeatProduct (w.drop i) = 1 := by
  have hc := repeatsTrue_zero_counts w i alpha g h h0
  rw [repeatProduct_range _ (drop_valid w i h.2.2.2.2.2.2.2)]
  apply Finset.prod_eq_one
  intro k hk
  have := hc k (Finset.mem_range.1 hk)
  have h2 : (w.drop i).count (65 + k) = 0 ∨ (w.drop i).count (65 + k) = 1 := by omega
  rcases h2 with h2 | h2 <;> rw [h2] <;> rfl

theorem repeatsTrue_zero_of_nodup (w : List Nat) (i : Nat) (alpha : List Nat) (g : Globals)
    (h : rankInv w i alpha g) (hn : (w.drop i).Nodup) : g.repeatsTrue = 0 := by
  obtain ⟨_, _, _, _, _, hc, hr, _⟩ := h
  rw [hr, checkCounts_eq_zero]
  intro k hk
  have := hc k hk
  have := List.nodup_iff_count_le_one.1 hn (65 + k)
  omega

theorem factorial_twenty_lt : Nat.factorial 20 < 2 ^ 64 := by decide

theorem factorial_lt_of_le_twenty (m : Nat) (h : m ≤ 20) : m.factorial < 2 ^ 64 :=
  Nat.lt_of_le_of_lt (Nat.factorial_le h) factorial_twenty_lt

theorem div_add_exBit (N D : Nat) (hD : 0 < D) :
    ((N / D : Nat) : ℚ) + (if N % D ≠ 0 then ((N % D : Nat) : ℚ) / (D : ℚ) else 0) =
      (N : ℚ) / (D : ℚ) := by
  have hD' : (D : ℚ) ≠ 0 := by exact_mod_cast Nat.pos_iff_ne_zero.1 hD
  have e : (if N % D ≠ 0 then ((N % D : Nat) : ℚ) / (D : ℚ) else 0) =
      ((N % D : Nat) : ℚ) / (D : ℚ) := by
    by_cases h : N % D ≠ 0
    · rw [if_pos h]
    · rw [if_neg h]
      have : N % D = 0 := by omega
      rw [this]
      simp
  rw [e]
  have h := Nat.div_add_mod N D
  have h' : (N : ℚ) = (D : ℚ) * ((N / D : Nat) : ℚ) + ((N % D : Nat) : ℚ) := by
    exact_mod_cast h.symm
  field_simp
  rw [h']
  ring

theorem exBit_nonneg (wrap : Nat → Nat) (m : Nat) (den : List Nat) : 0 ≤ exBit wrap m den := by
  unfold exBit
  split_ifs
  · positivity
  · exact le_refl _

theorem costF_nonneg (wrap : Nat → Nat) (m : Nat) (g : Globals) : 0 ≤ costF wrap m g := by
  unfold costF
  split_ifs
  · exact exBit_nonneg _ _ _
  · exact le_refl _

/-- Quotient and fraction returned by `divFactorials` add up to `n! / ∏ r!` when no
multiplication wraps. -/
theorem divFactorials_quotient (wrap : Nat → Nat) (B : Nat) (hw : ∀ x, x < B → wrap x = x)
    (den : List Nat) (n : Nat) (hn : n ≤ 26)
    (hsum : ∑ t in Finset.range 26, (den.getD t 0 - 1) ≤ 25)
    (hN : numSum id n den < B) (hD : demSum id n den < B) :
    (((numSum wrap n den / demSum wrap n den : Nat) : ℚ) + exBit wrap n den) *
      (denomProduct den : ℚ) = (n.factorial : ℚ) := by
  obtain ⟨_, _, h1, h2, _, _⟩ := numSum_demSum_id den n hn hsum
  obtain ⟨e1, e2⟩ := numSum_demSum_wrap wrap B hw den n hn hsum hN hD
  rw [← e1, ← e2] at h1
  rw [← e2] at h2
  unfold exBit
  rw [div_add_exBit _ _ h2]
  have hD' : ((demSum wrap n den : Nat) : ℚ) ≠ 0 := by
    exact_mod_cast Nat.pos_iff_ne_zero.1 h2
  have h1' : ((numSum wrap n den : Nat) : ℚ) * (denomProduct den : ℚ) =
      (n.factorial : ℚ) * ((demSum wrap n den : Nat) : ℚ) := by exact_mod_cast h1
  field_simp
  rw [h1']

/-- Under the invariant, the amounts one mismatch adds to `penalty` and `extraSum` add up
to `m! / ∏ r!` for the multiplicities `r` of the letters not yet matched. -/
theorem cost_exact (wrap : Nat → Nat) (hw : ∀ x, x < 2 ^ 64 → wrap x = x) (w : List Nat)
    (i : Nat) (alpha : List Nat) (g : Globals) (h : rankInv w i alpha g) (hi : i < w.length)
    (hs : (w.drop i).length ≤ 20 ∨ ((w.drop i).Nodup ∧ (w.drop i).length ≤ 21)) :
    ((costQ wrap (w.length - i - 1) g : ℚ) + costF wrap (w.length - i - 1) g) *
      (repeatProduct (w.drop i) : ℚ) = ((w.length - i - 1).factorial : ℚ) := by
  have hlen : (w.drop i).length = w.length - i := List.length_drop i w
  by_cases h0 : g.repeatsTrue = 0
  · have hm : w.length - i - 1 ≤ 20 := by omega
    unfold costQ costF
    rw [if_neg (by simpa using h0), if_neg (by simpa using h0),
      repeatProduct_of_repeatsTrue_zero w i alpha g h h0, factorials_getD _ hm]
    simp
  · have hnd : ¬ (w.drop i).Nodup := fun hn => h0 (repeatsTrue_zero_of_nodup w i alpha g h hn)
    have hl : (w.drop i).length ≤ 20 := by
      rcases hs with hs | hs
      · exact hs
      · exact absurd hs.1 hnd
    have hm : w.length - i - 1 ≤ 20 := by omega
    unfold costQ costF
    rw [if_pos h0, if_pos h0, ← denomProduct_counts w i alpha g h]
    have hsum : ∑ t in Finset.range 26, (g.counts.getD t 0 - 1) ≤ 25 := by
      have := sum_pred_le_repeatSum g.counts
      have := repeatSum_counts w i alpha g h
      omega
    obtain ⟨_, _, _, _, b1, b2⟩ := numSum_demSum_id g.counts (w.length - i - 1) (by omega) hsum
    apply divFactorials_quotient wrap (2 ^ 64) hw g.counts _ (by omega) hsum
    · exact Nat.lt_of_le_of_lt b1 (factorial_lt_of_le_twenty _ hm)
    · rw [denomProduct_counts w i alpha g h] at b2
      have := repeatProduct_le_factorial (w.drop i)
      have := factorial_lt_of_le_twenty _ hl
      omega

/-! ## The invariant of `wordToNumber` -/

theorem drop_eq_getD_cons (w : List Nat) (i : Nat) (hi : i < w.length) :
    w.drop i = w.getD i 0 :: w.drop (i + 1) := by
  rw [List.getD_eq_getElem _ _ hi]
  exact List.drop_eq_getElem_cons hi

theorem checkCounts_congr (g g' : Globals) (h : g'.counts = g.counts) :
    checkCounts g' = checkCounts g := by
  unfold checkCounts
  rw [h]

theorem rankInv_congr (w : List Nat) (i : Nat) (alpha : List Nat) (g g' : Globals)
    (h : rankInv w i alpha g) (h1 : g'.wordLength = g.wordLength) (h2 : g'.counts = g.counts)
    (h3 : g'.repeatsTrue = g.repeatsTrue) : rankInv w i alpha g' := by
  obtain ⟨a1, a2, a3, a4, a5, a6, a7, a8⟩ := h
  refine ⟨by rw [h1, a1], a2, a3, a4, by rw [h2, a5], ?_, ?_, a8⟩
  · intro k hk
    rw [h2]
    exact a6 k hk
  · rw [h3, a7, checkCounts_congr g g' h2]

/-- The match branch of `wordToNumber` re-establishes the invariant at the next position. -/
theorem rankInv_step (w : List Nat) (i : Nat) (alpha : List Nat) (g g3 : Globals)
    (h : rankInv w i alpha g) (hi : i < w.length)
    (hwl : g3.wordLength = g.wordLength)
    (hc : g3.counts = (decrementCount (w.getD i 0) 26 0 g).counts)
    (hr : g3.repeatsTrue = (decrementCount (w.getD i 0) 26 0 g).repeatsTrue) :
    rankInv w (i + 1) (alpha.erase (w.getD i 0)) g3 := by
  obtain ⟨a1, a2, a3, a4, a5, a6, a7, a8⟩ := h
  have hd := drop_eq_getD_cons w i hi
  have hcv : 65 ≤ w.getD i 0 ∧ w.getD i 0 ≤ 90 := by
    apply a8
    rw [List.getD_eq_getElem _ _ hi]
    exact List.getElem_mem hi
  rw [decrementCount_eq _ _ hcv.1 hcv.2] at hc hr
  have hcount : ∀ k, k < 26 → (w.drop i).count (65 + k) =
      (w.drop (i + 1)).count (65 + k) + if k = w.getD i 0 - 65 then 1 else 0 := by
    intro k hk
    rw [hd, List.count_cons]
    by_cases e : k = w.getD i 0 - 65
    · rw [if_pos e, if_pos (beq_iff_eq.2 (by omega))]
    · rw [if_neg e, if_neg (by rw [beq_iff_eq]; omega)]
  have hperm : (alpha.erase (w.getD i 0)).Perm (w.drop (i + 1)) := by
    have := List.Perm.erase (w.getD i 0) a4
    rw [hd, List.erase_cons_head] at this
    exact this
  have hsorted : (alpha.erase (w.getD i 0)).Sorted (fun a b => a ≤ b) :=
    List.Pairwise.sublist (List.erase_sublist _ _) a3
  by_cases hgt : g.counts.getD (w.getD i 0 - 65) 0 > 1
  · rw [if_pos hgt] at hc hr
    simp only [] at hc hr
    refine ⟨by rw [hwl, a1], hi, hsorted, hperm, by rw [hc]; simp [a5], ?_, ?_, a8⟩
    · intro k hk
      rw [hc, getD_set]
      have h6 := a6 k hk
      have h7 := hcount k hk
      by_cases e : k = w.getD i 0 - 65
      · rw [if_pos ⟨e.symm, by omega⟩]
        rw [if_pos e] at h7
        rw [e] at h6 h7
        rw [e]
        omega
      · rw [if_neg (fun hh => e hh.1.symm)]
        rw [if_neg e] at h7
        omega
    · rw [hr]
      unfold checkCounts
      rw [hc]
  · rw [if_neg hgt] at hc hr
    refine ⟨by rw [hwl, a1], hi, hsorted, hperm, by rw [hc]; exact a5, ?_, ?_, a8⟩
    · intro k hk
      rw [hc]
      have h6 := a6 k hk
      have h7 := hcount k hk
      by_cases e : k = w.getD i 0 - 65
      · rw [if_pos e] at h7
        rw [e] at h6 h7
        rw [e]
        omega
      · rw [if_neg e] at h7
        omega
    · rw [hr, a7]
      unfold checkCounts
      rw [hc]

theorem mem_alpha_of_inv (w : List Nat) (i : Nat) (alpha : List Nat) (g : Globals)
    (h : rankInv w i alpha g) (hi : i < w.length) : w.getD i 0 ∈ alpha := by
  obtain ⟨_, _, _, a4, _⟩ := h
  rw [a4.mem_iff, drop_eq_getD_cons w i hi]
  exact List.mem_cons_self _ _

theorem indexOf_alpha (w : List Nat) (i : Nat) (alpha : List Nat) (g : Globals)
    (h : rankInv w i alpha g) (hi : i < w.length) :
    alpha.indexOf (w.getD i 0) = ((w.drop i).filter (fun b => b < w.getD i 0)).length := by
  rw [indexOf_eq_filter_length _ _ h.2.2.1 (mem_alpha_of_inv w i alpha g h hi)]
  exact (List.Perm.filter _ h.2.2.2.1).length_eq

/-- The penalties charged at one position add up to the number of rearrangements of the
remaining letters that start with a smaller letter. -/
theorem mismatch_total (wrap : Nat → Nat) (hw : ∀ x, x < 2 ^ 64 → wrap x = x) (w : List Nat)
    (i : Nat) (alpha : List Nat) (g : Globals) (h : rankInv w i alpha g) (hi : i < w.length)
    (hs : safeFrom (w.drop i)) :
    ((alpha.indexOf (w.getD i 0) : Nat) : ℚ) *
        ((costQ wrap (w.length - i - 1) g : ℚ) + costF wrap (w.length - i - 1) g) =
      (smallerFirst (w.drop i) (w.getD i 0) : ℚ) := by
  have hR : (repeatProduct (w.drop i) : ℚ) ≠ 0 := by
    exact_mod_cast Nat.pos_iff_ne_zero.1 (repeatProduct_pos _)
  have hsm := smallerFirst_mul (w.drop i) (w.getD i 0)
  rw [← indexOf_alpha w i alpha g h hi, List.length_drop] at hsm
  have hsm' : (smallerFirst (w.drop i) (w.getD i 0) : ℚ) * (repeatProduct (w.drop i) : ℚ) =
      ((alpha.indexOf (w.getD i 0) : Nat) : ℚ) * ((w.length - i - 1).factorial : ℚ) := by
    exact_mod_cast hsm
  apply mul_right_cancel₀ hR
  rw [hsm']
  by_cases h0 : alpha.indexOf (w.getD i 0) = 0
  · rw [h0]; simp
  · have hex : ∃ b ∈ w.drop (i + 1), b < w.getD i 0 := by
      rw [indexOf_alpha w i alpha g h hi] at h0
      have hne : (w.drop i).filter (fun b => b < w.getD i 0) ≠ [] := by
        intro e; rw [e] at h0; exact h0 rfl
      obtain ⟨b, hb⟩ := List.exists_mem_of_ne_nil _ hne
      rw [List.mem_filter] at hb
      have hlt : b < w.getD i 0 := by simpa using hb.2
      have hb1 := hb.1
      rw [drop_eq_getD_cons w i hi] at hb1
      rcases List.mem_cons.1 hb1 with e | e
      · omega
      · exact ⟨b, e, hlt⟩
    have hsz : (w.drop i).length ≤ 20 ∨ ((w.drop i).Nodup ∧ (w.drop i).length ≤ 21) := by
      rw [drop_eq_getD_cons w i hi] at hs ⊢
      exact hs.1 hex
    rw [mul_assoc, cost_exact wrap hw w i alpha g h hi hsz]

/-! ## The run of `wordToNumber` -/

theorem wordToNumberLoop_done (wrap : Nat → Nat) (w : List Nat) (fuel : Nat)
    (alpha : List Nat) (n reit i : Nat) (g : Globals) (h : ¬ i < g.wordLength) :
    wordToNumberLoop wrap w (fuel + 1) alpha n reit i g = some (printedRank wrap g, g) := by
  rw [wordToNumberLoop, if_neg h]

theorem wordToNumberLoop_match (wrap : Nat → Nat) (w : List Nat) (fuel : Nat)
    (alpha : List Nat) (n reit i j : Nat) (g g1 : Globals) (h : i < g.wordLength)
    (hs : scanAlpha wrap w alpha reit i n 0 g = (some j, g1)) :
    wordToNumberLoop wrap w (fuel + 1) alpha n reit i g =
      wordToNumberLoop wrap w fuel (shrinkWord alpha (alpha.getD j 0) [])
        (shrinkWord alpha (alpha.getD j 0) []).length (i + 1) (i + 1)
        (matchStep wrap (alpha.getD j 0) g1) := by
  rw [wordToNumberLoop, if_pos h, hs]

/-- From a state that satisfies the invariant, `wordToNumber` runs to its end, and the
sum of `totalPenalty` and `extraSum` grows by the number of rearrangements of the
remaining letters that are below the rest of the word. -/
theorem run_loop (wrap : Nat → Nat) (hw : ∀ x, x < 2 ^ 64 → wrap x = x) (w : List Nat) :
    ∀ (d fuel i : Nat) (alpha : List Nat) (g : Globals),
      w.length - i = d → d < fuel → rankInv w i alpha g → safeFrom (w.drop i) →
      g.penalty = 0 → 0 ≤ g.extraSum → g.totalPenalty + countBelow (w.drop i) < 2 ^ 64 →
      ∃ gf, wordToNumberLoop wrap w fuel alpha alpha.length i i g =
          some (printedRank wrap gf, gf) ∧
        (gf.totalPenalty : ℚ) + gf.extraSum =
          (g.totalPenalty : ℚ) + g.extraSum + (countBelow (w.drop i) : ℚ) ∧
        0 ≤ gf.extraSum ∧ gf.peak ≤ max g.peak (g.totalPenalty + countBelow (w.drop i)) := by
  intro d
  induction d with
  | zero =>
    intro fuel i alpha g hd hf hinv _ _ he _
    cases fuel with
    | zero => omega
    | succ f =>
      have hi : ¬ i < g.wordLength := by rw [hinv.1]; omega
      have hdrop : w.drop i = [] := List.drop_eq_nil_of_le (by omega)
      refine ⟨g, wordToNumberLoop_done wrap w f alpha _ i i g hi, ?_, he, le_max_left _ _⟩
      rw [hdrop, countBelow_nil]
      simp
  | succ d ih =>
    intro fuel i alpha g hd hf hinv hsafe hp he hb
    cases fuel with
    | zero => omega
    | succ f =>
      have hi : i < w.length := by omega
      have hmem := mem_alpha_of_inv w i alpha g hinv hi
      have hj0 : alpha.indexOf (w.getD i 0) < alpha.length := indexOf_lt_of_mem _ _ hmem
      have hget : alpha.getD (alpha.indexOf (w.getD i 0)) 0 = w.getD i 0 :=
        getD_indexOf _ _ hmem
      have hscan := scanAlpha_eq wrap w alpha i i (alpha.indexOf (w.getD i 0))
        (fun t ht => getD_ne_of_lt_indexOf _ alpha t ht) hget alpha.length 0 g
        (Nat.zero_le _) (by omega)
      rw [Nat.sub_zero] at hscan
      have hdrop := drop_eq_getD_cons w i hi
      have htot := mismatch_total wrap hw w i alpha g hinv hi hsafe
      have hcb : countBelow (w.drop i) =
          smallerFirst (w.drop i) (w.getD i 0) + countBelow (w.drop (i + 1)) := by
        have := countBelow_cons (w.getD i 0) (w.drop (i + 1))
        rw [← hdrop] at this
        exact this
      have hf0 := costF_nonneg wrap (w.length - i - 1) g
      have hqle : alpha.indexOf (w.getD i 0) * costQ wrap (w.length - i - 1) g ≤
          smallerFirst (w.drop i) (w.getD i 0) := by
        have h1 : ((alpha.indexOf (w.getD i 0) * costQ wrap (w.length - i - 1) g : Nat) : ℚ) ≤
            (smallerFirst (w.drop i) (w.getD i 0) : ℚ) := by
          rw [← htot]
          push_cast
          have : (0 : ℚ) ≤ ((alpha.indexOf (w.getD i 0) : Nat) : ℚ) *
              costF wrap (w.length - i - 1) g :=
            mul_nonneg (Nat.cast_nonneg _) hf0
          linarith
        exact_mod_cast h1
      obtain ⟨i1, i2, i3, i4, i5, i6, i7⟩ := addPenalty_iterate wrap (2 ^ 64) hw w i g
        (alpha.indexOf (w.getD i 0)) (by omega)
      obtain ⟨m1, m2, m3, m4, m5, m6, m7⟩ := matchStep_fields wrap (w.getD i 0)
        ((addPenalty wrap w i)^[alpha.indexOf (w.getD i 0)] g)
      rw [i1, i7, hp, Nat.zero_add, hw _ (by omega)] at m3 m5
      have hinv1 := rankInv_congr w i alpha g _ hinv i6 i4 i5
      have hinv3 := rankInv_step w i alpha _ _ hinv1 hi m1 m6 m7
      have hsafe3 : safeFrom (w.drop (i + 1)) := by
        rw [hdrop] at hsafe
        exact hsafe.2
      obtain ⟨gf, e1, e2, e3, e4⟩ := ih f (i + 1) (alpha.erase (w.getD i 0)) _
        (by omega) (by omega) hinv3 hsafe3 m2
        (by rw [m4, i2]; exact add_nonneg he (mul_nonneg (Nat.cast_nonneg _) hf0))
        (by rw [m3]; omega)
      refine ⟨gf, ?_, ?_, e3, ?_⟩
      · rw [wordToNumberLoop_match wrap w f alpha _ i i _ g _ (by rw [hinv.1]; exact hi) hscan,
          hget, shrinkWord_eq_erase _ _ hmem]
        exact e1
      · rw [e2, m3, m4, i2, hcb]
        push_cast
        rw [← htot]
        ring
      · rw [m3, m5] at e4
        have := i3
        rw [hp, Nat.zero_add] at this
        omega

/-! ## `checkWord` and `main` -/

theorem getD_replicate_zero : ∀ (n k : Nat), (List.replicate n (0 : Nat)).getD k 0 = 0 := by
  intro n
  induction n with
  | zero => intro k; rfl
  | succ n ih =>
    intro k
    cases k with
    | zero => rfl
    | succ k =>
      rw [List.replicate_succ, List.getD_cons_succ]
      exact ih k

theorem checkWordCount_eq (w : List Nat) (hlen : w.length ≤ 255)
    (hv : ∀ c ∈ w, 65 ≤ c ∧ c ≤ 90) :
    ∀ (d fuel i : Nat) (g : Globals), w.length - i = d → d < fuel → i ≤ w.length →
      g.wordLength = w.length → g.counts.length = 26 →
      ∃ cs, checkWordCount fuel w i g = some (0, { g with counts := cs }) ∧ cs.length = 26 ∧
        ∀ k, k < 26 → cs.getD k 0 = g.counts.getD k 0 + (w.drop i).count (65 + k) := by
  intro d
  induction d with
  | zero =>
    intro fuel i g hd hf hi hwl hcl
    cases fuel with
    | zero => omega
    | succ f =>
      refine ⟨g.counts, ?_, hcl, ?_⟩
      · rw [checkWordCount, if_neg (by rw [hwl]; omega)]
      · intro k _
        rw [List.drop_eq_nil_of_le (by omega)]
        simp
  | succ d ih =>
    intro fuel i g hd hf hi hwl hcl
    cases fuel with
    | zero => omega
    | succ f =>
      have hi' : i < w.length := by omega
      have hdrop := drop_eq_getD_cons w i hi'
      have hcv : 65 ≤ w.getD i 0 ∧ w.getD i 0 ≤ 90 := by
        apply hv
        rw [List.getD_eq_getElem _ _ hi']
        exact List.getElem_mem hi'
      obtain ⟨cs, h1, h2, h3⟩ := ih f (i + 1)
        { g with counts := g.counts.set (w.getD i 0 - 65)
                    (g.counts.getD (w.getD i 0 - 65) 0 + 1) }
        (by omega) (by omega) (by omega) hwl (by simp [hcl])
      refine ⟨cs, ?_, h2, ?_⟩
      · rw [checkWordCount, if_pos (by rw [hwl]; exact hi'), if_pos hcv,
          Nat.mod_eq_of_lt (by omega)]
        exact h1
      · intro k hk
        rw [h3 k hk, hdrop, List.count_cons]
        show (g.counts.set (w.getD i 0 - 65) (g.counts.getD (w.getD i 0 - 65) 0 + 1)).getD k 0 +
          _ = _
        rw [getD_set]
        by_cases e : w.getD i 0 - 65 = k
        · rw [if_pos ⟨e, by omega⟩, if_pos (beq_iff_eq.2 (by omega)), e]
          omega
        · rw [if_neg (fun hh => e hh.1), if_neg (by rw [beq_iff_eq]; omega)]
          omega

theorem buildAlphaInner_eq (c : Nat) : ∀ (n : Nat) (a : List Nat),
    buildAlphaInner c n a = a ++ List.replicate n c := by
  intro n
  induction n with
  | zero => intro a; simp [buildAlphaInner]
  | succ n ih =>
    intro a
    rw [buildAlphaInner, ih, List.append_assoc, List.replicate_succ]
    rfl

theorem buildAlphaOuter_count (counts : List Nat) (c : Nat) : ∀ (n j : Nat) (a : List Nat),
    j + n ≤ 26 →
    (buildAlphaOuter counts n j a).count c =
      a.count c + if 65 + j ≤ c ∧ c < 65 + j + n then counts.getD (c - 65) 0 else 0 := by
  intro n
  induction n with
  | zero =>
    intro j a _
    rw [buildAlphaOuter, if_neg (by omega)]
    rfl
  | succ n ih =>
    intro j a hj
    rw [buildAlphaOuter, ih (j + 1) _ (by omega), buildAlphaInner_eq, upper_getD j (by omega),
      List.count_append, List.count_replicate]
    by_cases e : 65 + j = c
    · rw [if_pos (beq_iff_eq.2 e), if_neg (by omega), if_pos (by omega), ← e]
      simp
    · rw [if_neg (by rw [beq_iff_eq]; exact e)]
      by_cases e2 : 65 + (j + 1) ≤ c ∧ c < 65 + (j + 1) + n
      · rw [if_pos e2, if_pos (by omega)]
        omega
      · rw [if_neg e2, if_neg (by omega)]

theorem buildAlphaOuter_sorted (counts : List Nat) : ∀ (n j : Nat) (a : List Nat),
    j + n ≤ 26 → a.Sorted (fun x y => x ≤ y) → (∀ x ∈ a, x < 65 + j) →
    (buildAlphaOuter counts n j a).Sorted (fun x y => x ≤ y) := by
  intro n
  induction n with
  | zero => intro j a _ h _; exact h
  | succ n ih =>
    intro j a hj hs hb
    rw [buildAlphaOuter, buildAlphaInner_eq, upper_getD j (by omega)]
    apply ih (j + 1) _ (by omega)
    · unfold List.Sorted
      rw [List.pairwise_append]
      refine ⟨hs, ?_, ?_⟩
      · rw [List.pairwise_replicate]
        exact Or.inr (le_refl _)
      · intro x hx y hy
        have := hb x hx
        have := (List.mem_replicate.1 hy).2
        omega
    · intro x hx
      rcases List.mem_append.1 hx with h | h
      · have := hb x h
        omega
      · have := (List.mem_replicate.1 h).2
        omega

/-- On a word of capital letters `checkWord` returns 0, leaves the letter counts in
`counts` and the letters in ascending order in `alphaWord`. -/
theorem checkWord_eq (w : List Nat) (hlen : w.length ≤ 255)
    (hv : ∀ c ∈ w, 65 ≤ c ∧ c ≤ 90) (fuel : Nat) (hf : w.length < fuel) (g : Globals)
    (hwl : g.wordLength = w.length) (hz : g.counts = List.replicate 26 0)
    (ha : g.alphaWord = []) :
    ∃ cs alpha, checkWord fuel w g = some (0, { g with counts := cs, alphaWord := alpha }) ∧
      cs.length = 26 ∧ (∀ k, k < 26 → cs.getD k 0 = w.count (65 + k)) ∧
      alpha.Sorted (fun x y => x ≤ y) ∧ alpha.Perm w := by
  obtain ⟨cs, h1, h2, h3⟩ := checkWordCount_eq w hlen hv w.length fuel 0 g (by omega) hf
    (Nat.zero_le _) hwl (by rw [hz]; simp)
  have h3' : ∀ k, k < 26 → cs.getD k 0 = w.count (65 + k) := by
    intro k hk
    rw [h3 k hk, hz, getD_replicate_zero]
    simp
  refine ⟨cs, buildAlphaOuter cs 26 0 [], ?_, h2, h3', ?_, ?_⟩
  · unfold checkWord
    rw [h1]
    simp only [ne_eq, not_true_eq_false, if_false, ha]
  · exact buildAlphaOuter_sorted cs 26 0 [] (by omega) List.sorted_nil (by simp)
  · rw [List.perm_iff_count]
    intro c
    rw [buildAlphaOuter_count cs c 26 0 [] (by omega)]
    by_cases e : 65 + 0 ≤ c ∧ c < 65 + 0 + 26
    · rw [if_pos e, h3' _ (by omega)]
      have : 65 + (c - 65) = c := by omega
      rw [this]
      simp
    · rw [if_neg e]
      have : c ∉ w := fun hc => e (by have := hv c hc; omega)
      rw [List.count_eq_zero_of_not_mem this]
      simp

theorem main_of_length (wrap : Nat → Nat) (fuel : Nat) (name w : List Nat)
    (h1 : 1 ≤ w.length) (h2 : w.length ≤ 25) :
    main wrap fuel [name, w] =
      match checkWord fuel w { initGlobals with wordLength := w.length } with
      | none => none
      | some (e, g2) =>
        if printErr (g2.err ||| e) then some (g2.err ||| e, none, { g2 with err := g2.err ||| e })
        else
          match wordToNumber wrap fuel w g2.alphaWord g2.wordLength 0
              { g2 with err := g2.err ||| e,
                        repeatsTrue := checkCounts { g2 with err := g2.err ||| e } } with
          | none => none
          | some (r, g3) => some (0, some r, g3) := by
  unfold main
  have e1 : ¬ ([name, w].length < 2) := by simp
  have e2 : ¬ ([name, w].length > 2) := by simp
  have e3 : [name, w].getD 1 [] = w := rfl
  rw [if_neg e1, if_neg e2]
  simp only [e3]
  rw [if_neg (by show ¬ (w.length < 1); omega), if_neg (by show ¬ (w.length > 25); omega)]

theorem main_of_checkWord (wrap : Nat → Nat) (fuel : Nat) (name w : List Nat)
    (h1 : 1 ≤ w.length) (h2 : w.length ≤ 25) (g2 : Globals)
    (hcw : checkWord fuel w { initGlobals with wordLength := w.length } = some (0, g2))
    (herr : g2.err = 0) :
    main wrap fuel [name, w] =
      match wordToNumberLoop wrap w fuel g2.alphaWord g2.wordLength 0 0
          { g2 with err := 0, repeatsTrue := checkCounts { g2 with err := 0 } } with
      | none => none
      | some (r, g3) => some (0, some r, g3) := by
  rw [main_of_length wrap fuel name w h1 h2, hcw]
  simp only []
  rw [herr]
  have hp : ¬ (printErr (0 ||| 0) = true) := by decide
  rw [if_neg hp]
  rfl

/-- The rank printed by `wordToNumber` when the fractional carry is a whole number. -/
theorem printedRank_eq (wrap : Nat → Nat) (hw : ∀ x, x < 2 ^ 64 → wrap x = x) (g : Globals)
    (r : Nat) (hr : r < 2 ^ 64) (he : 0 ≤ g.extraSum)
    (h : (g.totalPenalty : ℚ) + g.extraSum = (r : ℚ)) : printedRank wrap g = r := by
  have hle : (g.totalPenalty : ℚ) ≤ (r : ℚ) := by linarith
  have hle' : g.totalPenalty ≤ r := by exact_mod_cast hle
  have hes : g.extraSum = ((r - g.totalPenalty : Nat) : ℚ) := by
    rw [Nat.cast_sub hle']
    linarith
  have hfl : Rat.floor g.extraSum = ((r - g.totalPenalty : Nat) : ℤ) := by
    rw [hes]
    exact @Int.floor_natCast ℚ _ _ (r - g.totalPenalty)
  unfold printedRank
  rw [hfl, Int.toNat_natCast, hw (r - g.totalPenalty) (by omega), hw _ (by omega)]
  omega

/-- The program prints the rank of every valid word for which each penalty is charged at
a position with at most 20 letters left, or at most 21 distinct ones, and whose rank is
below `2 ^ 64`; the accumulators never exceed the rank. -/
theorem main_rank (wrap : Nat → Nat) (hw : ∀ x, x < 2 ^ 64 → wrap x = x) (w : List Nat)
    (hvalid : validWord w) (hsafe : safeFrom w) (hb : lexRank w < 2 ^ 64)
    (fuel : Nat) (name : List Nat) (hf : w.length < fuel) :
    ∃ g, main wrap fuel [name, w] = some (0, some (lexRank w), g) ∧ g.peak ≤ lexRank w := by
  obtain ⟨hl1, hl2, hv⟩ := hvalid
  obtain ⟨cs, alpha, hcw, hcl, hcs, hsorted, hperm⟩ := checkWord_eq w (by omega) hv fuel hf
    { initGlobals with wordLength := w.length } rfl rfl rfl
  have hinv : rankInv w 0 alpha
      { initGlobals with
        wordLength := w.length, counts := cs, alphaWord := alpha,
        repeatsTrue := checkCounts { initGlobals with counts := cs } } := by
    refine ⟨rfl, Nat.zero_le _, hsorted, by simpa using hperm, hcl, ?_, rfl, hv⟩
    intro k hk
    show max 1 (cs.getD k 0) = _
    rw [hcs k hk]
    simp
  obtain ⟨gf, e1, e2, e3, e4⟩ := run_loop wrap hw w w.length fuel 0 alpha _ (by omega) hf hinv
    (by simpa using hsafe) rfl (le_refl _) (by
      show 1 + countBelow (w.drop 0) < 2 ^ 64
      simpa [lexRank] using hb)
  have hdrop : w.drop 0 = w := rfl
  rw [hdrop] at e2 e4
  have hrank : printedRank wrap gf = lexRank w := by
    apply printedRank_eq wrap hw gf (lexRank w) hb e3
    rw [e2]
    unfold lexRank
    show ((1 : Nat) : ℚ) + (0 : ℚ) + _ = _
    push_cast
    ring
  have hl : alpha.length = w.length := hperm.length_eq
  rw [hl] at e1
  refine ⟨gf, ?_, ?_⟩
  · rw [main_of_checkWord wrap fuel name w hl1 hl2 _ hcw rfl]
    show (match wordToNumberLoop wrap w fuel alpha w.length 0 0
        { initGlobals with
          wordLength := w.length, counts := cs, alphaWord := alpha,
          repeatsTrue := checkCounts { initGlobals with counts := cs } } with
      | none => none
      | some (r, g3) => some (0, some r, g3)) = _
    rw [e1, hrank]
  · have : gf.peak ≤ max 1 (1 + countBelow w) := e4
    unfold lexRank
    omega

/-! ## Words on which no accumulator overflows -/

theorem safeFrom_of_length (w : List Nat) (h : w.length ≤ 20) : safeFrom w := by
  induction w with
  | nil => trivial
  | cons c s ih =>
    refine ⟨fun _ => Or.inl h, ih ?_⟩
    simp only [List.length_cons] at h
    omega

theorem safeFrom_of_sorted (w : List Nat) (h : w.Sorted (fun a b => a ≤ b)) : safeFrom w := by
  induction w with
  | nil => trivial
  | cons c s ih =>
    rw [List.sorted_cons] at h
    refine ⟨fun hex => ?_, ih h.2⟩
    obtain ⟨b, hb, hlt⟩ := hex
    have := h.1 b hb
    omega

theorem repeatProduct_of_nodup (w : List Nat) (h : w.Nodup) : repeatProduct w = 1 := by
  rw [repeatProduct_eq]
  apply Finset.prod_eq_one
  intro c hc
  rw [List.count_eq_one_of_mem h (by simpa using hc)]
  rfl

theorem length_rearrangements_of_nodup (w : List Nat) (h : w.Nodup) :
    (rearrangements w).length = w.length.factorial := by
  rw [← length_rearrangements_mul w, repeatProduct_of_nodup w h, mul_one]

theorem factorial_twentyone_ge : 2 ^ 64 ≤ Nat.factorial 21 := by decide

theorem smallerFirst_ge (c : Nat) (s : List Nat) (hn : (c :: s).Nodup)
    (hex : ∃ b ∈ s, b < c) : s.length.factorial ≤ smallerFirst (c :: s) c := by
  obtain ⟨b, hb, hlt⟩ := hex
  unfold smallerFirst
  have hmem : b ∈ (c :: s).toFinset.filter (fun b => b < c) := by
    simp only [Finset.mem_filter, List.mem_toFinset, List.mem_cons]
    exact ⟨Or.inr hb, hlt⟩
  have hle : (rearrangements ((c :: s).erase b)).length ≤
      ∑ b in (c :: s).toFinset.filter (fun b => b < c),
        (rearrangements ((c :: s).erase b)).length :=
    @Finset.single_le_sum ℕ ℕ _ (fun b => (rearrangements ((c :: s).erase b)).length) _
      (fun _ _ => Nat.zero_le _) b hmem
  have hlen : ((c :: s).erase b).length = s.length := by
    rw [List.length_erase_of_mem (List.mem_cons_of_mem _ hb)]
    rfl
  have : (rearrangements ((c :: s).erase b)).length = s.length.factorial := by
    rw [length_rearrangements_of_nodup _ (List.Nodup.erase _ hn), hlen]
  rw [← this]
  exact hle

theorem safeFrom_of_nodup (w : List Nat) (hn : w.Nodup) (hb : countBelow w < 2 ^ 64) :
    safeFrom w := by
  induction w with
  | nil => trivial
  | cons c s ih =>
    rw [countBelow_cons] at hb
    refine ⟨fun hex => Or.inr ⟨hn, ?_⟩, ih (List.nodup_cons.1 hn).2 (by omega)⟩
    by_contra hlen
    have h21 : 21 ≤ s.length := by
      simp only [List.length_cons] at hlen
      omega
    have h1 := smallerFirst_ge c s hn hex
    have h2 := Nat.factorial_le h21
    have h3 := factorial_twentyone_ge
    omega

theorem lexRank_le_factorial (w : List Nat) : lexRank w ≤ w.length.factorial := by
  have h1 := countBelow_lt_length w
  have h2 : (rearrangements w).length ≤ w.length.factorial := by
    rw [← length_rearrangements_mul w]
    exact Nat.le_mul_of_pos_right _ (repeatProduct_pos w)
  unfold lexRank
  omega

theorem lexRank_lt_of_length (w : List Nat) (h : w.length ≤ 20) : lexRank w < 2 ^ 64 :=
  Nat.lt_of_le_of_lt (lexRank_le_factorial w) (factorial_lt_of_le_twenty _ h)

theorem u64_of_lt (x : Nat) (h : x < 2 ^ 64) : u64 x = x := Nat.mod_eq_of_lt h

theorem reports_of_safe (w : List Nat) (hv : validWord w) (hs : safeFrom w)
    (hb : lexRank w < 2 ^ 64) : reports w (lexRank w) := by
  intro fuel name hf
  obtain ⟨g, hg, _⟩ := main_rank u64 u64_of_lt w hv hs hb fuel name hf
  exact ⟨g, hg⟩

theorem reports_of_length (w : List Nat) (hv : validWord w) (h : w.length ≤ 20) :
    reports w (lexRank w) :=
  reports_of_safe w hv (safeFrom_of_length w h) (lexRank_lt_of_length w h)

theorem reportedRank_of_reports (w : List Nat) (r : Nat) (h : reports w r) :
    reportedRank w = some r := by
  obtain ⟨g, hg⟩ := h (w.length + 1) [] (by omega)
  unfold reportedRank
  rw [hg]

theorem reports_unique (w : List Nat) (r s : Nat) (h1 : reports w r) (h2 : reports w s) :
    r = s := by
  have e1 := reportedRank_of_reports w r h1
  have e2 := reportedRank_of_reports w s h2
  rw [e1] at e2
  exact Option.some.inj e2

theorem validWord_perm (u v : List Nat) (h : u.Perm v) (hv : validWord u) : validWord v := by
  obtain ⟨h1, h2, h3⟩ := hv
  refine ⟨by rw [← h.length_eq]; exact h1, by rw [← h.length_eq]; exact h2, ?_⟩
  intro c hc
  exact h3 c (h.mem_iff.2 hc)

theorem arrangementCount_perm (u v : List Nat) (h : u.Perm v) :
    arrangementCount u = arrangementCount v := by
  rw [arrangementCount_eq, arrangementCount_eq, length_rearrangements, length_rearrangements,
    below_card_congr u v h]

/-! ## The claims -/

set_option maxRecDepth 100000 in
/-- C2: on the documented example words the program reports the documented ranks:
ABC 1, ACB 2, BAC 3, BCA 4, CAB 5, CBA 6, AAAB 1, AABA 2, ABAA 3, BAAA 4, AABB 1, ABAB 2,
ABBA 3, BAAB 4, BABA 5, BBAA 6 and BOOKKEEPER 10743. -/
theorem c2_documented_ranks :
    reportedRank [65, 66, 67] = some 1 ∧
    reportedRank [65, 67, 66] = some 2 ∧
    reportedRank [66, 65, 67] = some 3 ∧
    reportedRank [66, 67, 65] = some 4 ∧
    reportedRank [67, 65, 66] = some 5 ∧
    reportedRank [67, 66, 65] = some 6 ∧
    reportedRank [65, 65, 65, 66] = some 1 ∧
    reportedRank [65, 65, 66, 65] = some 2 ∧
    reportedRank [65, 66, 65, 65] = some 3 ∧
    reportedRank [66, 65, 65, 65] = some 4 ∧
    reportedRank [65, 65, 66, 66] = some 1 ∧
    reportedRank [65, 66, 65, 66] = some 2 ∧
    reportedRank [65, 66, 66, 65] = some 3 ∧
    reportedRank [66, 65, 65, 66] = some 4 ∧
    reportedRank [66, 65, 66, 65] = some 5 ∧
    reportedRank [66, 66, 65, 65] = some 6 ∧
    reportedRank [66, 79, 79, 75, 75, 69, 69, 80, 69, 82] = some 10743 := by
  decide!

theorem bounds_of_repeatSum (n : Nat) (den : List Nat) (hn : n ≤ 20)
    (hd : repeatSum den ≤ 20) :
    ∑ t in Finset.range 26, (den.getD t 0 - 1) ≤ 25 ∧ n.factorial < 2 ^ 64 ∧
      denomProduct den < 2 ^ 64 := by
  refine ⟨?_, factorial_lt_of_le_twenty n hn, ?_⟩
  · have := sum_pred_le_repeatSum den
    omega
  · exact Nat.lt_of_le_of_lt (denomProduct_le den) (factorial_lt_of_le_twenty _ hd)

set_option maxRecDepth 100000 in
/-- C7, counterexample: for the numerator degree 21 and the letter counts of the valid
word `BAACDEFGHIJKLMNOPQRSTU` (the call made at its first letter) `divFactorials` returns
7098727012145168384 and adds 0 to `extraSum`, whereas `21! / 2!` is
25545471085854720000. -/
theorem c7_counterexample :
    validWord wordBAAC ∧
      (divFactorials u64 21 (letterCounts wordBAAC) initGlobals).1 = 7098727012145168384 ∧
      exBit u64 21 (letterCounts wordBAAC) = 0 ∧
      denomProduct (letterCounts wordBAAC) = 2 ∧
      Nat.factorial 21 = 2 * 25545471085854720000 ∧
      (((divFactorials u64 21 (letterCounts wordBAAC) initGlobals).1 : Nat) : ℚ) +
          exBit u64 21 (letterCounts wordBAAC) ≠
        (Nat.factorial 21 : ℚ) / (denomProduct (letterCounts wordBAAC) : ℚ) := by
  have h1 : (divFactorials u64 21 (letterCounts wordBAAC) initGlobals).1 =
      7098727012145168384 := by decide
  have h2 : exBit u64 21 (letterCounts wordBAAC) = 0 := by decide!
  have h3 : denomProduct (letterCounts wordBAAC) = 2 := by decide
  have h4 : Nat.factorial 21 = 2 * 25545471085854720000 := by decide
  refine ⟨by decide, h1, h2, h3, h4, ?_⟩
  rw [h1, h2, h3, h4]
  norm_num

/-- C7, amended: for every numerator degree `n` up to 25 and every denominators array
drawn from a letter multiset of at most 25 letters, provided the products `numSum` and
`demSum`, computed as unbounded integers, are below `2 ^ 64`, `divFactorials` returns an
integer `q` and adds to `extraSum` the fraction `f = remain / demSum`, with `0 ≤ f < 1`,
such that `q + f` is `n!` divided by the product of `r!` over the entries `r > 1`; so
`q` is the floor of that quotient. -/
theorem c7_divFactorials_quotient (n : Nat) (den : List Nat) (g : Globals) (hn : n ≤ 25)
    (hd : repeatSum den ≤ 25) (hN : numSum id n den < 2 ^ 64)
    (hD : demSum id n den < 2 ^ 64) :
    (divFactorials u64 n den g).2.extraSum = g.extraSum + exBit u64 n den ∧
      exBit u64 n den =
        ((numSum u64 n den % demSum u64 n den : Nat) : ℚ) / ((demSum u64 n den : Nat) : ℚ) ∧
      0 ≤ exBit u64 n den ∧ exBit u64 n den < 1 ∧
      ((divFactorials u64 n den g).1 : ℚ) + exBit u64 n den =
        (n.factorial : ℚ) / (denomProduct den : ℚ) ∧
      (divFactorials u64 n den g).1 = n.factorial / denomProduct den := by
  have hsum : ∑ t in Finset.range 26, (den.getD t 0 - 1) ≤ 25 :=
    le_trans (sum_pred_le_repeatSum den) hd
  obtain ⟨_, _, h1, h2, _, _⟩ := numSum_demSum_id den n (by omega) hsum
  obtain ⟨e1, e2⟩ := numSum_demSum_wrap u64 (2 ^ 64) u64_of_lt den n (by omega) hsum hN hD
  rw [← e1, ← e2] at h1
  rw [← e2] at h2
  have hq := divFactorials_quotient u64 (2 ^ 64) u64_of_lt den n (by omega) hsum hN hD
  have hP : (denomProduct den : ℚ) ≠ 0 := by
    exact_mod_cast Nat.pos_iff_ne_zero.1 (denomProduct_pos den)
  have hDq : (0 : ℚ) < ((demSum u64 n den : Nat) : ℚ) := by exact_mod_cast h2
  have hex : exBit u64 n den =
      ((numSum u64 n den % demSum u64 n den : Nat) : ℚ) / ((demSum u64 n den : Nat) : ℚ) := by
    unfold exBit
    by_cases h : numSum u64 n den % demSum u64 n den ≠ 0
    · rw [if_pos h]
    · rw [if_neg h]
      have : numSum u64 n den % demSum u64 n den = 0 := by omega
      rw [this]
      simp
  refine ⟨rfl, hex, exBit_nonneg _ _ _, ?_, ?_, ?_⟩
  · rw [hex, div_lt_one hDq]
    exact_mod_cast Nat.mod_lt _ h2
  · exact eq_div_of_mul_eq hP hq
  · show numSum u64 n den / demSum u64 n den = n.factorial / denomProduct den
    symm
    apply Nat.div_eq_of_lt_le
    · have h3 : numSum u64 n den / demSum u64 n den * denomProduct den * demSum u64 n den ≤
          n.factorial * demSum u64 n den := by
        rw [← h1]
        calc numSum u64 n den / demSum u64 n den * denomProduct den * demSum u64 n den
            = (numSum u64 n den / demSum u64 n den * demSum u64 n den) * denomProduct den := by
              ring
          _ ≤ numSum u64 n den * denomProduct den :=
              Nat.mul_le_mul_right _ (Nat.div_mul_le_self _ _)
      exact Nat.le_of_mul_le_mul_right h3 h2
    · have h4 : numSum u64 n den <
          (numSum u64 n den / demSum u64 n den + 1) * demSum u64 n den := by
        rw [add_mul, one_mul]
        exact Nat.lt_div_mul_add h2
      have h5 : n.factorial * demSum u64 n den <
          (numSum u64 n den / demSum u64 n den + 1) * denomProduct den * demSum u64 n den := by
        rw [← h1]
        calc numSum u64 n den * denomProduct den
            < (numSum u64 n den / demSum u64 n den + 1) * demSum u64 n den * denomProduct den :=
              Nat.mul_lt_mul_of_pos_right h4 (denomProduct_pos den)
          _ = (numSum u64 n den / demSum u64 n den + 1) * denomProduct den *
                demSum u64 n den := by ring
      exact Nat.lt_of_mul_lt_mul_right h5

set_option maxRecDepth 100000 in
theorem c7_divFactorials_quotient_witness :
    repeatSum (letterCounts [66, 65, 65, 66]) ≤ 25 ∧
      numSum id 3 (letterCounts [66, 65, 65, 66]) < 2 ^ 64 ∧
      demSum id 3 (letterCounts [66, 65, 65, 66]) < 2 ^ 64 ∧
      (divFactorials u64 3 (letterCounts [66, 65, 65, 66]) initGlobals).1 =
        Nat.factorial 3 / denomProduct (letterCounts [66, 65, 65, 66]) :=
  ⟨by decide, by decide, by decide,
    (c7_divFactorials_quotient 3 (letterCounts [66, 65, 65, 66]) initGlobals (by decide)
      (by decide) (by decide) (by decide)).2.2.2.2.2⟩

set_option maxRecDepth 100000 in
/-- Where the quotient itself is beyond 64 bits, so is `numSum`: for the valid word
`BAACDEFGHIJKLMNOPQRSTU` the call `divFactorials(21, counts)` made at its first letter
multiplies the surviving numerator factors to `21! / 2!` = 25545471085854720000. -/
theorem numSum_wordBAAC :
    validWord wordBAAC ∧ numSum id 21 (letterCounts wordBAAC) = 25545471085854720000 ∧
      2 ^ 64 ≤ numSum id 21 (letterCounts wordBAAC) := by
  refine ⟨by decide, by decide, by decide⟩

/-- For every call `divFactorials(n, counts)` with `n ≤ 20` and counts whose entries
greater than 1 sum to at most 20, the products `numSum` and `demSum`, computed as
unbounded integers, are both below `2 ^ 64`, and the 64-bit products are equal to them. -/
theorem products_below_of_small (n : Nat) (den : List Nat) (hn : n ≤ 20)
    (hd : repeatSum den ≤ 20) :
    numSum id n den < 2 ^ 64 ∧ demSum id n den < 2 ^ 64 ∧
      numSum u64 n den = numSum id n den ∧ demSum u64 n den = demSum id n den := by
  obtain ⟨hsum, hN, hD⟩ := bounds_of_repeatSum n den hn hd
  obtain ⟨_, _, _, _, h3, h4⟩ := numSum_demSum_id den n (by omega) hsum
  have b1 : numSum id n den < 2 ^ 64 := by omega
  have b2 : demSum id n den < 2 ^ 64 := by omega
  obtain ⟨e1, e2⟩ := numSum_demSum_wrap u64 (2 ^ 64) u64_of_lt den n (by omega) hsum b1 b2
  exact ⟨b1, b2, e1, e2⟩

set_option maxRecDepth 100000 in
/-- C9, counterexample: for the word `ABCDYEFGHIJKLMNOPQRSTUVWX` of 25 distinct letters
the accumulators, computed as unbounded integers, reach 48658040163532800001, which is
not below `2 ^ 64`; this is the rank of the word. -/
theorem c9_counterexample :
    validWord wordABCDY ∧ wordABCDY.length = 25 ∧ wordABCDY.Nodup ∧
      (main id 26 [[], wordABCDY]).map (fun r => r.2.2.peak) = some 48658040163532800001 ∧
      2 ^ 64 ≤ 48658040163532800001 ∧ lexRank wordABCDY = 48658040163532800001 := by
  refine ⟨by decide, by decide, by decide, by decide!, by decide, ?_⟩
  rw [lexRank_eq_counting]
  decide

/-- C9, amended: for every valid word without repeated letters (of 25 letters or fewer)
whose rank is below `2 ^ 64`, the values of `penalty` and `totalPenalty`, computed as
unbounded integers, stay below `2 ^ 64` at every step, and the rank is printed. -/
theorem c9_no_overflow (w : List Nat) (hv : validWord w) (hn : w.Nodup)
    (hb : lexRank w < 2 ^ 64) (fuel : Nat) (name : List Nat) (hf : w.length < fuel) :
    ∃ g, main id fuel [name, w] = some (0, some (lexRank w), g) ∧ g.peak < 2 ^ 64 := by
  obtain ⟨g, h1, h2⟩ := main_rank id (fun _ _ => rfl) w hv
    (safeFrom_of_nodup w hn (by rw [lexRank_eq] at hb; omega)) hb fuel name hf
  exact ⟨g, h1, by omega⟩

set_option maxRecDepth 100000 in
theorem lexRank_wordABCDEY : lexRank wordABCDEY = 2432902008176640000 := by
  rw [lexRank_eq_counting]
  decide

set_option maxRecDepth 100000 in
theorem c9_no_overflow_witness :
    validWord wordABCDEY ∧ wordABCDEY.length = 25 ∧ wordABCDEY.Nodup ∧
      lexRank wordABCDEY = 2432902008176640000 ∧
      (main id 26 [[], wordABCDEY]).map (fun r => r.2.2.peak) = some 2432902008176640000 ∧
      ∃ g, main id 26 [[], wordABCDEY] = some (0, some (lexRank wordABCDEY), g) ∧
        g.peak < 2 ^ 64 :=
  ⟨by decide, by decide, by decide, lexRank_wordABCDEY, by decide!,
    c9_no_overflow wordABCDEY (by decide) (by decide)
      (by rw [lexRank_wordABCDEY]; decide) 26 [] (by decide)⟩

/-- C10: the table `factorials` holds `k!` at every index `k ≤ 20`, each of these values
being below `2 ^ 64`, and holds 1 at the indices 21 to 25. -/
theorem c10_factorials_table (k : Nat) (hk : k ≤ 25) :
    factorials.getD k 0 = (if k ≤ 20 then k.factorial else 1) ∧
      (k ≤ 20 → k.factorial < 2 ^ 64) := by
  have h : ∀ j : Fin 26, factorials.getD j.1 0 = (if j.1 ≤ 20 then j.1.factorial else 1) := by
    decide
  exact ⟨h ⟨k, by omega⟩, fun h20 => factorial_lt_of_le_twenty k h20⟩

theorem c10_factorials_table_witness :
    factorials.getD 20 0 = (if 20 ≤ 20 then Nat.factorial 20 else 1) ∧
      (20 ≤ 20 → Nat.factorial 20 < 2 ^ 64) :=
  c10_factorials_table 20 (by decide)

/-! ## Beyond 20 letters -/

set_option maxRecDepth 100000 in
/-- A word of 25 letters with repeats whose rank fits in 64 bits and for which the
program prints another number: in the call `divFactorials(24, counts)` made at its first
letter the quotient `24! / ∏ r!` fits in 64 bits, and the product of the surviving
numerator factors does not. -/
theorem wordBBCE_misreported :
    validWord wordBBCE ∧ lexRank wordBBCE = 57121951837843602 ∧
      reportedRank wordBBCE = some 16129187229600153 ∧
      numSum id 24 (letterCounts wordBBCE) = 22440986752504320000 ∧
      demSum id 24 (letterCounts wordBBCE) = 900 ∧
      Nat.factorial 24 / denomProduct (letterCounts wordBBCE) = 24934429725004800 := by
  refine ⟨by decide, ?_, by decide!, by decide, by decide, by decide⟩
  rw [lexRank_eq_counting]
  decide

/-! ## Words that are too long -/

theorem getD_wordA256 (i : Nat) (h : i < 256) : wordA256.getD i 0 = 65 := by
  unfold wordA256
  rw [List.getD_eq_getElem _ _ (by rw [List.length_replicate]; exact h)]
  exact List.getElem_replicate _ _

/-- The first loop of `checkWord` never leaves a word of 256 capital letters: its counter
is an `unsigned char` and stays below `wordLength`. -/
theorem checkWordCount_wordA256 : ∀ (fuel i : Nat) (g : Globals), i < 256 →
    g.wordLength = 256 → checkWordCount fuel wordA256 i g = none := by
  intro fuel
  induction fuel with
  | zero => intro i g _ _; rfl
  | succ fuel ih =>
    intro i g hi hg
    rw [checkWordCount, if_pos (by omega), getD_wordA256 i hi,
      if_pos (by omega)]
    exact ih _ _ (Nat.mod_lt _ (by omega)) hg

theorem checkWord_wordA256 (fuel : Nat) (g : Globals) (hg : g.wordLength = 256) :
    checkWord fuel wordA256 g = none := by
  unfold checkWord
  rw [checkWordCount_wordA256 fuel 0 g (by omega) hg]

theorem length_wordA256 : wordA256.length = 256 := by
  unfold wordA256
  exact List.length_replicate _ _

theorem main_wordA256 (wrap : Nat → Nat) (fuel : Nat) (name : List Nat) :
    main wrap fuel [name, wordA256] = none := by
  unfold main
  have e1 : ¬ ([name, wordA256].length < 2) := by simp
  have e2 : ¬ ([name, wordA256].length > 2) := by simp
  have e3 : [name, wordA256].getD 1 [] = wordA256 := rfl
  rw [if_neg e1, if_neg e2]
  simp only [e3]
  rw [checkWord_wordA256 fuel _ (by
    simp only [length_wordA256]
    rfl)]

/-! ## The events of a run -/

/-- A mismatch changes neither the letter counts nor the flags. -/
theorem addPenalty_iterate_fields (wrap : Nat → Nat) (w : List Nat) (reit : Nat)
    (g : Globals) : ∀ t : Nat,
    ((addPenalty wrap w reit)^[t] g).counts = g.counts ∧
      ((addPenalty wrap w reit)^[t] g).repeatsTrue = g.repeatsTrue ∧
      ((addPenalty wrap w reit)^[t] g).wordLength = g.wordLength ∧
      ((addPenalty wrap w reit)^[t] g).totalPenalty = g.totalPenalty := by
  intro t
  induction t with
  | zero => simp
  | succ t ih =>
    rw [Function.iterate_succ_apply', addPenalty_eq]
    exact ih

/-- The event of a mismatch at position `reit` of `word`. -/
theorem scanAlphaTrace_eq (wrap : Nat → Nat) (word newAlpha : List Nat) (reit i j0 : Nat)
    (hne : ∀ t, t < j0 → newAlpha.getD t 0 ≠ word.getD i 0)
    (heq : newAlpha.getD j0 0 = word.getD i 0) :
    ∀ (fuel j : Nat) (g : Globals), j ≤ j0 → j0 - j < fuel →
      scanAlphaTrace wrap word newAlpha reit i fuel j g =
        List.replicate (j0 - j)
          (if g.repeatsTrue ≠ 0 then Event.divide (word.length - reit - 1) g.counts
            else Event.table (word.length - reit - 1)) ++ [Event.scan i (j0 + 1)] := by
  intro fuel
  induction fuel with
  | zero => intro j g _ h; omega
  | succ fuel ih =>
    intro j g h1 h2
    simp only [scanAlphaTrace]
    by_cases e : j = j0
    · subst e
      rw [if_neg (by simpa using heq)]
      simp
    · rw [if_pos (hne j (by omega)), ih (j + 1) _ (by omega) (by omega)]
      have hf := addPenalty_iterate_fields wrap word reit g 1
      simp only [Function.iterate_one] at hf
      rw [hf.1, hf.2.1, show j0 - j = (j0 - (j + 1)) + 1 by omega, List.replicate_succ]
      rfl

theorem decrementCountCompares_le (c : Nat) : ∀ (n k : Nat) (g : Globals),
    decrementCountCompares c n k g ≤ n + k := by
  intro n
  induction n with
  | zero => intro k g; simp [decrementCountCompares]
  | succ n ih =>
    intro k g
    rw [decrementCountCompares]
    split_ifs
    · omega
    · have := ih (k + 1) g
      omega

/-- The match branch of `wordToNumber` keeps `counts` as the claim on the letter counts
describes it. -/
theorem countsInv_step (w : List Nat) (i : Nat) (g g3 : Globals)
    (hv : ∀ c ∈ w, 65 ≤ c ∧ c ≤ 90) (h : countsInv w i g) (hi : i < w.length)
    (hc : g3.counts = (decrementCount (w.getD i 0) 26 0 g).counts) :
    countsInv w (i + 1) g3 := by
  have hd := drop_eq_getD_cons w i hi
  have hmem : w.getD i 0 ∈ w := by
    rw [List.getD_eq_getElem _ _ hi]
    exact List.getElem_mem hi
  have hcv := hv _ hmem
  rw [decrementCount_eq _ _ hcv.1 hcv.2] at hc
  have hcount : ∀ k, k < 26 → (w.drop i).count (65 + k) =
      (w.drop (i + 1)).count (65 + k) + if k = w.getD i 0 - 65 then 1 else 0 := by
    intro k hk
    rw [hd, List.count_cons]
    by_cases e : k = w.getD i 0 - 65
    · rw [if_pos e, if_pos (beq_iff_eq.2 (by omega))]
    · rw [if_neg e, if_neg (by rw [beq_iff_eq]; omega)]
  have hself := h (w.getD i 0 - 65) (by omega)
  rw [show 65 + (w.getD i 0 - 65) = w.getD i 0 by omega, if_pos hmem] at hself
  have hcs := hcount (w.getD i 0 - 65) (by omega)
  rw [show 65 + (w.getD i 0 - 65) = w.getD i 0 by omega, if_pos rfl] at hcs
  intro k hk
  have hk0 := h k hk
  have hck := hcount k hk
  by_cases hgt : g.counts.getD (w.getD i 0 - 65) 0 > 1
  · rw [if_pos hgt] at hc
    simp only [] at hc
    rw [hc, getD_set]
    by_cases e : k = w.getD i 0 - 65
    · rw [if_pos ⟨e.symm, by
        by_contra hlen
        rw [List.getD_eq_default _ _ (by omega)] at hgt
        omega⟩]
      subst e
      rw [show 65 + (w.getD i 0 - 65) = w.getD i 0 by omega, if_pos hmem]
      omega
    · rw [if_neg (fun hh => e hh.1.symm), hk0]
      rw [if_neg e] at hck
      rw [hck]
      rfl
  · rw [if_neg hgt] at hc
    rw [hc]
    by_cases e : k = w.getD i 0 - 65
    · subst e
      rw [show 65 + (w.getD i 0 - 65) = w.getD i 0 by omega, if_pos hmem]
      omega
    · rw [if_neg e] at hck
      rw [hk0, hck]
      rfl

/-- The globals with which `wordToNumber` calls itself after the match at position `i`. -/
theorem step_inv (wrap : Nat → Nat) (w : List Nat) (i : Nat) (alpha : List Nat)
    (g : Globals) (h : rankInv w i alpha g) (hc : countsInv w i g) (hi : i < w.length) :
    rankInv w (i + 1) (alpha.erase (w.getD i 0))
        (matchStep wrap (w.getD i 0) ((addPenalty wrap w i)^[alpha.indexOf (w.getD i 0)] g)) ∧
      countsInv w (i + 1)
        (matchStep wrap (w.getD i 0) ((addPenalty wrap w i)^[alpha.indexOf (w.getD i 0)] g)) := by
  obtain ⟨f1, f2, f3, _⟩ := addPenalty_iterate_fields wrap w i g (alpha.indexOf (w.getD i 0))
  obtain ⟨m1, _, _, _, _, m6, m7⟩ := matchStep_fields wrap (w.getD i 0)
    ((addPenalty wrap w i)^[alpha.indexOf (w.getD i 0)] g)
  have hinv1 := rankInv_congr w i alpha g _ h f3 f1 f2
  have hc1 : countsInv w i ((addPenalty wrap w i)^[alpha.indexOf (w.getD i 0)] g) := by
    intro k hk
    rw [f1]
    exact hc k hk
  exact ⟨rankInv_step w i alpha _ _ hinv1 hi m1 m6 m7,
    countsInv_step w i _ _ h.2.2.2.2.2.2.2 hc1 hi m6⟩

/-- The events of one round of `wordToNumber` under the invariant: a mismatch for every
remaining letter below the letter of the word, then the match and the recursive call. -/
theorem wordToNumberTrace_step (wrap : Nat → Nat) (w : List Nat) (fuel i : Nat)
    (alpha : List Nat) (g : Globals) (h : rankInv w i alpha g) (hi : i < w.length) :
    wordToNumberTrace wrap w (fuel + 1) alpha alpha.length i i g =
      List.replicate (alpha.indexOf (w.getD i 0))
          (if g.repeatsTrue ≠ 0 then Event.divide (w.length - i - 1) g.counts
            else Event.table (w.length - i - 1)) ++
        [Event.scan i (alpha.indexOf (w.getD i 0) + 1)] ++
        Event.lookup (decrementCountCompares (w.getD i 0) 26 0
            ((addPenalty wrap w i)^[alpha.indexOf (w.getD i 0)] g)) ::
          Event.call (alpha.erase (w.getD i 0)) (alpha.erase (w.getD i 0)).length (i + 1)
              (matchStep wrap (w.getD i 0)
                ((addPenalty wrap w i)^[alpha.indexOf (w.getD i 0)] g)) ::
            wordToNumberTrace wrap w fuel (alpha.erase (w.getD i 0))
              (alpha.erase (w.getD i 0)).length (i + 1) (i + 1)
              (matchStep wrap (w.getD i 0)
                ((addPenalty wrap w i)^[alpha.indexOf (w.getD i 0)] g)) := by
  have hmem := mem_alpha_of_inv w i alpha g h hi
  have hj0 : alpha.indexOf (w.getD i 0) < alpha.length := indexOf_lt_of_mem _ _ hmem
  have hget : alpha.getD (alpha.indexOf (w.getD i 0)) 0 = w.getD i 0 := getD_indexOf _ _ hmem
  have hscan := scanAlpha_eq wrap w alpha i i (alpha.indexOf (w.getD i 0))
    (fun t ht => getD_ne_of_lt_indexOf _ alpha t ht) hget alpha.length 0 g
    (Nat.zero_le _) (by omega)
  have htrace := scanAlphaTrace_eq wrap w alpha i i (alpha.indexOf (w.getD i 0))
    (fun t ht => getD_ne_of_lt_indexOf _ alpha t ht) hget alpha.length 0 g
    (Nat.zero_le _) (by omega)
  rw [Nat.sub_zero] at hscan htrace
  rw [wordToNumberTrace, if_pos (by rw [h.1]; exact hi), hscan, htrace]
  simp only [hget]
  rw [if_neg (Nat.ne_of_lt hj0), shrinkWord_eq_erase _ _ hmem]
  rfl

/-- The run of `wordToNumber` one round on, under the invariant. -/
theorem wordToNumberLoop_step (wrap : Nat → Nat) (w : List Nat) (fuel i : Nat)
    (alpha : List Nat) (g : Globals) (h : rankInv w i alpha g) (hi : i < w.length) :
    wordToNumberLoop wrap w (fuel + 1) alpha alpha.length i i g =
      wordToNumberLoop wrap w fuel (alpha.erase (w.getD i 0))
        (alpha.erase (w.getD i 0)).length (i + 1) (i + 1)
        (matchStep wrap (w.getD i 0)
          ((addPenalty wrap w i)^[alpha.indexOf (w.getD i 0)] g)) := by
  have hmem := mem_alpha_of_inv w i alpha g h hi
  have hj0 : alpha.indexOf (w.getD i 0) < alpha.length := indexOf_lt_of_mem _ _ hmem
  have hget : alpha.getD (alpha.indexOf (w.getD i 0)) 0 = w.getD i 0 := getD_indexOf _ _ hmem
  have hscan := scanAlpha_eq wrap w alpha i i (alpha.indexOf (w.getD i 0))
    (fun t ht => getD_ne_of_lt_indexOf _ alpha t ht) hget alpha.length 0 g
    (Nat.zero_le _) (by omega)
  rw [Nat.sub_zero] at hscan
  rw [wordToNumberLoop_match wrap w fuel alpha _ i i _ g _ (by rw [h.1]; exact hi) hscan,
    hget, shrinkWord_eq_erase _ _ hmem]

/-- Every event of a run from a state that satisfies the invariant has the property `P`,
as soon as `P` holds of the calls, scans, mismatches, lookups and printings that the
invariant allows; in particular `shrinkWord` never reports an error. -/
theorem trace_forall (wrap : Nat → Nat) (w : List Nat) (P : Event → Prop)
    (hcall : ∀ i alpha g, rankInv w i alpha g → countsInv w i g →
      P (Event.call alpha (w.length - i) i g))
    (hscan : ∀ i c, i < w.length → 1 ≤ c → c ≤ w.length - i → P (Event.scan i c))
    (hmis : ∀ i alpha g, rankInv w i alpha g → countsInv w i g → i < w.length →
      P (if g.repeatsTrue ≠ 0 then Event.divide (w.length - i - 1) g.counts
        else Event.table (w.length - i - 1)))
    (hlook : ∀ c, c ≤ 26 → P (Event.lookup c))
    (hprint : ∀ r, P (Event.print r)) :
    ∀ (d fuel i : Nat) (alpha : List Nat) (g : Globals),
      w.length - i = d → d < fuel → rankInv w i alpha g → countsInv w i g →
      ∀ e ∈ wordToNumberTrace wrap w fuel alpha alpha.length i i g, P e := by
  intro d
  induction d with
  | zero =>
    intro fuel i alpha g hd hf hinv _ e he
    cases fuel with
    | zero => omega
    | succ f =>
      have hi : ¬ i < g.wordLength := by rw [hinv.1]; omega
      rw [wordToNumberTrace, if_neg hi, List.mem_singleton] at he
      rw [he]
      exact hprint _
  | succ d ih =>
    intro fuel i alpha g hd hf hinv hcnt e he
    cases fuel with
    | zero => omega
    | succ f =>
      have hi : i < w.length := by omega
      have hmem := mem_alpha_of_inv w i alpha g hinv hi
      have hj0 : alpha.indexOf (w.getD i 0) < alpha.length := indexOf_lt_of_mem _ _ hmem
      have hal : alpha.length = w.length - i := by
        rw [hinv.2.2.2.1.length_eq, List.length_drop]
      obtain ⟨s1, s2⟩ := step_inv wrap w i alpha g hinv hcnt hi
      rw [wordToNumberTrace_step wrap w f i alpha g hinv hi] at he
      rcases List.mem_append.1 he with he | he
      · rcases List.mem_append.1 he with he | he
        · rw [(List.mem_replicate.1 he).2]
          exact hmis i alpha g hinv hcnt hi
        · rw [List.mem_singleton.1 he]
          exact hscan i _ hi (by omega) (by omega)
      · rcases List.mem_cons.1 he with he | he
        · rw [he]
          exact hlook _ (decrementCountCompares_le _ 26 0 _)
        · rcases List.mem_cons.1 he with he | he
          · rw [he]
            have hl : (alpha.erase (w.getD i 0)).length = w.length - (i + 1) := by
              rw [s1.2.2.2.1.length_eq, List.length_drop]
            rw [hl]
            exact hcall _ _ _ s1 s2
          · exact ih f (i + 1) _ _ (by omega) (by omega) s1 s2 e he

/-- From a state that satisfies the invariant, `wordToNumber` runs to its end, whatever
the arithmetic: it calls itself once for every remaining position, scans the alphabetized
word once for every remaining position, and prints the rank once. -/
theorem trace_counts (wrap : Nat → Nat) (w : List Nat) :
    ∀ (d fuel i : Nat) (alpha : List Nat) (g : Globals),
      w.length - i = d → d < fuel → rankInv w i alpha g →
      ∃ gf, wordToNumberLoop wrap w fuel alpha alpha.length i i g =
          some (printedRank wrap gf, gf) ∧
        (wordToNumberTrace wrap w fuel alpha alpha.length i i g).filter Event.isPrint =
          [Event.print (printedRank wrap gf)] ∧
        ((wordToNumberTrace wrap w fuel alpha alpha.length i i g).filter Event.isCall).length =
          w.length - i ∧
        ((wordToNumberTrace wrap w fuel alpha alpha.length i i g).filter Event.isScan).length =
          w.length - i := by
  intro d
  induction d with
  | zero =>
    intro fuel i alpha g hd hf hinv
    cases fuel with
    | zero => omega
    | succ f =>
      have hi : ¬ i < g.wordLength := by rw [hinv.1]; omega
      refine ⟨g, wordToNumberLoop_done wrap w f alpha _ i i g hi, ?_, ?_, ?_⟩
      · rw [wordToNumberTrace, if_neg hi]
        rfl
      · rw [wordToNumberTrace, if_neg hi, hd]
        rfl
      · rw [wordToNumberTrace, if_neg hi, hd]
        rfl
  | succ d ih =>
    intro fuel i alpha g hd hf hinv
    cases fuel with
    | zero => omega
    | succ f =>
      have hi : i < w.length := by omega
      obtain ⟨f1, f2, f3, _⟩ := addPenalty_iterate_fields wrap w i g (alpha.indexOf (w.getD i 0))
      obtain ⟨m1, _, _, _, _, m6, m7⟩ := matchStep_fields wrap (w.getD i 0)
        ((addPenalty wrap w i)^[alpha.indexOf (w.getD i 0)] g)
      have hinv1 := rankInv_congr w i alpha g _ hinv f3 f1 f2
      have s1 := rankInv_step w i alpha _ _ hinv1 hi m1 m6 m7
      obtain ⟨gf, e1, e2, e3, e4⟩ := ih f (i + 1) _ _ (by omega) (by omega) s1
      have hmisP : ∀ ev : Event, ev ∈ List.replicate (alpha.indexOf (w.getD i 0))
          (if g.repeatsTrue ≠ 0 then Event.divide (w.length - i - 1) g.counts
            else Event.table (w.length - i - 1)) →
          ev.isPrint = false ∧ ev.isCall = false ∧ ev.isScan = false := by
        intro ev hev
        rw [(List.mem_replicate.1 hev).2]
        split_ifs <;> exact ⟨rfl, rfl, rfl⟩
      have hnil : ∀ (p : Event → Bool), (∀ ev ∈ List.replicate (alpha.indexOf (w.getD i 0))
          (if g.repeatsTrue ≠ 0 then Event.divide (w.length - i - 1) g.counts
            else Event.table (w.length - i - 1)), p ev = false) →
          (List.replicate (alpha.indexOf (w.getD i 0))
          (if g.repeatsTrue ≠ 0 then Event.divide (w.length - i - 1) g.counts
            else Event.table (w.length - i - 1))).filter p = [] := by
        intro p hp
        rw [List.filter_eq_nil_iff]
        intro ev hev
        rw [hp ev hev]
        simp
      refine ⟨gf, ?_, ?_, ?_, ?_⟩
      · rw [wordToNumberLoop_step wrap w f i alpha g hinv hi]
        exact e1
      · rw [wordToNumberTrace_step wrap w f i alpha g hinv hi, List.filter_append,
          List.filter_append, hnil _ (fun ev hev => (hmisP ev hev).1)]
        simp only [List.filter, Event.isPrint, List.nil_append]
        exact e2
      · rw [wordToNumberTrace_step wrap w f i alpha g hinv hi, List.filter_append,
          List.filter_append, hnil _ (fun ev hev => (hmisP ev hev).2.1)]
        simp only [List.filter, Event.isCall, List.nil_append, List.length_cons]
        rw [e3]
        omega
      · rw [wordToNumberTrace_step wrap w f i alpha g hinv hi, List.filter_append,
          List.filter_append, hnil _ (fun ev hev => (hmisP ev hev).2.2)]
        simp only [List.filter, Event.isScan, List.nil_append, List.length_cons,
          List.singleton_append]
        rw [e4]
        omega

/-! ## The run that `main` starts -/

theorem mainTrace_of_checkWord (wrap : Nat → Nat) (fuel : Nat) (name w : List Nat)
    (h1 : 1 ≤ w.length) (h2 : w.length ≤ 25) (g2 : Globals)
    (hcw : checkWord fuel w { initGlobals with wordLength := w.length } = some (0, g2))
    (herr : g2.err = 0) :
    mainTrace wrap fuel [name, w] =
      Event.call g2.alphaWord g2.wordLength 0
          { g2 with err := 0, repeatsTrue := checkCounts { g2 with err := 0 } } ::
        wordToNumberTrace wrap w fuel g2.alphaWord g2.wordLength 0 0
          { g2 with err := 0, repeatsTrue := checkCounts { g2 with err := 0 } } := by
  unfold mainTrace
  have e1 : ¬ ([name, w].length < 2) := by simp
  have e2 : ¬ ([name, w].length > 2) := by simp
  have e3 : [name, w].getD 1 [] = w := rfl
  rw [if_neg e1, if_neg e2]
  simp only [e3]
  rw [if_neg (by show ¬ (w.length < 1); omega), if_neg (by show ¬ (w.length > 25); omega), hcw]
  simp only []
  rw [herr]
  have hp : ¬ (printErr (0 ||| 0) = true) := by decide
  rw [if_neg hp]
  rfl

/-- For a valid word `main` calls `wordToNumber` in a state that satisfies the invariant
at position 0, with `alphaWord` and `counts` as `checkWord` has built them; the state does
not depend on the arithmetic. -/
theorem main_start (w : List Nat) (hvalid : validWord w) (fuel : Nat)
    (name : List Nat) (hf : w.length < fuel) :
    ∃ (alpha : List Nat) (g : Globals),
      (∀ wrap : Nat → Nat,
        main wrap fuel [name, w] =
          (match wordToNumberLoop wrap w fuel alpha alpha.length 0 0 g with
            | none => none
            | some (r, g3) => some (0, some r, g3)) ∧
        mainTrace wrap fuel [name, w] =
          Event.call alpha alpha.length 0 g ::
            wordToNumberTrace wrap w fuel alpha alpha.length 0 0 g) ∧
      rankInv w 0 alpha g ∧ countsInv w 0 g ∧ g.penalty = 0 ∧ g.totalPenalty = 1 ∧
      g.extraSum = 0 ∧ g.peak = 1 := by
  obtain ⟨hl1, hl2, hv⟩ := hvalid
  obtain ⟨cs, alpha, hcw, hcl, hcs, hsorted, hperm⟩ := checkWord_eq w (by omega) hv fuel hf
    { initGlobals with wordLength := w.length } rfl rfl rfl
  have hl : alpha.length = w.length := hperm.length_eq
  refine ⟨alpha,
    { initGlobals with
      wordLength := w.length, counts := cs, alphaWord := alpha,
      repeatsTrue := checkCounts { initGlobals with counts := cs } }, ?_, ?_, ?_,
    rfl, rfl, rfl, rfl⟩
  · intro wrap
    constructor
    · rw [main_of_checkWord wrap fuel name w hl1 hl2 _ hcw rfl, hl]
      rfl
    · rw [mainTrace_of_checkWord wrap fuel name w hl1 hl2 _ hcw rfl, hl]
      rfl
  · refine ⟨rfl, Nat.zero_le _, hsorted, by simpa using hperm, hcl, ?_, rfl, hv⟩
    intro k hk
    show max 1 (cs.getD k 0) = _
    rw [hcs k hk]
    simp
  · intro k hk
    show cs.getD k 0 = _
    rw [hcs k hk, List.drop_zero]
    by_cases hm : 65 + k ∈ w
    · rw [if_pos hm]
      have := List.count_pos_iff.2 hm
      omega
    · rw [if_neg hm]
      exact List.count_eq_zero_of_not_mem hm

/-- At every call of `wordToNumber` in the run of a valid word the invariant holds. -/
theorem calls_inv (wrap : Nat → Nat) (w : List Nat) (hvalid : validWord w) (fuel : Nat)
    (name : List Nat) (hf : w.length < fuel) :
    ∀ (na : List Nat) (al reit : Nat) (g : Globals),
      Event.call na al reit g ∈ mainTrace wrap fuel [name, w] →
      rankInv w reit na g ∧ countsInv w reit g ∧ al = w.length - reit := by
  obtain ⟨alpha, g0, hall, hinv, hcnt, _⟩ := main_start w hvalid fuel name hf
  obtain ⟨_, htr⟩ := hall wrap
  have hal : alpha.length = w.length - 0 := by
    rw [hinv.2.2.2.1.length_eq, List.length_drop]
  have key := trace_forall wrap w
    (fun e => ∀ (na : List Nat) (al reit : Nat) (g : Globals), e = Event.call na al reit g →
      rankInv w reit na g ∧ countsInv w reit g ∧ al = w.length - reit)
    (by
      intro i a g h1 h2 na al reit g' he
      injection he with e1 e2 e3 e4
      subst e1 e2 e3 e4
      exact ⟨h1, h2, rfl⟩)
    (by intro i c _ _ _ na al reit g he; cases he)
    (by
      intro i a g _ _ _ na al reit g' he
      split_ifs at he)
    (by intro c _ na al reit g he; cases he)
    (by intro r na al reit g he; cases he)
    w.length fuel 0 alpha g0 (by omega) hf hinv hcnt
  intro na al reit g hmem
  rw [htr] at hmem
  rcases List.mem_cons.1 hmem with he | he
  · injection he with e1 e2 e3 e4
    subst e1 e2 e3 e4
    exact ⟨hinv, hcnt, hal⟩
  · exact key _ he na al reit g rfl

/-- The flag `repeatsTrue` under the invariant, in terms of the letters not yet matched. -/
theorem repeatsTrue_iff (w : List Nat) (i : Nat) (alpha : List Nat) (g : Globals)
    (h : rankInv w i alpha g) :
    (g.repeatsTrue = 1 ↔ ∃ c, 1 < (w.drop i).count c) ∧
      (g.repeatsTrue = 0 ↔ ∀ c, (w.drop i).count c ≤ 1) := by
  obtain ⟨_, _, _, _, _, hc, hr, hv⟩ := h
  have hle : checkCounts g ≤ 1 := checkCountsLoop_le_one _ _ _
  have h0 : g.repeatsTrue = 0 ↔ ∀ c, (w.drop i).count c ≤ 1 := by
    rw [hr, checkCounts_eq_zero]
    constructor
    · intro hall c
      by_cases hmem : c ∈ w.drop i
      · have hcv := drop_valid w i hv c hmem
        have h1 := hall (c - 65) (by omega)
        have h2 := hc (c - 65) (by omega)
        rw [show 65 + (c - 65) = c by omega] at h2
        omega
      · rw [List.count_eq_zero_of_not_mem hmem]
        omega
    · intro hall t ht
      have h2 := hc t ht
      have h3 := hall (65 + t)
      omega
  refine ⟨?_, h0⟩
  constructor
  · intro h1
    by_contra hex
    have : ∀ c, (w.drop i).count c ≤ 1 := by
      intro c
      by_contra hc'
      exact hex ⟨c, by omega⟩
    have := h0.2 this
    omega
  · intro hex
    obtain ⟨c, hcount⟩ := hex
    have hne : g.repeatsTrue ≠ 0 := by
      intro hz
      have := h0.1 hz c
      omega
    rw [hr] at hne ⊢
    omega

/-! ## The run over unbounded integers -/

theorem sum_pred_counts (w : List Nat) (i : Nat) (alpha : List Nat) (g : Globals)
    (h : rankInv w i alpha g) (hl : w.length ≤ 25) :
    ∑ t in Finset.range 26, (g.counts.getD t 0 - 1) ≤ 25 := by
  have h1 := sum_pred_le_repeatSum g.counts
  have h2 := repeatSum_counts w i alpha g h
  have h3 : (w.drop i).length ≤ w.length := by
    rw [List.length_drop]
    omega
  omega

/-- Over unbounded integers the amounts one mismatch adds to `penalty` and `extraSum`
add up to `m! / ∏ r!` whenever `divFactorials` is called. -/
theorem cost_exact_id (w : List Nat) (i : Nat) (alpha : List Nat) (g : Globals)
    (h : rankInv w i alpha g) (hl : w.length ≤ 25) (hi : i < w.length)
    (hr : g.repeatsTrue ≠ 0) :
    ((costQ id (w.length - i - 1) g : ℚ) + costF id (w.length - i - 1) g) *
      (repeatProduct (w.drop i) : ℚ) = ((w.length - i - 1).factorial : ℚ) := by
  unfold costQ costF
  rw [if_pos hr, if_pos hr, ← denomProduct_counts w i alpha g h]
  have hsum := sum_pred_counts w i alpha g h hl
  exact divFactorials_quotient id
    (max (numSum id (w.length - i - 1) g.counts) (demSum id (w.length - i - 1) g.counts) + 1)
    (fun _ _ => rfl) g.counts _ (by omega) hsum
    (Nat.lt_succ_of_le (le_max_left _ _)) (Nat.lt_succ_of_le (le_max_right _ _))

/-- Over unbounded integers the fractions added to `extraSum` at one position of the word
add up to a whole number. -/
theorem mismatch_whole (w : List Nat) (i : Nat) (alpha : List Nat) (g : Globals)
    (h : rankInv w i alpha g) (hl : w.length ≤ 25) (hi : i < w.length) :
    ∃ k : Nat, ((alpha.indexOf (w.getD i 0) : Nat) : ℚ) * costF id (w.length - i - 1) g =
      (k : ℚ) := by
  by_cases hr : g.repeatsTrue ≠ 0
  · have hR : (repeatProduct (w.drop i) : ℚ) ≠ 0 := by
      exact_mod_cast Nat.pos_iff_ne_zero.1 (repeatProduct_pos _)
    have hsm := smallerFirst_mul (w.drop i) (w.getD i 0)
    rw [← indexOf_alpha w i alpha g h hi, List.length_drop] at hsm
    have hsm' : (smallerFirst (w.drop i) (w.getD i 0) : ℚ) * (repeatProduct (w.drop i) : ℚ) =
        ((alpha.indexOf (w.getD i 0) : Nat) : ℚ) * ((w.length - i - 1).factorial : ℚ) := by
      exact_mod_cast hsm
    have htot : ((alpha.indexOf (w.getD i 0) : Nat) : ℚ) *
        ((costQ id (w.length - i - 1) g : ℚ) + costF id (w.length - i - 1) g) =
        (smallerFirst (w.drop i) (w.getD i 0) : ℚ) := by
      apply mul_right_cancel₀ hR
      rw [hsm', mul_assoc, cost_exact_id w i alpha g h hl hi hr]
    have hf0 := costF_nonneg id (w.length - i - 1) g
    have hqle : alpha.indexOf (w.getD i 0) * costQ id (w.length - i - 1) g ≤
        smallerFirst (w.drop i) (w.getD i 0) := by
      have h1 : ((alpha.indexOf (w.getD i 0) * costQ id (w.length - i - 1) g : Nat) : ℚ) ≤
          (smallerFirst (w.drop i) (w.getD i 0) : ℚ) := by
        rw [← htot]
        push_cast
        have : (0 : ℚ) ≤ ((alpha.indexOf (w.getD i 0) : Nat) : ℚ) *
            costF id (w.length - i - 1) g :=
          mul_nonneg (Nat.cast_nonneg _) hf0
        linarith
      exact_mod_cast h1
    refine ⟨smallerFirst (w.drop i) (w.getD i 0) -
      alpha.indexOf (w.getD i 0) * costQ id (w.length - i - 1) g, ?_⟩
    rw [Nat.cast_sub hqle]
    push_cast
    linarith
  · refine ⟨0, ?_⟩
    unfold costF
    rw [if_neg hr]
    simp

/-- The fraction of the event of a mismatch. -/
theorem fraction_mismatch (m : Nat) (g : Globals) :
    fraction (if g.repeatsTrue ≠ 0 then Event.divide m g.counts else Event.table m) =
      costF id m g := by
  unfold costF
  by_cases hr : g.repeatsTrue ≠ 0
  · rw [if_pos hr, if_pos hr]
    rfl
  · rw [if_neg hr, if_neg hr]
    rfl

/-- The exact penalty of the event of a mismatch. -/
theorem exactPenalty_mismatch (w : List Nat) (i : Nat) (alpha : List Nat) (g : Globals)
    (h : rankInv w i alpha g) (hl : w.length ≤ 25) (hi : i < w.length) :
    exactPenalty (if g.repeatsTrue ≠ 0 then Event.divide (w.length - i - 1) g.counts
        else Event.table (w.length - i - 1)) =
      (costQ id (w.length - i - 1) g : ℚ) + costF id (w.length - i - 1) g := by
  unfold costQ costF
  by_cases hr : g.repeatsTrue ≠ 0
  · rw [if_pos hr, if_pos hr, if_pos hr]
    obtain ⟨_, _, _, hpos, _, _⟩ := numSum_demSum_id g.counts (w.length - i - 1) (by omega)
      (sum_pred_counts w i alpha g h hl)
    unfold exBit
    rw [div_add_exBit _ _ hpos]
    rfl
  · rw [if_neg hr, if_neg hr, if_neg hr]
    simp [exactPenalty]

theorem sum_map_step (f : Event → ℚ) (n : Nat) (mis a b c : Event) (rest : List Event)
    (ha : f a = 0) (hb : f b = 0) (hc : f c = 0) :
    ((List.replicate n mis ++ [a] ++ b :: c :: rest).map f).sum =
      (n : ℚ) * f mis + (rest.map f).sum := by
  simp only [List.map_append, List.map_replicate, List.sum_append, List.sum_replicate,
    List.map_cons, List.sum_cons, List.map_nil, List.sum_nil, ha, hb, hc, nsmul_eq_mul]
  ring

/-- Over unbounded integers, from a state that satisfies the invariant: `extraSum` grows
by the sum of the fractions of the mismatches, which is a whole number, and the sum of
`totalPenalty` and `extraSum` grows by the sum of the exact penalties. -/
theorem trace_sums (w : List Nat) (hl : w.length ≤ 25) :
    ∀ (d fuel i : Nat) (alpha : List Nat) (g : Globals),
      w.length - i = d → d < fuel → rankInv w i alpha g → g.penalty = 0 →
      ∃ (gf : Globals) (k : Nat),
        wordToNumberLoop id w fuel alpha alpha.length i i g = some (printedRank id gf, gf) ∧
        gf.extraSum = g.extraSum +
          ((wordToNumberTrace id w fuel alpha alpha.length i i g).map fraction).sum ∧
        gf.extraSum = g.extraSum + (k : ℚ) ∧
        (gf.totalPenalty : ℚ) + gf.extraSum = (g.totalPenalty : ℚ) + g.extraSum +
          ((wordToNumberTrace id w fuel alpha alpha.length i i g).map exactPenalty).sum := by
  intro d
  induction d with
  | zero =>
    intro fuel i alpha g hd hf hinv _
    cases fuel with
    | zero => omega
    | succ f =>
      have hi : ¬ i < g.wordLength := by rw [hinv.1]; omega
      refine ⟨g, 0, wordToNumberLoop_done id w f alpha _ i i g hi, ?_, ?_, ?_⟩
      · rw [wordToNumberTrace, if_neg hi]
        simp [fraction]
      · simp
      · rw [wordToNumberTrace, if_neg hi]
        simp [exactPenalty]
  | succ d ih =>
    intro fuel i alpha g hd hf hinv hp
    cases fuel with
    | zero => omega
    | succ f =>
      have hi : i < w.length := by omega
      obtain ⟨i1, i2, _, i4, i5, i6, i7⟩ := addPenalty_iterate id
        (g.penalty + alpha.indexOf (w.getD i 0) * costQ id (w.length - i - 1) g + 1)
        (fun _ _ => rfl) w i g (alpha.indexOf (w.getD i 0)) (Nat.lt_succ_self _)
      obtain ⟨m1, m2, m3, m4, _, m6, m7⟩ := matchStep_fields id (w.getD i 0)
        ((addPenalty id w i)^[alpha.indexOf (w.getD i 0)] g)
      rw [i1, i7, hp, Nat.zero_add] at m3
      have hinv1 := rankInv_congr w i alpha g _ hinv i6 i4 i5
      have hinv3 := rankInv_step w i alpha _ _ hinv1 hi m1 m6 m7
      obtain ⟨gf, k, e1, e2, e3, e4⟩ := ih f (i + 1) _ _ (by omega) (by omega) hinv3 m2
      obtain ⟨k0, hk0⟩ := mismatch_whole w i alpha g hinv hl hi
      refine ⟨gf, k0 + k, ?_, ?_, ?_, ?_⟩
      · rw [wordToNumberLoop_step id w f i alpha g hinv hi]
        exact e1
      · rw [wordToNumberTrace_step id w f i alpha g hinv hi,
          sum_map_step fraction _ _ _ _ _ _ (by rfl) (by rfl) (by rfl), fraction_mismatch, e2, m4, i2]
        ring
      · rw [e3, m4, i2, hk0]
        push_cast
        ring
      · rw [wordToNumberTrace_step id w f i alpha g hinv hi,
          sum_map_step exactPenalty _ _ _ _ _ _ (by rfl) (by rfl) (by rfl),
          exactPenalty_mismatch w i alpha g hinv hl hi, e4, m3, m4, i2]
        simp only [id]
        push_cast
        ring

/-! ## The 64-bit run of a word of at most 20 letters -/

/-- For a word of at most 20 letters the products in `divFactorials`, taken over unbounded
integers, are below `2 ^ 64`. -/
theorem products_lt (w : List Nat) (i : Nat) (alpha : List Nat) (g : Globals)
    (h : rankInv w i alpha g) (hl : w.length ≤ 20) (hi : i < w.length) :
    numSum id (w.length - i - 1) g.counts < 2 ^ 64 ∧
      demSum id (w.length - i - 1) g.counts < 2 ^ 64 := by
  have hlen : (w.drop i).length = w.length - i := List.length_drop i w
  have hsum := sum_pred_counts w i alpha g h (by omega)
  obtain ⟨_, _, _, _, b1, b2⟩ := numSum_demSum_id g.counts (w.length - i - 1) (by omega) hsum
  constructor
  · exact Nat.lt_of_le_of_lt b1 (factorial_lt_of_le_twenty _ (by omega))
  · rw [denomProduct_counts w i alpha g h] at b2
    have := repeatProduct_le_factorial (w.drop i)
    have := factorial_lt_of_le_twenty (w.drop i).length (by omega)
    omega

/-- For a word of at most 20 letters a mismatch costs the same with 64-bit arithmetic as
over unbounded integers. -/
theorem cost_u64_eq_id (w : List Nat) (i : Nat) (alpha : List Nat) (g : Globals)
    (h : rankInv w i alpha g) (hl : w.length ≤ 20) (hi : i < w.length) :
    costQ u64 (w.length - i - 1) g = costQ id (w.length - i - 1) g ∧
      costF u64 (w.length - i - 1) g = costF id (w.length - i - 1) g := by
  obtain ⟨hN, hD⟩ := products_lt w i alpha g h hl hi
  obtain ⟨e1, e2⟩ := numSum_demSum_wrap u64 (2 ^ 64) u64_of_lt g.counts (w.length - i - 1)
    (by omega) (sum_pred_counts w i alpha g h (by omega)) hN hD
  unfold costQ costF exBit
  rw [e1, e2]
  exact ⟨rfl, rfl⟩

theorem addPenalty_u64_eq_id (w : List Nat) (i : Nat) (g : Globals)
    (hq : costQ u64 (w.length - i - 1) g = costQ id (w.length - i - 1) g)
    (hf : costF u64 (w.length - i - 1) g = costF id (w.length - i - 1) g)
    (hb : g.penalty + costQ id (w.length - i - 1) g < 2 ^ 64) :
    addPenalty u64 w i g = addPenalty id w i g := by
  rw [addPenalty_eq, addPenalty_eq, hq, hf, u64_of_lt _ hb]
  rfl

/-- The mismatches at one position add the same with 64-bit arithmetic as over unbounded
integers, as long as `penalty` stays below `2 ^ 64`. -/
theorem addPenalty_iterate_u64_eq_id (w : List Nat) (i : Nat) (g : Globals)
    (hq : costQ u64 (w.length - i - 1) g = costQ id (w.length - i - 1) g)
    (hf : costF u64 (w.length - i - 1) g = costF id (w.length - i - 1) g) :
    ∀ t : Nat, g.penalty + t * costQ id (w.length - i - 1) g < 2 ^ 64 →
      (addPenalty u64 w i)^[t] g = (addPenalty id w i)^[t] g := by
  intro t
  induction t with
  | zero => intro _; rfl
  | succ t ih =>
    intro hb
    have hmono : t * costQ id (w.length - i - 1) g ≤
        (t + 1) * costQ id (w.length - i - 1) g := Nat.mul_le_mul_right _ (by omega)
    obtain ⟨i1, _, _, i4, i5, _, _⟩ := addPenalty_iterate id
      (g.penalty + t * costQ id (w.length - i - 1) g + 1) (fun _ _ => rfl) w i g t
      (Nat.lt_succ_self _)
    rw [Function.iterate_succ_apply', Function.iterate_succ_apply', ih (by omega)]
    apply addPenalty_u64_eq_id
    · rw [costQ_congr u64 _ g _ i4 i5, costQ_congr id _ g _ i4 i5, hq]
    · rw [costF_congr u64 _ g _ i4 i5, costF_congr id _ g _ i4 i5, hf]
    · rw [costQ_congr id _ g _ i4 i5, i1]
      have : (t + 1) * costQ id (w.length - i - 1) g =
          t * costQ id (w.length - i - 1) g + costQ id (w.length - i - 1) g := by ring
      omega

theorem matchStep_u64_eq_id (c : Nat) (g : Globals)
    (hb : g.totalPenalty + g.penalty < 2 ^ 64) : matchStep u64 c g = matchStep id c g := by
  obtain ⟨_, h2, h3, _, _⟩ := decrementCount_fields c 26 0 g
  unfold matchStep
  rw [h2, h3, u64_of_lt _ hb]
  rfl

theorem printedRank_u64_eq_id (g : Globals) (he : 0 ≤ g.extraSum)
    (hb : (g.totalPenalty : ℚ) + g.extraSum < 2 ^ 64) :
    printedRank u64 g = printedRank id g := by
  have hfl : ((Int.toNat (Rat.floor g.extraSum) : Nat) : ℚ) ≤ g.extraSum := by
    have h0 : (0 : ℤ) ≤ Rat.floor g.extraSum := Int.floor_nonneg.2 he
    have h1 : ((Int.toNat (Rat.floor g.extraSum) : Nat) : ℤ) = Rat.floor g.extraSum :=
      Int.toNat_of_nonneg h0
    have h2 : ((Rat.floor g.extraSum : ℤ) : ℚ) ≤ g.extraSum := Int.floor_le g.extraSum
    calc ((Int.toNat (Rat.floor g.extraSum) : Nat) : ℚ)
        = (((Int.toNat (Rat.floor g.extraSum) : Nat) : ℤ) : ℚ) := by push_cast; rfl
      _ = ((Rat.floor g.extraSum : ℤ) : ℚ) := by rw [h1]
      _ ≤ g.extraSum := h2
  have hsum : g.totalPenalty + Int.toNat (Rat.floor g.extraSum) < 2 ^ 64 := by
    have : ((g.totalPenalty + Int.toNat (Rat.floor g.extraSum) : Nat) : ℚ) <
        ((2 ^ 64 : Nat) : ℚ) := by
      push_cast
      linarith
    exact_mod_cast this
  unfold printedRank
  rw [u64_of_lt (Int.toNat (Rat.floor g.extraSum)) (by omega), u64_of_lt _ hsum]
  rfl

/-- For a word of at most 20 letters the run with 64-bit arithmetic is the run over
unbounded integers: the same result and the same events, from every state that satisfies
the invariant and leaves room for the rank below `2 ^ 64`. -/
theorem run_u64_eq_id (w : List Nat) (hl : w.length ≤ 20) :
    ∀ (d fuel i : Nat) (alpha : List Nat) (g : Globals),
      w.length - i = d → d < fuel → rankInv w i alpha g → g.penalty = 0 → 0 ≤ g.extraSum →
      (g.totalPenalty : ℚ) + g.extraSum + (countBelow (w.drop i) : ℚ) < 2 ^ 64 →
      wordToNumberLoop u64 w fuel alpha alpha.length i i g =
          wordToNumberLoop id w fuel alpha alpha.length i i g ∧
        wordToNumberTrace u64 w fuel alpha alpha.length i i g =
          wordToNumberTrace id w fuel alpha alpha.length i i g := by
  intro d
  induction d with
  | zero =>
    intro fuel i alpha g hd hf hinv _ he hb
    cases fuel with
    | zero => omega
    | succ f =>
      have hi : ¬ i < g.wordLength := by rw [hinv.1]; omega
      have hc : (0 : ℚ) ≤ (countBelow (w.drop i) : ℚ) := Nat.cast_nonneg _
      have hpr := printedRank_u64_eq_id g he (by linarith)
      constructor
      · rw [wordToNumberLoop_done u64 w f alpha _ i i g hi,
          wordToNumberLoop_done id w f alpha _ i i g hi, hpr]
      · rw [wordToNumberTrace, wordToNumberTrace, if_neg hi, if_neg hi, hpr]
  | succ d ih =>
    intro fuel i alpha g hd hf hinv hp he hb
    cases fuel with
    | zero => omega
    | succ f =>
      have hi : i < w.length := by omega
      have hsafe : safeFrom (w.drop i) := safeFrom_of_length _ (by
        rw [List.length_drop]
        omega)
      have hdrop := drop_eq_getD_cons w i hi
      have htot := mismatch_total id (fun _ _ => rfl) w i alpha g hinv hi hsafe
      have hcb : countBelow (w.drop i) =
          smallerFirst (w.drop i) (w.getD i 0) + countBelow (w.drop (i + 1)) := by
        have := countBelow_cons (w.getD i 0) (w.drop (i + 1))
        rw [← hdrop] at this
        exact this
      have hf0 := costF_nonneg id (w.length - i - 1) g
      have hidx : (0 : ℚ) ≤ ((alpha.indexOf (w.getD i 0) : Nat) : ℚ) := Nat.cast_nonneg _
      have hcb' : (countBelow (w.drop i) : ℚ) = (smallerFirst (w.drop i) (w.getD i 0) : ℚ) +
          (countBelow (w.drop (i + 1)) : ℚ) := by exact_mod_cast hcb
      have hc1 : (0 : ℚ) ≤ (countBelow (w.drop (i + 1)) : ℚ) := Nat.cast_nonneg _
      have ht0 : (0 : ℚ) ≤ (g.totalPenalty : ℚ) := Nat.cast_nonneg _
      have hmul : ((alpha.indexOf (w.getD i 0) : Nat) : ℚ) *
          ((costQ id (w.length - i - 1) g : ℚ) + costF id (w.length - i - 1) g) =
          ((alpha.indexOf (w.getD i 0) : Nat) : ℚ) * (costQ id (w.length - i - 1) g : ℚ) +
          ((alpha.indexOf (w.getD i 0) : Nat) : ℚ) * costF id (w.length - i - 1) g := by ring
      have hfr : (0 : ℚ) ≤ ((alpha.indexOf (w.getD i 0) : Nat) : ℚ) *
          costF id (w.length - i - 1) g := mul_nonneg hidx hf0
      have hbound : g.totalPenalty +
          alpha.indexOf (w.getD i 0) * costQ id (w.length - i - 1) g < 2 ^ 64 := by
        have : ((g.totalPenalty +
            alpha.indexOf (w.getD i 0) * costQ id (w.length - i - 1) g : Nat) : ℚ) <
            ((2 ^ 64 : Nat) : ℚ) := by
          push_cast
          linarith
        exact_mod_cast this
      obtain ⟨hq, hfe⟩ := cost_u64_eq_id w i alpha g hinv hl hi
      have hiter := addPenalty_iterate_u64_eq_id w i g hq hfe (alpha.indexOf (w.getD i 0))
        (by omega)
      obtain ⟨i1, i2, _, i4, i5, i6, i7⟩ := addPenalty_iterate id
        (g.penalty + alpha.indexOf (w.getD i 0) * costQ id (w.length - i - 1) g + 1)
        (fun _ _ => rfl) w i g (alpha.indexOf (w.getD i 0)) (Nat.lt_succ_self _)
      have hmatch := matchStep_u64_eq_id (w.getD i 0)
        ((addPenalty id w i)^[alpha.indexOf (w.getD i 0)] g) (by rw [i1, i7]; omega)
      obtain ⟨m1, m2, m3, m4, _, m6, m7⟩ := matchStep_fields id (w.getD i 0)
        ((addPenalty id w i)^[alpha.indexOf (w.getD i 0)] g)
      rw [i1, i7, hp, Nat.zero_add] at m3
      have hinv1 := rankInv_congr w i alpha g _ hinv i6 i4 i5
      have hinv3 := rankInv_step w i alpha _ _ hinv1 hi m1 m6 m7
      have hnext := ih f (i + 1) _ _ (by omega) (by omega) hinv3 m2
        (by rw [m4, i2]; linarith)
        (by
          rw [m3, m4, i2]
          simp only [id]
          push_cast
          linarith)
      constructor
      · rw [wordToNumberLoop_step u64 w f i alpha g hinv hi,
          wordToNumberLoop_step id w f i alpha g hinv hi, hiter, hmatch]
        exact hnext.1
      · rw [wordToNumberTrace_step u64 w f i alpha g hinv hi,
          wordToNumberTrace_step id w f i alpha g hinv hi, hiter, hmatch, hnext.2]

/-- The partial products of the loops that total up the factors do not exceed the final
product. -/
theorem totalUp_partial_le (pieces : List Nat) (n : Nat)
    (hp : ∀ t, t < n → 1 ≤ pieces.getD t 0) (k : Nat) (hk : k ≤ n) :
    totalUp id pieces k 0 1 ≤ totalUp id pieces n 0 1 := by
  have e : ∀ m, m ≤ n → totalUp id pieces m 0 1 = prodUpTo pieces m := by
    intro m hm
    exact totalUp_eq_prodUpTo id (prodUpTo pieces m + 1) (fun _ _ => rfl) pieces m
      (fun t ht => hp t (by omega)) (Nat.lt_succ_self _)
  rw [e k hk, e n (le_refl _)]
  have hmono : ∀ j, k + j ≤ n → prodUpTo pieces k ≤ prodUpTo pieces (k + j) := by
    intro j
    induction j with
    | zero => intro _; exact le_refl _
    | succ j ih =>
      intro hj
      rw [show k + (j + 1) = (k + j) + 1 by omega, prodUpTo_succ]
      exact le_trans (ih (by omega)) (Nat.le_mul_of_pos_right _ (hp _ (by omega)))
  have := hmono (n - k) (by omega)
  rwa [show k + (n - k) = n by omega] at this

/-! ## The accesses and divisions of `divFactorials` -/

theorem explodeDenomChecked_eq (d dt : Nat) : ∀ (n j : Nat) (dp : List Nat),
    dt + j + n ≤ 26 →
      explodeDenomChecked d dt n j dp = some (explodeDenom d dt n j dp) := by
  intro n
  induction n with
  | zero => intro j dp _; rfl
  | succ n ih =>
    intro j dp h
    rw [explodeDenomChecked, if_pos (by omega), explodeDenom]
    exact ih (j + 1) _ (by omega)

theorem sum_range_shift (f : Nat → Nat) (i n : Nat) :
    ∑ t in Finset.range (n + 1), f (i + t) = f i + ∑ t in Finset.range n, f (i + 1 + t) := by
  rw [Finset.sum_range_succ', add_comm]
  congr 1
  apply Finset.sum_congr rfl
  intro t _
  rw [show i + (t + 1) = i + 1 + t by omega]

/-- The explosion loop stays inside its arrays as long as the entries above 1 of the
denominators, each less 1, sum to at most 25. -/
theorem explodeChecked_eq (den : List Nat) : ∀ (n i : Nat) (p : Pieces),
    i + n ≤ 26 → p.denomTemp + ∑ t in Finset.range n, (den.getD (i + t) 0 - 1) ≤ 25 →
      explodeChecked den n i p = some (explode den n i p) := by
  intro n
  induction n with
  | zero => intro i p _ _; rfl
  | succ n ih =>
    intro i p hi hs
    have hshift := sum_range_shift (fun t => den.getD t 0 - 1) i n
    simp only [] at hshift
    rw [hshift] at hs
    rw [explodeChecked, explode]
    by_cases hd : den.getD i 0 > 1
    · simp only [if_pos hd]
      rw [if_pos (by omega), explodeDenomChecked_eq _ _ _ _ _ (by omega)]
      simp only []
      by_cases hn : p.numTemp ≠ 0
      · rw [if_pos hn, if_pos (by omega), if_pos hn]
        exact ih (i + 1) _ (by omega) (by
          show p.denomTemp + (den.getD i 0 - 1) + _ ≤ 25
          omega)
      · rw [if_neg hn, if_neg hn]
        exact ih (i + 1) _ (by omega) (by
          show p.denomTemp + (den.getD i 0 - 1) + _ ≤ 25
          omega)
    · simp only [if_neg hd]
      by_cases hn : p.numTemp ≠ 0
      · rw [if_pos hn, if_pos (by omega), if_pos hn]
        exact ih (i + 1) _ (by omega) (by
          show p.denomTemp + _ ≤ 25
          omega)
      · rw [if_neg hn, if_neg hn]
        exact ih (i + 1) _ (by omega) (by omega)

/-- The inner loop of the cancellation stays inside the arrays and divides by no zero as
long as the denominator factors it scans are positive. -/
theorem cancelInnerChecked_eq (i : Nat) (hi : i < 26) : ∀ (n j : Nat) (np dp : List Nat),
    j + n ≤ 26 → (∀ t, j ≤ t → t < j + n → 1 ≤ dp.getD t 0) →
      cancelInnerChecked i n j np dp =
        some ((cancelInner i n j np dp).1, (cancelInner i n j np dp).2.1,
          (cancelInner i n j np dp).2.2) := by
  intro n
  induction n with
  | zero => intro j np dp _ _; rfl
  | succ n ih =>
    intro j np dp hj hp
    have hpos := hp j (le_refl _) (by omega)
    rw [cancelInnerChecked, if_pos ⟨hi, by omega, by omega⟩, cancelInner]
    by_cases h1 : np.getD i 0 % dp.getD j 0 = 0
    · rw [if_pos h1, if_pos h1]
      by_cases h2 : np.getD i 0 / dp.getD j 0 = 1
      · rw [if_pos h2, if_pos h2]
      · rw [if_neg h2, if_neg h2]
        by_cases h3 : np.getD i 0 / dp.getD j 0 < np.getD i 0
        · rw [if_pos h3, if_pos h3]
        · rw [if_neg h3, if_neg h3]
          exact ih (j + 1) np dp (by omega) (fun t h4 h5 => hp t (by omega) (by omega))
    · rw [if_neg h1, if_neg h1]
      exact ih (j + 1) np dp (by omega) (fun t h4 h5 => hp t (by omega) (by omega))

/-- The cancellation stays inside the arrays and divides by no zero. -/
theorem cancelOuterChecked_eq (n dt N0 D0 : Nat) (hn : n ≤ 26) (hdt : dt ≤ 26) :
    ∀ (fuel i : Nat) (np dp : List Nat), cancelInv n dt N0 D0 np dp →
      cancelOuterChecked n dt fuel i np dp =
        some ((cancelOuter n dt fuel i np dp).1, (cancelOuter n dt fuel i np dp).2) := by
  intro fuel
  induction fuel with
  | zero => intro i np dp _; rfl
  | succ fuel ih =>
    intro i np dp h
    rw [cancelOuterChecked, cancelOuter]
    by_cases hi : i < n
    · rw [if_pos hi, if_pos hi, cancelInnerChecked_eq i (by omega) dt 0 np dp (by omega)
        (fun t _ ht => h.2.2.2.1 t (by omega))]
      exact ih _ _ _ (cancelInner_inv n dt N0 D0 np dp i hi hn hdt h)
    · rw [if_neg hi, if_neg hi]

theorem totalUpChecked_eq (wrap : Nat → Nat) (pieces : List Nat) : ∀ (n i s : Nat),
    i + n ≤ 26 → totalUpChecked wrap pieces n i s = some (totalUp wrap pieces n i s) := by
  intro n
  induction n with
  | zero => intro i s _; rfl
  | succ n ih =>
    intro i s h
    rw [totalUpChecked, if_pos (by omega), totalUp]
    exact ih (i + 1) _ (by omega)

/-- With 64-bit arithmetic the loops that total up the factors yield the product of the
factors modulo `2 ^ 64`. -/
theorem totalUp_u64_mod (pieces : List Nat) : ∀ (n i s : Nat), s < 2 ^ 64 →
    (∀ t, i ≤ t → t < i + n → 1 ≤ pieces.getD t 0) →
    totalUp u64 pieces n i s = (s * ∏ t in Finset.range n, pieces.getD (i + t) 0) % 2 ^ 64 := by
  intro n
  induction n with
  | zero =>
    intro i s hs _
    rw [totalUp, Finset.prod_range_zero, mul_one, Nat.mod_eq_of_lt hs]
  | succ n ih =>
    intro i s hs hp
    have hprod : ∏ t in Finset.range (n + 1), pieces.getD (i + t) 0 =
        pieces.getD i 0 * ∏ t in Finset.range n, pieces.getD (i + 1 + t) 0 := by
      rw [Finset.prod_range_succ', mul_comm]
      congr 1
      apply Finset.prod_congr rfl
      intro t _
      rw [show i + (t + 1) = i + 1 + t by omega]
    have hpi : 1 ≤ pieces.getD i 0 := hp i (le_refl _) (by omega)
    rw [totalUp, hprod]
    by_cases h1 : pieces.getD i 0 > 1
    · rw [if_pos h1, ih (i + 1) (u64 (s * pieces.getD i 0)) (Nat.mod_lt _ (by norm_num))
        (fun t h2 h3 => hp t (by omega) (by omega))]
      unfold u64
      rw [Nat.mod_mul_mod, mul_assoc]
    · rw [if_neg h1, ih (i + 1) _ hs (fun t h2 h3 => hp t (by omega) (by omega))]
      have : pieces.getD i 0 = 1 := by omega
      rw [this, one_mul]

/-- The cancellation only removes denominator factors: the product of those that are left
divides the product it started from. -/
theorem cancelOuter_dvd (n dt : Nat) (hdt : dt ≤ 26) : ∀ (fuel i : Nat) (np dp : List Nat),
    dp.length = 26 →
      prodUpTo (cancelOuter n dt fuel i np dp).2 dt ∣ prodUpTo dp dt := by
  intro fuel
  induction fuel with
  | zero => intro i np dp _; exact dvd_refl _
  | succ fuel ih =>
    intro i np dp hl
    simp only [cancelOuter]
    by_cases hi : i < n
    · rw [if_pos hi]
      rcases cancelInner_spec i dt 0 np dp with h1 | ⟨j, _, hj, _, h1⟩
      · rw [h1]
        exact ih _ _ _ hl
      · rw [h1]
        have hD := prodUpTo_set_lt dp j 1 (by omega) dt (by omega)
        rw [mul_one] at hD
        exact dvd_trans (ih _ _ _ (by simp [hl])) (Dvd.intro _ hD)
    · rw [if_neg hi]

theorem denomProduct_dvd (den : List Nat) : denomProduct den ∣ (repeatSum den).factorial := by
  unfold denomProduct repeatSum
  rw [list_range_prod, list_range_sum]
  have h := Nat.prod_factorial_dvd_factorial_sum (Finset.range 26)
    (fun k => if den.getD k 0 > 1 then den.getD k 0 else 0)
  have e : ∏ t in Finset.range 26, (if den.getD t 0 > 1 then (den.getD t 0).factorial else 1) =
      ∏ t in Finset.range 26, (if den.getD t 0 > 1 then den.getD t 0 else 0).factorial := by
    apply Finset.prod_congr rfl
    intro t _
    by_cases h : den.getD t 0 > 1
    · rw [if_pos h, if_pos h]
    · rw [if_neg h, if_neg h]; rfl
  rw [e]
  exact h

theorem two_pow_not_dvd_factorial : ¬ (2 ^ 64 ∣ Nat.factorial 25) := by
  decide

/-- The product of the denominator factors right after the explosion. -/
theorem explode_denomProduct (den : List Nat) (n : Nat)
    (hsum : ∑ t in Finset.range 26, (den.getD t 0 - 1) ≤ 25) :
    (explode den 26 0
      { numerPieces := List.replicate 26 0, denomPieces := List.replicate 26 0,
        numTemp := n, denomTemp := 0 }).denomPieces.length = 26 ∧
    prodUpTo (explode den 26 0
      { numerPieces := List.replicate 26 0, denomPieces := List.replicate 26 0,
        numTemp := n, denomTemp := 0 }).denomPieces (denomCount n den) = denomProduct den := by
  have h0 : explodeInv den n 0
      { numerPieces := List.replicate 26 0, denomPieces := List.replicate 26 0,
        numTemp := n, denomTemp := 0 } := by
    refine ⟨by simp, by simp, rfl, ?_, ?_, ?_, ?_⟩
    · intro t ht; omega
    · simp
    · simp [prodUpTo]
    · intro t ht
      simp at ht
  have h := explode_inv den n hsum 26 0 _ (by omega) h0
  rw [show 0 + 26 = 26 from rfl] at h
  obtain ⟨_, hl2, _, _, _, hprod, _⟩ := h
  refine ⟨hl2, ?_⟩
  rw [denomProduct_eq]
  exact hprod

/-- With 64-bit arithmetic `demSum` is never 0: the surviving denominator factors divide
`25!`, which is not a multiple of `2 ^ 64`. -/
theorem demSum_u64_ne_zero (den : List Nat) (n : Nat) (hn : n ≤ 26)
    (hrs : repeatSum den ≤ 25) : demSum u64 n den ≠ 0 := by
  have hsum : ∑ t in Finset.range 26, (den.getD t 0 - 1) ≤ 25 :=
    le_trans (sum_pred_le_repeatSum den) hrs
  obtain ⟨⟨_, _, _, hp2, _, _⟩, hdt⟩ := cancelled_inv den n hn hsum
  obtain ⟨hl, hprod⟩ := explode_denomProduct den n hsum
  have hdvd : prodUpTo (cancelled n den).2 (denomCount n den) ∣ Nat.factorial 25 := by
    have h1 := cancelOuter_dvd n (denomCount n den) (by omega) n 0
      (explode den 26 0
        { numerPieces := List.replicate 26 0, denomPieces := List.replicate 26 0,
          numTemp := n, denomTemp := 0 }).numerPieces _ hl
    rw [hprod] at h1
    exact dvd_trans h1 (dvd_trans (denomProduct_dvd den) (Nat.factorial_dvd_factorial hrs))
  intro h0
  unfold demSum at h0
  rw [totalUp_u64_mod _ _ 0 1 (by norm_num) (fun t _ ht => hp2 t (by omega))] at h0
  have h2 : 2 ^ 64 ∣ prodUpTo (cancelled n den).2 (denomCount n den) := by
    apply Nat.dvd_of_mod_eq_zero
    unfold prodUpTo
    simpa using h0
  exact two_pow_not_dvd_factorial (dvd_trans h2 hdvd)

/-! ## The validation in `main` -/

/-- On a word of fewer than 256 characters that holds a character other than a capital
letter the first loop of `checkWord` returns `ERR_NOT_ALL_CAPS`. -/
theorem checkWordCount_invalid (w : List Nat) (hlen : w.length ≤ 255) :
    ∀ (d fuel i : Nat) (g : Globals), w.length - i = d → d < fuel → i ≤ w.length →
      g.wordLength = w.length → (∃ c ∈ w.drop i, ¬ (65 ≤ c ∧ c ≤ 90)) →
      ∃ g1, checkWordCount fuel w i g = some (ERR_NOT_ALL_CAPS, g1) ∧ g1.err = g.err := by
  intro d
  induction d with
  | zero =>
    intro fuel i g hd _ hi _ hex
    obtain ⟨c, hc, _⟩ := hex
    rw [List.drop_eq_nil_of_le (by omega)] at hc
    simp at hc
  | succ d ih =>
    intro fuel i g hd hf hi hwl hex
    cases fuel with
    | zero => omega
    | succ f =>
      have hil : i < w.length := by omega
      rw [checkWordCount, if_pos (by rw [hwl]; exact hil)]
      by_cases hv : 65 ≤ w.getD i 0 ∧ w.getD i 0 ≤ 90
      · rw [if_pos hv, Nat.mod_eq_of_lt (by omega)]
        obtain ⟨c, hc, hbad⟩ := hex
        rw [drop_eq_getD_cons w i hil] at hc
        have hc' : c ∈ w.drop (i + 1) := by
          rcases List.mem_cons.1 hc with h | h
          · rw [h] at hbad
            exact absurd hv hbad
          · exact h
        obtain ⟨g1, h1, h2⟩ := ih f (i + 1)
          { g with counts := g.counts.set (w.getD i 0 - 65)
                      (g.counts.getD (w.getD i 0 - 65) 0 + 1) }
          (by omega) (by omega) (by omega) hwl ⟨c, hc', hbad⟩
        exact ⟨g1, h1, h2⟩
      · rw [if_neg hv]
        exact ⟨g, rfl, rfl⟩

/-- On a word of capital letters of fewer than 256 characters, whatever its length, the
function `checkWord` returns 0 and leaves `err` and `wordLength` as they are. -/
theorem checkWord_valid_chars (w : List Nat) (hlen : w.length ≤ 255)
    (hv : ∀ c ∈ w, 65 ≤ c ∧ c ≤ 90) (fuel : Nat) (hf : w.length < fuel) (g : Globals)
    (hwl : g.wordLength = w.length) (hcl : g.counts.length = 26) :
    ∃ g1, checkWord fuel w g = some (0, g1) ∧ g1.err = g.err := by
  obtain ⟨cs, h1, _, _⟩ := checkWordCount_eq w hlen hv w.length fuel 0 g (by omega) hf
    (Nat.zero_le _) hwl hcl
  refine ⟨{ g with counts := cs, alphaWord := buildAlphaOuter cs 26 0 g.alphaWord }, ?_, rfl⟩
  unfold checkWord
  rw [h1]
  simp only [ne_eq, not_true_eq_false, if_false]

theorem checkWord_invalid_chars (w : List Nat) (hlen : w.length ≤ 255)
    (hex : ∃ c ∈ w, ¬ (65 ≤ c ∧ c ≤ 90)) (fuel : Nat) (hf : w.length < fuel) (g : Globals)
    (hwl : g.wordLength = w.length) :
    ∃ g1, checkWord fuel w g = some (ERR_NOT_ALL_CAPS, g1) ∧ g1.err = g.err := by
  obtain ⟨g1, h1, h2⟩ := checkWordCount_invalid w hlen w.length fuel 0 g (by omega) hf
    (Nat.zero_le _) hwl (by simpa using hex)
  refine ⟨g1, ?_, h2⟩
  unfold checkWord
  rw [h1]
  have : ERR_NOT_ALL_CAPS ≠ 0 := by decide
  simp only [ne_eq, this, not_false_eq_true, if_true]

theorem lengthChecked_fields (w : List Nat) :
    (lengthChecked w).wordLength = w.length ∧ (lengthChecked w).counts.length = 26 ∧
      (lengthChecked w).err =
        (if w.length < 1 then ERR_TOO_FEW_LETTERS
          else if w.length > 25 then ERR_TOO_MANY_LETTERS else 0) := by
  unfold lengthChecked
  split_ifs <;> exact ⟨rfl, by simp [initGlobals], rfl⟩

/-- With a single word, `main` is the call of `checkWord` after the checks of the length,
then the call of `wordToNumber` if no error bit is set. -/
theorem main_two (wrap : Nat → Nat) (fuel : Nat) (argv : List (List Nat))
    (h : argv.length = 2) :
    main wrap fuel argv =
      match checkWord fuel (argv.getD 1 []) (lengthChecked (argv.getD 1 [])) with
      | none => none
      | some (e, g2) =>
        if printErr (g2.err ||| e) then some (g2.err ||| e, none, { g2 with err := g2.err ||| e })
        else
          match wordToNumber wrap fuel (argv.getD 1 []) g2.alphaWord g2.wordLength 0
              { g2 with err := g2.err ||| e,
                        repeatsTrue := checkCounts { g2 with err := g2.err ||| e } } with
          | none => none
          | some (r, g3) => some (0, some r, g3) := by
  unfold main lengthChecked
  rw [if_neg (by omega), if_neg (by omega)]
  simp only []
  split_ifs <;> rfl

theorem mainTrace_two (wrap : Nat → Nat) (fuel : Nat) (argv : List (List Nat))
    (h : argv.length = 2) :
    mainTrace wrap fuel argv =
      match checkWord fuel (argv.getD 1 []) (lengthChecked (argv.getD 1 [])) with
      | none => []
      | some (e, g2) =>
        if printErr (g2.err ||| e) then []
        else
          Event.call g2.alphaWord g2.wordLength 0
              { g2 with err := g2.err ||| e,
                        repeatsTrue := checkCounts { g2 with err := g2.err ||| e } } ::
            wordToNumberTrace wrap (argv.getD 1 []) fuel g2.alphaWord g2.wordLength 0 0
              { g2 with err := g2.err ||| e,
                        repeatsTrue := checkCounts { g2 with err := g2.err ||| e } } := by
  unfold mainTrace lengthChecked
  rw [if_neg (by omega), if_neg (by omega)]
  simp only []
  split_ifs <;> rfl

/-- The validation in `main`, for every argument vector in which the word, if there is
exactly one, has fewer than 256 characters. A single valid word makes `main` call
`wordToNumber` and exit with status 0 after the rank is printed. In every other case
`main` returns the error bitmask `err`, which is not 0 and is made of the bits of the
failed checks, and `wordToNumber` is not called. -/
theorem main_validation (wrap : Nat → Nat) (fuel : Nat) (argv : List (List Nat))
    (hlen : (argv.getD 1 []).length ≤ 255) (hf : (argv.getD 1 []).length < fuel) :
    (argv.length = 2 ∧ validWord (argv.getD 1 []) →
        ∃ r g, main wrap fuel argv = some (0, some r, g) ∧
          ∃ e rest, mainTrace wrap fuel argv = e :: rest ∧ e.isCall = true) ∧
      (¬ (argv.length = 2 ∧ validWord (argv.getD 1 [])) →
        ∃ e g, main wrap fuel argv = some (e, none, g) ∧ e ≠ 0 ∧ g.err = e ∧
          mainTrace wrap fuel argv = [] ∧
          e = if argv.length < 2 then ERR_TOO_FEW_WORDS
            else if argv.length > 2 then ERR_TOO_MANY_WORDS
            else
              (if (argv.getD 1 []).length < 1 then ERR_TOO_FEW_LETTERS
                else if (argv.getD 1 []).length > 25 then ERR_TOO_MANY_LETTERS else 0) |||
              (if ∀ c ∈ argv.getD 1 [], 65 ≤ c ∧ c ≤ 90 then 0 else ERR_NOT_ALL_CAPS)) := by
  constructor
  · rintro ⟨h2, hvalid⟩
    obtain ⟨name, w, rfl⟩ := List.length_eq_two.1 h2
    have hw : [name, w].getD 1 [] = w := rfl
    rw [hw] at hvalid hf
    obtain ⟨alpha, g0, hall, hinv, _⟩ := main_start w hvalid fuel name hf
    obtain ⟨hmain, htr⟩ := hall wrap
    obtain ⟨gf, e1, _⟩ := trace_counts wrap w w.length fuel 0 alpha g0 (by omega) hf hinv
    exact ⟨printedRank wrap gf, gf, by rw [hmain, e1], _, _, htr, rfl⟩
  · intro hnot
    by_cases h1 : argv.length < 2
    · refine ⟨ERR_TOO_FEW_WORDS, { initGlobals with err := ERR_TOO_FEW_WORDS }, ?_, by decide,
        rfl, ?_, by rw [if_pos h1]⟩
      · unfold main
        rw [if_pos h1]
      · unfold mainTrace
        rw [if_pos h1]
    · by_cases h2 : argv.length > 2
      · refine ⟨ERR_TOO_MANY_WORDS, { initGlobals with err := ERR_TOO_MANY_WORDS }, ?_,
          by decide, rfl, ?_, by rw [if_neg h1, if_pos h2]⟩
        · unfold main
          rw [if_neg h1, if_pos h2]
        · unfold mainTrace
          rw [if_neg h1, if_pos h2]
      · have hl2 : argv.length = 2 := by omega
        have hinvalid : ¬ validWord (argv.getD 1 []) := fun hv => hnot ⟨hl2, hv⟩
        obtain ⟨c1, c2, c3⟩ := lengthChecked_fields (argv.getD 1 [])
        rw [main_two wrap fuel argv hl2, mainTrace_two wrap fuel argv hl2, if_neg h1, if_neg h2]
        by_cases hv : ∀ c ∈ argv.getD 1 [], 65 ≤ c ∧ c ≤ 90
        · obtain ⟨g1, hcw, herr⟩ := checkWord_valid_chars _ hlen hv fuel hf
            (lengthChecked (argv.getD 1 [])) c1 c2
          have hne : g1.err ||| 0 ≠ 0 := by
            rw [herr, c3]
            unfold validWord at hinvalid
            split_ifs with a b
            · decide
            · decide
            · exact absurd ⟨by omega, by omega, hv⟩ hinvalid
          have hpe : printErr (g1.err ||| 0) = true := by unfold printErr; simpa using hne
          rw [hcw, if_pos hv]
          simp only []
          rw [if_pos hpe, if_pos hpe]
          exact ⟨g1.err ||| 0, _, rfl, hne, rfl, rfl, by rw [herr, c3]⟩
        · obtain ⟨g1, hcw, herr⟩ := checkWord_invalid_chars _ hlen
            (by
              by_contra hh
              apply hv
              intro c hc
              by_contra hbad
              exact hh ⟨c, hc, hbad⟩) fuel hf (lengthChecked (argv.getD 1 [])) c1
          have hne : g1.err ||| ERR_NOT_ALL_CAPS ≠ 0 := by
            rw [herr, c3]
            split_ifs <;> decide
          have hpe : printErr (g1.err ||| ERR_NOT_ALL_CAPS) = true := by
            unfold printErr
            simpa using hne
          rw [hcw, if_neg hv]
          simp only []
          rw [if_pos hpe, if_pos hpe]
          exact ⟨g1.err ||| ERR_NOT_ALL_CAPS, _, rfl, hne, rfl, rfl, by rw [herr, c3]⟩

/-! ## The claims on the run of `wordToNumber` -/

/-- C13: for every valid word, with `alphaWord` and `counts` as `checkWord` has built
them, the call `wordToNumber(word, alphaWord, wordLength, 0)` that `main` makes returns,
whatever the arithmetic does: `main` exits with status 0 after printing a rank. In that
run `wordToNumber` is entered once by `main` and once more for every position of the
word (`wordLength` nested calls, at most 25); the alphabetized word is scanned once per
position, and the scan at position `i` makes at most `wordLength - i`, hence at most 26,
comparisons `newAlpha[j] != word[i]`; there are as many scans as nested calls, so every
scan ends in a match; the search of the matched letter in `upper` makes at most 26
comparisons; `shrinkWord` never reports an error; and the rank is printed exactly once. -/
theorem c13_wordToNumber_terminates (wrap : Nat → Nat) (w : List Nat)
    (hvalid : validWord w) (fuel : Nat) (name : List Nat) (hf : w.length < fuel) :
    ∃ (r : Nat) (g : Globals), main wrap fuel [name, w] = some (0, some r, g) ∧
      ((mainTrace wrap fuel [name, w]).filter Event.isCall).length = w.length + 1 ∧
      ((mainTrace wrap fuel [name, w]).filter Event.isScan).length = w.length ∧
      w.length ≤ 25 ∧
      (∀ i c, Event.scan i c ∈ mainTrace wrap fuel [name, w] →
        1 ≤ c ∧ c ≤ w.length - i ∧ c ≤ 26) ∧
      (∀ c, Event.lookup c ∈ mainTrace wrap fuel [name, w] → c ≤ 26) ∧
      Event.shrinkError ∉ mainTrace wrap fuel [name, w] ∧
      (mainTrace wrap fuel [name, w]).filter Event.isPrint = [Event.print r] := by
  obtain ⟨alpha, g0, hall, hinv, hcnt, _⟩ := main_start w hvalid fuel name hf
  obtain ⟨hmain, htr⟩ := hall wrap
  obtain ⟨gf, e1, e2, e3, e4⟩ := trace_counts wrap w w.length fuel 0 alpha g0 (by omega) hf hinv
  have key := trace_forall wrap w
    (fun e => (∀ i c, e = Event.scan i c → 1 ≤ c ∧ c ≤ w.length - i ∧ c ≤ 26) ∧
      (∀ c, e = Event.lookup c → c ≤ 26) ∧ e ≠ Event.shrinkError)
    (by
      intro i a g _ _
      refine ⟨?_, ?_, ?_⟩
      · intro i' c he; cases he
      · intro c he; cases he
      · intro he; cases he)
    (by
      intro i c _ h1 h2
      refine ⟨?_, ?_, ?_⟩
      · intro i' c' he
        injection he with e1 e2
        subst e1 e2
        have := hvalid.2.1
        exact ⟨h1, h2, by omega⟩
      · intro c' he; cases he
      · intro he; cases he)
    (by
      intro i a g _ _ _
      refine ⟨?_, ?_, ?_⟩
      · intro i' c he; split_ifs at he
      · intro c he; split_ifs at he
      · intro he; split_ifs at he)
    (by
      intro c hc
      refine ⟨?_, ?_, ?_⟩
      · intro i' c' he; cases he
      · intro c' he
        injection he with e1
        subst e1
        exact hc
      · intro he; cases he)
    (by
      intro r
      refine ⟨?_, ?_, ?_⟩
      · intro i' c he; cases he
      · intro c he; cases he
      · intro he; cases he)
    w.length fuel 0 alpha g0 (by omega) hf hinv hcnt
  have key' : ∀ e ∈ mainTrace wrap fuel [name, w],
      (∀ i c, e = Event.scan i c → 1 ≤ c ∧ c ≤ w.length - i ∧ c ≤ 26) ∧
      (∀ c, e = Event.lookup c → c ≤ 26) ∧ e ≠ Event.shrinkError := by
    intro e he
    rw [htr] at he
    rcases List.mem_cons.1 he with he | he
    · rw [he]
      refine ⟨?_, ?_, ?_⟩
      · intro i' c he'; cases he'
      · intro c he'; cases he'
      · intro he'; cases he'
    · exact key e he
  refine ⟨printedRank wrap gf, gf, ?_, ?_, ?_, hvalid.2.1, ?_, ?_, ?_, ?_⟩
  · rw [hmain, e1]
  · rw [htr]
    simp only [List.filter, Event.isCall, List.length_cons]
    rw [e3]
    omega
  · rw [htr]
    simp only [List.filter, Event.isScan]
    rw [e4]
    omega
  · intro i c he
    exact (key' _ he).1 i c rfl
  · intro c he
    exact (key' _ he).2.1 c rfl
  · intro he
    exact (key' _ he).2.2 rfl
  · rw [htr]
    simp only [List.filter, Event.isPrint]
    exact e2

theorem c13_wordToNumber_terminates_witness :
    validWord [66, 79, 79, 75] ∧ [66, 79, 79, 75].length < 5 ∧
    ∃ (r : Nat) (g : Globals), main u64 5 [[], [66, 79, 79, 75]] = some (0, some r, g) ∧
      ((mainTrace u64 5 [[], [66, 79, 79, 75]]).filter Event.isCall).length =
        [66, 79, 79, 75].length + 1 ∧
      ((mainTrace u64 5 [[], [66, 79, 79, 75]]).filter Event.isScan).length =
        [66, 79, 79, 75].length ∧
      [66, 79, 79, 75].length ≤ 25 ∧
      (∀ i c, Event.scan i c ∈ mainTrace u64 5 [[], [66, 79, 79, 75]] →
        1 ≤ c ∧ c ≤ [66, 79, 79, 75].length - i ∧ c ≤ 26) ∧
      (∀ c, Event.lookup c ∈ mainTrace u64 5 [[], [66, 79, 79, 75]] → c ≤ 26) ∧
      Event.shrinkError ∉ mainTrace u64 5 [[], [66, 79, 79, 75]] ∧
      (mainTrace u64 5 [[], [66, 79, 79, 75]]).filter Event.isPrint = [Event.print r] :=
  ⟨by decide, by decide,
    c13_wordToNumber_terminates u64 [66, 79, 79, 75] (by decide) 5 [] (by decide)⟩

/-- C16: for every valid word, at every call `wordToNumber(word, newAlpha, alphaLength,
reit)` of the run that `main` starts, the call by `main` included, `newAlpha` is the
ascending sort of the letters `word[reit..wordLength)`, the letters not yet matched, and
`alphaLength` is `wordLength - reit`, the length of `newAlpha`. -/
theorem c16_newAlpha_is_sorted_rest (wrap : Nat → Nat) (w : List Nat)
    (hvalid : validWord w) (fuel : Nat) (name : List Nat) (hf : w.length < fuel)
    (newAlpha : List Nat) (alphaLength reit : Nat) (g : Globals)
    (hcall : Event.call newAlpha alphaLength reit g ∈ mainTrace wrap fuel [name, w]) :
    newAlpha = (w.drop reit).insertionSort (fun a b => a ≤ b) ∧
      newAlpha.Sorted (fun a b => a ≤ b) ∧ newAlpha.Perm (w.drop reit) ∧
      reit ≤ w.length ∧ g.wordLength = w.length ∧ alphaLength = g.wordLength - reit ∧
      alphaLength = newAlpha.length := by
  obtain ⟨hinv, _, hal⟩ := calls_inv wrap w hvalid fuel name hf newAlpha alphaLength reit g hcall
  obtain ⟨a1, a2, a3, a4, _⟩ := hinv
  refine ⟨?_, a3, a4, a2, a1, by rw [a1]; exact hal, ?_⟩
  · exact List.eq_of_perm_of_sorted
      (a4.trans (List.perm_insertionSort (fun a b => a ≤ b) (w.drop reit)).symm) a3
      (List.sorted_insertionSort (fun a b => a ≤ b) (w.drop reit))
  · rw [hal, a4.length_eq, List.length_drop]

/-- The events of the run of the word `BA`. -/
theorem mainTrace_BA : mainTrace u64 3 [[], [66, 65]] =
    [Event.call [65, 66] 2 0 { globalsBA with totalPenalty := 1, peak := 1 },
      Event.table 1, Event.scan 0 2, Event.lookup 26, Event.call [65] 1 1 globalsBA,
      Event.scan 1 1, Event.lookup 26, Event.call [] 0 2 globalsBA, Event.print 2] := by
  rfl

theorem c16_newAlpha_is_sorted_rest_witness :
    validWord [66, 65] ∧ [66, 65].length < 3 ∧
      Event.call [65] 1 1 globalsBA ∈ mainTrace u64 3 [[], [66, 65]] ∧
      ([65] = ([66, 65].drop 1).insertionSort (fun a b => a ≤ b) ∧
        [65].Sorted (fun a b => a ≤ b) ∧ [65].Perm ([66, 65].drop 1) ∧
        1 ≤ [66, 65].length ∧ globalsBA.wordLength = [66, 65].length ∧
        1 = globalsBA.wordLength - 1 ∧ 1 = [65].length) :=
  ⟨by decide, by decide, by rw [mainTrace_BA]; simp,
    c16_newAlpha_is_sorted_rest u64 [66, 65] (by decide) 3 [] (by decide) [65] 1 1 globalsBA
      (by rw [mainTrace_BA]; simp)⟩

theorem factorial_counts_eq (w : List Nat) (i : Nat) (g : Globals) (h : countsInv w i g)
    (k : Nat) (hk : k < 26) :
    (g.counts.getD k 0).factorial = ((w.drop i).count (65 + k)).factorial := by
  rw [h k hk]
  by_cases hm : 65 + k ∈ w
  · rw [if_pos hm]
    exact factorial_eq_of_max _ _ (by simp)
  · rw [if_neg hm, List.count_eq_zero_of_not_mem (fun hh => hm (List.mem_of_mem_drop hh))]

/-- C17: for every valid word, at every call of `wordToNumber` in the run that `main`
starts, the call by `main` included, `counts` has 26 entries that never went below 0; for
a letter that occurs in the word `counts[k]` is the number of its occurrences among the
letters not yet matched, `word[reit..wordLength)`, with 1 in the place of 0, and for any
other letter it is 0; so the product of `counts[k]!` is the product of the factorials of
the remaining multiplicities; and `repeatsTrue` is 1 when some letter not yet matched
occurs more than once, and 0 when none does. -/
theorem c17_counts_track_remaining (wrap : Nat → Nat) (w : List Nat)
    (hvalid : validWord w) (fuel : Nat) (name : List Nat) (hf : w.length < fuel)
    (newAlpha : List Nat) (alphaLength reit : Nat) (g : Globals)
    (hcall : Event.call newAlpha alphaLength reit g ∈ mainTrace wrap fuel [name, w]) :
    g.counts.length = 26 ∧
      (∀ k, k < 26 → g.counts.getD k 0 =
        if 65 + k ∈ w then max 1 ((w.drop reit).count (65 + k)) else 0) ∧
      (∏ k in Finset.range 26, (g.counts.getD k 0).factorial =
        ∏ k in Finset.range 26, ((w.drop reit).count (65 + k)).factorial) ∧
      denomProduct g.counts = repeatProduct (w.drop reit) ∧
      (g.repeatsTrue = 1 ↔ ∃ c, 1 < (w.drop reit).count c) ∧
      (g.repeatsTrue = 0 ↔ ∀ c, (w.drop reit).count c ≤ 1) := by
  obtain ⟨hinv, hcnt, _⟩ := calls_inv wrap w hvalid fuel name hf newAlpha alphaLength reit g hcall
  obtain ⟨r1, r0⟩ := repeatsTrue_iff w reit newAlpha g hinv
  refine ⟨hinv.2.2.2.2.1, hcnt, ?_, denomProduct_counts w reit newAlpha g hinv, r1, r0⟩
  apply Finset.prod_congr rfl
  intro k hk
  exact factorial_counts_eq w reit g hcnt k (Finset.mem_range.1 hk)

/-- The events of the run of the word `AAB`. -/
theorem mainTrace_AAB : mainTrace u64 4 [[], [65, 65, 66]] =
    [Event.call [65, 65, 66] 3 0
        { globalsAAB with counts := 2 :: 1 :: List.replicate 24 0, repeatsTrue := 1 },
      Event.scan 0 1, Event.lookup 1, Event.call [65, 66] 2 1 globalsAAB,
      Event.scan 1 1, Event.lookup 26, Event.call [66] 1 2 globalsAAB,
      Event.scan 2 1, Event.lookup 26, Event.call [] 0 3 globalsAAB, Event.print 1] := by
  rfl

theorem c17_counts_track_remaining_witness :
    validWord [65, 65, 66] ∧ [65, 65, 66].length < 4 ∧
      Event.call [66] 1 2 globalsAAB ∈ mainTrace u64 4 [[], [65, 65, 66]] ∧
      (globalsAAB.counts.length = 26 ∧
        (∀ k, k < 26 → globalsAAB.counts.getD k 0 =
          if 65 + k ∈ [65, 65, 66] then max 1 (([65, 65, 66].drop 2).count (65 + k)) else 0) ∧
        (∏ k in Finset.range 26, (globalsAAB.counts.getD k 0).factorial =
          ∏ k in Finset.range 26, (([65, 65, 66].drop 2).count (65 + k)).factorial) ∧
        denomProduct globalsAAB.counts = repeatProduct ([65, 65, 66].drop 2) ∧
        (globalsAAB.repeatsTrue = 1 ↔ ∃ c, 1 < ([65, 65, 66].drop 2).count c) ∧
        (globalsAAB.repeatsTrue = 0 ↔ ∀ c, ([65, 65, 66].drop 2).count c ≤ 1)) :=
  ⟨by decide, by decide, by rw [mainTrace_AAB]; simp,
    c17_counts_track_remaining u64 [65, 65, 66] (by decide) 4 [] (by decide) [66] 1 2
      globalsAAB (by rw [mainTrace_AAB]; simp)⟩

/-! ## The claim on `checkWord` -/

theorem sum_eq_sum_getD : ∀ l : List Nat, l.sum = ∑ k in Finset.range l.length, l.getD k 0 := by
  intro l
  induction l with
  | nil => simp
  | cons a l ih =>
    rw [List.sum_cons, List.length_cons, Finset.sum_range_succ', ih]
    simp only [List.getD_cons_succ, List.getD_cons_zero]
    omega

/-- C12: for every word of 1 to 25 capital letters, with `wordLength` its length and
`counts` and `alphaWord` zeroed, `checkWord` returns 0; afterwards `counts[k]` is the
number of occurrences of the `k`-th letter in the word, so that the counts sum to
`wordLength`, and `alphaWord` holds `wordLength` letters: the ascending sort of the word,
which is in non-decreasing order and a rearrangement of the word, each letter as often
as in the word. -/
theorem c12_checkWord_counts_and_sorts (w : List Nat) (hvalid : validWord w) (fuel : Nat)
    (hf : w.length < fuel) (g : Globals) (hwl : g.wordLength = w.length)
    (hz : g.counts = List.replicate 26 0) (ha : g.alphaWord = []) :
    ∃ g1, checkWord fuel w g = some (0, g1) ∧ g1.counts.length = 26 ∧
      (∀ k, k < 26 → g1.counts.getD k 0 = w.count (65 + k)) ∧
      g1.counts.sum = g1.wordLength ∧ g1.wordLength = w.length ∧
      g1.alphaWord.length = g1.wordLength ∧
      g1.alphaWord = w.insertionSort (fun a b => a ≤ b) ∧
      g1.alphaWord.Sorted (fun a b => a ≤ b) ∧ g1.alphaWord.Perm w ∧
      ∀ c, g1.alphaWord.count c = w.count c := by
  obtain ⟨_, hl2, hv⟩ := hvalid
  obtain ⟨cs, alpha, hcw, hcl, hcs, hsorted, hperm⟩ :=
    checkWord_eq w (by omega) hv fuel hf g hwl hz ha
  refine ⟨{ g with counts := cs, alphaWord := alpha }, hcw, hcl, hcs, ?_, hwl, ?_, ?_, hsorted,
    hperm, fun c => hperm.count_eq c⟩
  · show cs.sum = g.wordLength
    rw [sum_eq_sum_getD, hcl, hwl, ← sum_count_range w hv]
    apply Finset.sum_congr rfl
    intro k hk
    exact hcs k (Finset.mem_range.1 hk)
  · show alpha.length = g.wordLength
    rw [hwl]
    exact hperm.length_eq
  · exact List.eq_of_perm_of_sorted
      (hperm.trans (List.perm_insertionSort (fun a b => a ≤ b) w).symm) hsorted
      (List.sorted_insertionSort (fun a b => a ≤ b) w)

theorem c12_checkWord_counts_and_sorts_witness :
    validWord [66, 65, 66] ∧ [66, 65, 66].length < 4 ∧
      ({ initGlobals with wordLength := 3 } : Globals).wordLength = [66, 65, 66].length ∧
      ({ initGlobals with wordLength := 3 } : Globals).counts = List.replicate 26 0 ∧
      ({ initGlobals with wordLength := 3 } : Globals).alphaWord = [] ∧
      ∃ g1, checkWord 4 [66, 65, 66] { initGlobals with wordLength := 3 } = some (0, g1) ∧
        g1.counts.length = 26 ∧
        (∀ k, k < 26 → g1.counts.getD k 0 = [66, 65, 66].count (65 + k)) ∧
        g1.counts.sum = g1.wordLength ∧ g1.wordLength = [66, 65, 66].length ∧
        g1.alphaWord.length = g1.wordLength ∧
        g1.alphaWord = [66, 65, 66].insertionSort (fun a b => a ≤ b) ∧
        g1.alphaWord.Sorted (fun a b => a ≤ b) ∧ g1.alphaWord.Perm [66, 65, 66] ∧
        ∀ c, g1.alphaWord.count c = [66, 65, 66].count c :=
  ⟨by decide, by decide, rfl, rfl, rfl,
    c12_checkWord_counts_and_sorts [66, 65, 66] (by decide) 4 (by decide)
      { initGlobals with wordLength := 3 } rfl rfl rfl⟩

/-! ## The claims on the arithmetic of a run -/

/-- C15: for every valid word, with all the arithmetic of `divFactorials` and
`wordToNumber` done over unbounded integers and `extraSum` an exact rational, the program
prints a rank `r`; the final `extraSum` is the sum of the fractions `remain / demSum` of
all the calls of `divFactorials` in the run, and it is a whole number `k`, not negative,
so the truncation at the end discards nothing; the rank printed is `totalPenalty + k`,
which is 1 plus the sum of the exact rational penalties of all the mismatches. -/
theorem c15_fractional_carry_is_whole (w : List Nat) (hvalid : validWord w) (fuel : Nat)
    (name : List Nat) (hf : w.length < fuel) :
    ∃ (r : Nat) (g : Globals) (k : Nat),
      main id fuel [name, w] = some (0, some r, g) ∧
      g.extraSum = ((mainTrace id fuel [name, w]).map fraction).sum ∧
      g.extraSum = (k : ℚ) ∧ Int.toNat (Rat.floor g.extraSum) = k ∧
      r = g.totalPenalty + k ∧
      (r : ℚ) = 1 + ((mainTrace id fuel [name, w]).map exactPenalty).sum := by
  obtain ⟨alpha, g0, hall, hinv, _, hp, ht, he, _⟩ := main_start w hvalid fuel name hf
  obtain ⟨hmain, htr⟩ := hall id
  obtain ⟨gf, k, e1, e2, e3, e4⟩ := trace_sums w hvalid.2.1 w.length fuel 0 alpha g0
    (by omega) hf hinv hp
  rw [he, zero_add] at e2 e3
  rw [ht, he] at e4
  have hfl : Int.toNat (Rat.floor gf.extraSum) = k := by
    rw [e3]
    have : Rat.floor ((k : Nat) : ℚ) = ((k : Nat) : ℤ) := @Int.floor_natCast ℚ _ _ k
    rw [this, Int.toNat_natCast]
  have hr : printedRank id gf = gf.totalPenalty + k := by
    unfold printedRank
    rw [hfl]
    rfl
  refine ⟨printedRank id gf, gf, k, ?_, ?_, e3, hfl, hr, ?_⟩
  · rw [hmain, e1]
  · rw [htr, e2]
    simp [fraction]
  · rw [htr, hr]
    push_cast
    rw [← e3, e4]
    simp [exactPenalty]

theorem c15_fractional_carry_is_whole_witness :
    validWord [66, 65, 65, 66] ∧ [66, 65, 65, 66].length < 5 ∧
      ∃ (r : Nat) (g : Globals) (k : Nat),
        main id 5 [[], [66, 65, 65, 66]] = some (0, some r, g) ∧
        g.extraSum = ((mainTrace id 5 [[], [66, 65, 65, 66]]).map fraction).sum ∧
        g.extraSum = (k : ℚ) ∧ Int.toNat (Rat.floor g.extraSum) = k ∧
        r = g.totalPenalty + k ∧
        (r : ℚ) = 1 + ((mainTrace id 5 [[], [66, 65, 65, 66]]).map exactPenalty).sum :=
  ⟨by decide, by decide,
    c15_fractional_carry_is_whole [66, 65, 65, 66] (by decide) 5 [] (by decide)⟩

/-- C14: for every valid word of at most 20 letters the program with its 64-bit arithmetic
does exactly what it does over unbounded integers: `main` returns the same result and the
same final globals and goes through the same events. In that run every partial product of
`numSum` and of `demSum` in every call of `divFactorials`, taken over unbounded integers,
is below `2 ^ 64`; so is every value that `penalty` or `totalPenalty` takes; and with
`extraSum` an exact rational the final value `totalPenalty + floor(extraSum)` is the rank
of the word among the distinct rearrangements of its letters, which is below `2 ^ 64` and
is the rank printed. -/
theorem c14_no_wrap_up_to_twenty (w : List Nat) (hvalid : validWord w)
    (hlen : w.length ≤ 20) (fuel : Nat) (name : List Nat) (hf : w.length < fuel) :
    ∃ g, main u64 fuel [name, w] = some (0, some (lexRank w), g) ∧
      main id fuel [name, w] = some (0, some (lexRank w), g) ∧
      mainTrace u64 fuel [name, w] = mainTrace id fuel [name, w] ∧
      (∀ n den, Event.divide n den ∈ mainTrace u64 fuel [name, w] →
        (∀ k, k ≤ n → totalUp id (cancelled n den).1 k 0 1 < 2 ^ 64) ∧
        (∀ k, k ≤ denomCount n den → totalUp id (cancelled n den).2 k 0 1 < 2 ^ 64)) ∧
      g.peak < 2 ^ 64 ∧
      g.totalPenalty + Int.toNat (Rat.floor g.extraSum) = lexRank w ∧
      lexRank w < 2 ^ 64 := by
  have hrank := lexRank_lt_of_length w hlen
  obtain ⟨alpha, g0, hall, hinv, hcnt, hp, ht, he, _⟩ := main_start w hvalid fuel name hf
  obtain ⟨hmu, htu⟩ := hall u64
  obtain ⟨hmi, hti⟩ := hall id
  obtain ⟨hloop, htrace⟩ := run_u64_eq_id w hlen w.length fuel 0 alpha g0 (by omega) hf hinv hp
    (by rw [he]) (by
      rw [ht, he, List.drop_zero]
      have : ((lexRank w : Nat) : ℚ) < ((2 ^ 64 : Nat) : ℚ) := by exact_mod_cast hrank
      unfold lexRank at this
      push_cast at this
      norm_num
      linarith)
  obtain ⟨g, hg, hpeak⟩ := main_rank id (fun _ _ => rfl) w hvalid (safeFrom_of_length w hlen)
    hrank fuel name hf
  obtain ⟨gf, e1, _⟩ := trace_counts id w w.length fuel 0 alpha g0 (by omega) hf hinv
  have hsame : (some (0, some (printedRank id gf), gf) : Option (Nat × Option Nat × Globals)) =
      some (0, some (lexRank w), g) := by
    rw [← hg, hmi, e1]
  injection hsame with hsame
  injection hsame with _ hsame
  injection hsame with hr hgf
  injection hr with hr
  have key := trace_forall id w
    (fun e => ∀ n den, e = Event.divide n den →
      (∀ k, k ≤ n → totalUp id (cancelled n den).1 k 0 1 < 2 ^ 64) ∧
      (∀ k, k ≤ denomCount n den → totalUp id (cancelled n den).2 k 0 1 < 2 ^ 64))
    (by intro i a g' _ _ n den h; cases h)
    (by intro i c _ _ _ n den h; cases h)
    (by
      intro i a g' hinv' _ hi n den h
      split_ifs at h
      injection h with h1 h2
      subst h1 h2
      obtain ⟨hN, hD⟩ := products_lt w i a g' hinv' hlen hi
      obtain ⟨⟨_, _, hp1, hp2, _, _⟩, _⟩ := cancelled_inv g'.counts (w.length - i - 1)
        (by omega) (sum_pred_counts w i a g' hinv' (by omega))
      constructor
      · intro k hk
        exact Nat.lt_of_le_of_lt (totalUp_partial_le _ _ hp1 k hk) hN
      · intro k hk
        exact Nat.lt_of_le_of_lt (totalUp_partial_le _ _ hp2 k hk) hD)
    (by intro c _ n den h; cases h)
    (by intro r n den h; cases h)
    w.length fuel 0 alpha g0 (by omega) hf hinv hcnt
  refine ⟨g, ?_, hg, ?_, ?_, by omega, ?_, hrank⟩
  · rw [hmu, hloop, ← hmi]
    exact hg
  · rw [htu, hti, htrace]
  · intro n den hmem
    rw [htu, htrace] at hmem
    rcases List.mem_cons.1 hmem with h | h
    · cases h
    · exact key _ h n den rfl
  · rw [← hgf, ← hr]
    rfl

theorem c14_no_wrap_up_to_twenty_witness :
    validWord [66, 79, 79, 75, 75, 69, 69, 80, 69, 82] ∧
      [66, 79, 79, 75, 75, 69, 69, 80, 69, 82].length ≤ 20 ∧
      [66, 79, 79, 75, 75, 69, 69, 80, 69, 82].length < 11 ∧
      ∃ g, main u64 11 [[], [66, 79, 79, 75, 75, 69, 69, 80, 69, 82]] =
          some (0, some (lexRank [66, 79, 79, 75, 75, 69, 69, 80, 69, 82]), g) ∧
        main id 11 [[], [66, 79, 79, 75, 75, 69, 69, 80, 69, 82]] =
          some (0, some (lexRank [66, 79, 79, 75, 75, 69, 69, 80, 69, 82]), g) ∧
        mainTrace u64 11 [[], [66, 79, 79, 75, 75, 69, 69, 80, 69, 82]] =
          mainTrace id 11 [[], [66, 79, 79, 75, 75, 69, 69, 80, 69, 82]] ∧
        (∀ n den,
          Event.divide n den ∈ mainTrace u64 11 [[], [66, 79, 79, 75, 75, 69, 69, 80, 69, 82]] →
          (∀ k, k ≤ n → totalUp id (cancelled n den).1 k 0 1 < 2 ^ 64) ∧
          (∀ k, k ≤ denomCount n den → totalUp id (cancelled n den).2 k 0 1 < 2 ^ 64)) ∧
        g.peak < 2 ^ 64 ∧
        g.totalPenalty + Int.toNat (Rat.floor g.extraSum) =
          lexRank [66, 79, 79, 75, 75, 69, 69, 80, 69, 82] ∧
        lexRank [66, 79, 79, 75, 75, 69, 69, 80, 69, 82] < 2 ^ 64 :=
  ⟨by decide, by decide, by decide,
    c14_no_wrap_up_to_twenty [66, 79, 79, 75, 75, 69, 69, 80, 69, 82] (by decide) (by decide)
      11 [] (by decide)⟩

/-! ## The claims the program breaks -/

theorem mainTrace_wordA256 (wrap : Nat → Nat) (fuel : Nat) (name : List Nat) :
    mainTrace wrap fuel [name, wordA256] = [] := by
  unfold mainTrace
  have e1 : ¬ ([name, wordA256].length < 2) := by simp
  have e2 : ¬ ([name, wordA256].length > 2) := by simp
  have e3 : [name, wordA256].getD 1 [] = wordA256 := rfl
  rw [if_neg e1, if_neg e2]
  simp only [e3]
  rw [checkWord_wordA256 fuel _ (by
    simp only [length_wordA256]
    rfl)]

/-- C11, failing input: a single word of 256 letters `A`. The claim has `main` return the
error bitmask, here `ERR_TOO_MANY_LETTERS`; but `main` calls `checkWord` also after it has
found the word too long, and the first loop of `checkWord` never ends on this word,
because its counter is an `unsigned char` and `wordLength` is 256: whatever the fuel,
`main` does not return, and `wordToNumber` is not called. -/
theorem c11_long_word_never_returns (fuel : Nat) (name : List Nat) :
    wordA256.length = 256 ∧ (∀ c ∈ wordA256, 65 ≤ c ∧ c ≤ 90) ∧
      main u64 fuel [name, wordA256] = none ∧ mainTrace u64 fuel [name, wordA256] = [] := by
  refine ⟨length_wordA256, ?_, main_wordA256 u64 fuel name, mainTrace_wordA256 u64 fuel name⟩
  intro c hc
  unfold wordA256 at hc
  rw [(List.mem_replicate.1 hc).2]
  omega

set_option maxRecDepth 100000 in
/-- C18, failing input: the word `BAAAC`. Its first mismatch calls
`divFactorials(4, counts)` with the letter `A` counted three times: the numerator factors
are 4, 3, 2, 1 and the denominator factors 3, 2. The loop of the program cancels 2 against
4 and then skips the factor 3, because `i` is incremented before the `break` and again in
the loop header; it leaves the numerator factors 2, 3, 2, 1 and the denominator factors
3, 1. The reference pass visits the factor 3 as well and cancels it: it leaves 2, 1, 2, 1
and 1, 1, whether or not the factors already cancelled are passed over. -/
theorem c18_cancellation_skips_a_factor :
    (mainTrace u64 6 [[], wordBAAAC]).get? 1 =
        some (Event.divide 4 (letterCounts wordBAAAC)) ∧
      cancelled 4 (letterCounts wordBAAAC) =
        (2 :: 3 :: 2 :: 1 :: List.replicate 22 0, 3 :: 1 :: 1 :: List.replicate 23 0) ∧
      referenceCancelled false 4 (letterCounts wordBAAAC) =
        (2 :: 1 :: 2 :: 1 :: List.replicate 22 0, 1 :: 1 :: 1 :: List.replicate 23 0) ∧
      referenceCancelled true 4 (letterCounts wordBAAAC) =
        (2 :: 1 :: 2 :: 1 :: List.replicate 22 0, 1 :: 1 :: 1 :: List.replicate 23 0) ∧
      cancelled 4 (letterCounts wordBAAAC) ≠ referenceCancelled false 4 (letterCounts wordBAAAC) ∧
      cancelled 4 (letterCounts wordBAAAC) ≠ referenceCancelled true 4 (letterCounts wordBAAAC) :=
  ⟨rfl, by decide, by decide, by decide, by decide, by decide⟩

set_option maxRecDepth 100000 in
/-- What the skipped factors cost on the word `BBCEGGGHEBCHGFAADDHHGFFDH`: in the call
`divFactorials(24, counts)` made at its first letter the numerator factors the program
leaves multiply to more than 64 bits hold, those the reference pass leaves, with the
factors already cancelled passed over, do not. -/
theorem wordBBCE_reference_fits :
    2 ^ 64 ≤ numSum id 24 (letterCounts wordBBCE) ∧
      totalUp id (referenceCancelled true 24 (letterCounts wordBBCE)).1 24 0 1 =
        24934429725004800 ∧
      totalUp id (referenceCancelled true 24 (letterCounts wordBBCE)).2
        (denomCount 24 (letterCounts wordBBCE)) 0 1 = 1 := by
  decide

set_option maxRecDepth 100000 in
/-- C20, failing inputs: a single word of 27 letters `A`, and one of 256. `main` finds
either too long and still passes it to `checkWord`. For the 27 letters the second loop of
`checkWord` writes `alphaWord[0]` to `alphaWord[26]`, and `alphaWord` has 26 entries; `main`
then returns `ERR_TOO_MANY_LETTERS`. For the 256 letters the first loop of `checkWord`
never ends, whatever the fuel. -/
theorem c20_checkWord_overruns :
    (main u64 28 [[], wordA27]).map (fun x => (x.1, x.2.1)) =
        some (ERR_TOO_MANY_LETTERS, none) ∧
      checkWordWrites 28 wordA27
          { initGlobals with wordLength := 27, err := 0 ||| ERR_TOO_MANY_LETTERS } =
        some (List.range 27) ∧
      ¬ (∀ i ∈ List.range 27, i < 26) ∧
      ∀ fuel : Nat, checkWord fuel wordA256
          { initGlobals with wordLength := 256, err := 0 ||| ERR_TOO_MANY_LETTERS } = none :=
  ⟨by decide, by decide, by decide, fun fuel => checkWord_wordA256 fuel _ rfl⟩

/-! ## The claim on the accesses of `divFactorials` -/

/-- The arrays right after the explosion satisfy the invariant of the cancellation. -/
theorem explode_cancelInv (den : List Nat) (n : Nat) (hn : n ≤ 26)
    (hsum : ∑ t in Finset.range 26, (den.getD t 0 - 1) ≤ 25) :
    cancelInv n (denomCount n den) n.factorial (denomProduct den)
      (explode den 26 0
        { numerPieces := List.replicate 26 0, denomPieces := List.replicate 26 0,
          numTemp := n, denomTemp := 0 }).numerPieces
      (explode den 26 0
        { numerPieces := List.replicate 26 0, denomPieces := List.replicate 26 0,
          numTemp := n, denomTemp := 0 }).denomPieces ∧ denomCount n den ≤ 25 := by
  have h0 : explodeInv den n 0
      { numerPieces := List.replicate 26 0, denomPieces := List.replicate 26 0,
        numTemp := n, denomTemp := 0 } := by
    refine ⟨by simp, by simp, rfl, ?_, ?_, ?_, ?_⟩
    · intro t ht; omega
    · simp
    · simp [prodUpTo]
    · intro t ht
      simp at ht
  have h := explode_inv den n hsum 26 0 _ (by omega) h0
  rw [show 0 + 26 = 26 from rfl] at h
  obtain ⟨hl1, hl2, _, hnp, hdt, hprod, hpos⟩ := h
  have hdt25 : denomCount n den ≤ 25 := by
    unfold denomCount
    rw [hdt]
    exact hsum
  refine ⟨?_, hdt25⟩
  have hN : prodUpTo (explode den 26 0
      { numerPieces := List.replicate 26 0, denomPieces := List.replicate 26 0,
        numTemp := n, denomTemp := 0 }).numerPieces n = n.factorial := by
    unfold prodUpTo
    rw [← prod_range_sub_self n]
    apply Finset.prod_congr rfl
    intro t ht
    have := Finset.mem_range.1 ht
    exact hnp t (by omega) this
  refine ⟨hl1, hl2, ?_, hpos, ?_, ?_⟩
  · intro t ht
    rw [hnp t (by omega) ht]
    omega
  · rw [hN, denomProduct_eq]
    exact congrArg _ hprod.symm
  · rw [denomProduct_eq]
    exact le_of_eq hprod

/-- C19: for every call `divFactorials(numerator, denominators)` with `numerator` at most
25 and denominators whose entries above 1 sum to at most 25, the run of `divFactorials`
in which every index into `numerPieces` and `denomPieces` is checked to be below 26 and
every divisor is checked to be different from 0 passes all its checks and returns what
`divFactorials` returns. In particular at most 25 denominator factors are written, each
`denomPieces[j]` with `j < denomTemp` is at least 1 after the cancellation as it was
before, and `demSum`, computed modulo `2 ^ 64`, is not 0. -/
theorem c19_divFactorials_in_bounds (n : Nat) (den : List Nat) (g : Globals) (hn : n ≤ 25)
    (hrs : repeatSum den ≤ 25) :
    divFactorialsChecked u64 n den g = some (divFactorials u64 n den g) ∧
      denomCount n den ≤ 25 ∧
      (∀ j, j < denomCount n den → 1 ≤ (cancelled n den).2.getD j 0) ∧
      demSum u64 n den ≠ 0 := by
  have hsum : ∑ t in Finset.range 26, (den.getD t 0 - 1) ≤ 25 :=
    le_trans (sum_pred_le_repeatSum den) hrs
  obtain ⟨hinv0, hdt⟩ := explode_cancelInv den n (by omega) hsum
  obtain ⟨⟨_, _, _, hp2, _, _⟩, _⟩ := cancelled_inv den n (by omega) hsum
  have hds := demSum_u64_ne_zero den n (by omega) hrs
  refine ⟨?_, hdt, hp2, hds⟩
  have hex := explodeChecked_eq den 26 0
    { numerPieces := List.replicate 26 0, denomPieces := List.replicate 26 0,
      numTemp := n, denomTemp := 0 } (by omega) (by
      simp only [Nat.zero_add]
      exact hsum)
  have hco := cancelOuterChecked_eq n (denomCount n den) n.factorial (denomProduct den)
    (by omega) (by omega) n 0 _ _ hinv0
  have ht1 := totalUpChecked_eq u64 (cancelled n den).1 n 0 1 (by omega)
  have ht2 := totalUpChecked_eq u64 (cancelled n den).2 (denomCount n den) 0 1 (by omega)
  unfold divFactorialsChecked
  rw [hex]
  simp only []
  unfold denomCount at hco
  rw [hco]
  simp only []
  unfold cancelled at ht1 ht2
  unfold denomCount at ht2
  simp only [] at ht1 ht2
  rw [ht1, ht2]
  simp only []
  unfold demSum cancelled denomCount at hds
  simp only [] at hds
  rw [if_neg hds]
  rfl

theorem c19_divFactorials_in_bounds_witness :
    4 ≤ 25 ∧ repeatSum (letterCounts wordBAAAC) ≤ 25 ∧
      (divFactorialsChecked u64 4 (letterCounts wordBAAAC) initGlobals =
          some (divFactorials u64 4 (letterCounts wordBAAAC) initGlobals) ∧
        denomCount 4 (letterCounts wordBAAAC) ≤ 25 ∧
        (∀ j, j < denomCount 4 (letterCounts wordBAAAC) →
          1 ≤ (cancelled 4 (letterCounts wordBAAAC)).2.getD j 0) ∧
        demSum u64 4 (letterCounts wordBAAAC) ≠ 0) :=
  ⟨by decide, by decide,
    c19_divFactorials_in_bounds 4 (letterCounts wordBAAAC) initGlobals (by decide) (by decide)⟩

/-! ## The run of a word whose products fit in 64 bits -/

/-- The products of a call of `divFactorials` that fits are below `2 ^ 64`. -/
theorem fits_divide (n : Nat) (den : List Nat) (h : (Event.divide n den).fits = true) :
    numSum id n den < 2 ^ 64 ∧ demSum id n den < 2 ^ 64 := by
  unfold Event.fits at h
  rw [Bool.and_eq_true, decide_eq_true_iff, decide_eq_true_iff] at h
  exact h

/-- When no letter is left twice, the letters not yet matched are distinct. -/
theorem nodup_of_repeatsTrue_zero (w : List Nat) (i : Nat) (alpha : List Nat) (g : Globals)
    (h : rankInv w i alpha g) (h0 : g.repeatsTrue = 0) : (w.drop i).Nodup := by
  have hc := repeatsTrue_zero_counts w i alpha g h h0
  rw [List.nodup_iff_count_le_one]
  intro a
  by_cases ha : a ∈ w.drop i
  · have hv := drop_valid w i h.2.2.2.2.2.2.2 a ha
    have := hc (a - 65) (by omega)
    rw [show 65 + (a - 65) = a by omega] at this
    exact this
  · rw [List.count_eq_zero_of_not_mem ha]
    exact Nat.zero_le _

/-- Under the invariant, the amounts one mismatch adds to `penalty` and `extraSum` add up
to `m! / ∏ r!` when the products of the call of `divFactorials` fit in 64 bits, and the
table is read at an index up to 20. -/
theorem cost_exact_fit (wrap : Nat → Nat) (hw : ∀ x, x < 2 ^ 64 → wrap x = x) (w : List Nat)
    (i : Nat) (alpha : List Nat) (g : Globals) (h : rankInv w i alpha g) (hl : w.length ≤ 25)
    (hfit : (if g.repeatsTrue ≠ 0 then Event.divide (w.length - i - 1) g.counts
      else Event.table (w.length - i - 1)).fits = true)
    (htab : g.repeatsTrue = 0 → w.length - i - 1 ≤ 20) :
    ((costQ wrap (w.length - i - 1) g : ℚ) + costF wrap (w.length - i - 1) g) *
      (repeatProduct (w.drop i) : ℚ) = ((w.length - i - 1).factorial : ℚ) := by
  by_cases h0 : g.repeatsTrue = 0
  · unfold costQ costF
    rw [if_neg (by simpa using h0), if_neg (by simpa using h0),
      repeatProduct_of_repeatsTrue_zero w i alpha g h h0, factorials_getD _ (htab h0)]
    simp
  · rw [if_pos h0] at hfit
    obtain ⟨b1, b2⟩ := fits_divide _ _ hfit
    unfold costQ costF
    rw [if_pos h0, if_pos h0, ← denomProduct_counts w i alpha g h]
    exact divFactorials_quotient wrap (2 ^ 64) hw g.counts _ (by omega)
      (sum_pred_counts w i alpha g h hl) b1 b2

/-- The penalties charged at one position add up to the number of rearrangements of the
remaining letters that start with a smaller letter, when that number is below `2 ^ 64`
and the products of the calls of `divFactorials` fit in 64 bits. -/
theorem mismatch_total_fit (wrap : Nat → Nat) (hw : ∀ x, x < 2 ^ 64 → wrap x = x)
    (w : List Nat) (i : Nat) (alpha : List Nat) (g : Globals) (h : rankInv w i alpha g)
    (hl : w.length ≤ 25) (hi : i < w.length)
    (hb : smallerFirst (w.drop i) (w.getD i 0) < 2 ^ 64)
    (hfit : alpha.indexOf (w.getD i 0) ≠ 0 →
      (if g.repeatsTrue ≠ 0 then Event.divide (w.length - i - 1) g.counts
        else Event.table (w.length - i - 1)).fits = true) :
    ((alpha.indexOf (w.getD i 0) : Nat) : ℚ) *
        ((costQ wrap (w.length - i - 1) g : ℚ) + costF wrap (w.length - i - 1) g) =
      (smallerFirst (w.drop i) (w.getD i 0) : ℚ) := by
  have hR : (repeatProduct (w.drop i) : ℚ) ≠ 0 := by
    exact_mod_cast Nat.pos_iff_ne_zero.1 (repeatProduct_pos _)
  have hsm := smallerFirst_mul (w.drop i) (w.getD i 0)
  rw [← indexOf_alpha w i alpha g h hi, List.length_drop] at hsm
  have hsm' : (smallerFirst (w.drop i) (w.getD i 0) : ℚ) * (repeatProduct (w.drop i) : ℚ) =
      ((alpha.indexOf (w.getD i 0) : Nat) : ℚ) * ((w.length - i - 1).factorial : ℚ) := by
    exact_mod_cast hsm
  apply mul_right_cancel₀ hR
  rw [hsm']
  by_cases h0 : alpha.indexOf (w.getD i 0) = 0
  · rw [h0]; simp
  · have hex : ∃ b ∈ w.drop (i + 1), b < w.getD i 0 := by
      have h0' := h0
      rw [indexOf_alpha w i alpha g h hi] at h0'
      have hne : (w.drop i).filter (fun b => b < w.getD i 0) ≠ [] := by
        intro e; rw [e] at h0'; exact h0' rfl
      obtain ⟨b, hb⟩ := List.exists_mem_of_ne_nil _ hne
      rw [List.mem_filter] at hb
      have hlt : b < w.getD i 0 := by simpa using hb.2
      have hb1 := hb.1
      rw [drop_eq_getD_cons w i hi] at hb1
      rcases List.mem_cons.1 hb1 with e | e
      · omega
      · exact ⟨b, e, hlt⟩
    have htab : g.repeatsTrue = 0 → w.length - i - 1 ≤ 20 := by
      intro hr
      have hn := nodup_of_repeatsTrue_zero w i alpha g h hr
      rw [drop_eq_getD_cons w i hi] at hn hb
      have hge := smallerFirst_ge (w.getD i 0) (w.drop (i + 1)) hn hex
      rw [List.length_drop] at hge
      by_contra hgt
      have h21 : Nat.factorial 21 ≤ (w.length - (i + 1)).factorial :=
        Nat.factorial_le (by omega)
      have := factorial_twentyone_ge
      omega
    rw [mul_assoc, cost_exact_fit wrap hw w i alpha g h hl (hfit h0) htab]

/-- From a state that satisfies the invariant, `wordToNumber` runs to its end, and the
sum of `totalPenalty` and `extraSum` grows by the number of rearrangements of the
remaining letters that are below the rest of the word: whenever that number leaves the
sum below `2 ^ 64` and the products of every call of `divFactorials` fit in 64 bits. -/
theorem run_loop_fit (wrap : Nat → Nat) (hw : ∀ x, x < 2 ^ 64 → wrap x = x) (w : List Nat)
    (hl : w.length ≤ 25) :
    ∀ (d fuel i : Nat) (alpha : List Nat) (g : Globals),
      w.length - i = d → d < fuel → rankInv w i alpha g →
      (∀ e ∈ wordToNumberTrace wrap w fuel alpha alpha.length i i g, e.fits = true) →
      g.penalty = 0 → 0 ≤ g.extraSum → g.totalPenalty + countBelow (w.drop i) < 2 ^ 64 →
      ∃ gf, wordToNumberLoop wrap w fuel alpha alpha.length i i g =
          some (printedRank wrap gf, gf) ∧
        (gf.totalPenalty : ℚ) + gf.extraSum =
          (g.totalPenalty : ℚ) + g.extraSum + (countBelow (w.drop i) : ℚ) ∧
        0 ≤ gf.extraSum ∧ gf.peak ≤ max g.peak (g.totalPenalty + countBelow (w.drop i)) := by
  intro d
  induction d with
  | zero =>
    intro fuel i alpha g hd hf hinv _ _ he _
    cases fuel with
    | zero => omega
    | succ f =>
      have hi : ¬ i < g.wordLength := by rw [hinv.1]; omega
      have hdrop : w.drop i = [] := List.drop_eq_nil_of_le (by omega)
      refine ⟨g, wordToNumberLoop_done wrap w f alpha _ i i g hi, ?_, he, le_max_left _ _⟩
      rw [hdrop, countBelow_nil]
      simp
  | succ d ih =>
    intro fuel i alpha g hd hf hinv hfit hp he hb
    cases fuel with
    | zero => omega
    | succ f =>
      have hi : i < w.length := by omega
      have hdrop := drop_eq_getD_cons w i hi
      have hcb : countBelow (w.drop i) =
          smallerFirst (w.drop i) (w.getD i 0) + countBelow (w.drop (i + 1)) := by
        have := countBelow_cons (w.getD i 0) (w.drop (i + 1))
        rw [← hdrop] at this
        exact this
      rw [wordToNumberTrace_step wrap w f i alpha g hinv hi] at hfit
      have htot := mismatch_total_fit wrap hw w i alpha g hinv hl hi (by omega) (by
        intro h0
        apply hfit
        apply List.mem_append_left
        apply List.mem_append_left
        exact List.mem_replicate.2 ⟨h0, rfl⟩)
      have hf0 := costF_nonneg wrap (w.length - i - 1) g
      have hqle : alpha.indexOf (w.getD i 0) * costQ wrap (w.length - i - 1) g ≤
          smallerFirst (w.drop i) (w.getD i 0) := by
        have h1 : ((alpha.indexOf (w.getD i 0) * costQ wrap (w.length - i - 1) g : Nat) : ℚ) ≤
            (smallerFirst (w.drop i) (w.getD i 0) : ℚ) := by
          rw [← htot]
          push_cast
          have : (0 : ℚ) ≤ ((alpha.indexOf (w.getD i 0) : Nat) : ℚ) *
              costF wrap (w.length - i - 1) g :=
            mul_nonneg (Nat.cast_nonneg _) hf0
          linarith
        exact_mod_cast h1
      obtain ⟨i1, i2, i3, i4, i5, i6, i7⟩ := addPenalty_iterate wrap (2 ^ 64) hw w i g
        (alpha.indexOf (w.getD i 0)) (by omega)
      obtain ⟨m1, m2, m3, m4, m5, m6, m7⟩ := matchStep_fields wrap (w.getD i 0)
        ((addPenalty wrap w i)^[alpha.indexOf (w.getD i 0)] g)
      rw [i1, i7, hp, Nat.zero_add, hw _ (by omega)] at m3 m5
      have hinv1 := rankInv_congr w i alpha g _ hinv i6 i4 i5
      have hinv3 := rankInv_step w i alpha _ _ hinv1 hi m1 m6 m7
      obtain ⟨gf, e1, e2, e3, e4⟩ := ih f (i + 1) (alpha.erase (w.getD i 0)) _
        (by omega) (by omega) hinv3
        (by
          intro e hmem
          apply hfit
          apply List.mem_append_right
          exact List.mem_cons_of_mem _ (List.mem_cons_of_mem _ hmem))
        m2
        (by rw [m4, i2]; exact add_nonneg he (mul_nonneg (Nat.cast_nonneg _) hf0))
        (by rw [m3]; omega)
      refine ⟨gf, ?_, ?_, e3, ?_⟩
      · rw [wordToNumberLoop_step wrap w f i alpha g hinv hi]
        exact e1
      · rw [e2, m3, m4, i2, hcb]
        push_cast
        rw [← htot]
        ring
      · rw [m3, m5] at e4
        have := i3
        rw [hp, Nat.zero_add] at this
        omega

/-- The program prints the rank of every valid word whose rank is below `2 ^ 64` and in
whose run the products of every call of `divFactorials` fit in 64 bits; the accumulators
never exceed the rank, and `totalPenalty` and the exact `extraSum` add up to it. -/
theorem main_rank_fit (wrap : Nat → Nat) (hw : ∀ x, x < 2 ^ 64 → wrap x = x) (w : List Nat)
    (hvalid : validWord w) (hb : lexRank w < 2 ^ 64)
    (fuel : Nat) (name : List Nat) (hf : w.length < fuel)
    (hfit : ∀ e ∈ mainTrace wrap fuel [name, w], e.fits = true) :
    ∃ g, main wrap fuel [name, w] = some (0, some (lexRank w), g) ∧ g.peak ≤ lexRank w ∧
      (g.totalPenalty : ℚ) + g.extraSum = (lexRank w : ℚ) ∧ 0 ≤ g.extraSum := by
  obtain ⟨alpha, g0, hall, hinv, _, hp, ht, he, hk⟩ := main_start w hvalid fuel name hf
  obtain ⟨hmain, htrace⟩ := hall wrap
  rw [htrace] at hfit
  obtain ⟨gf, e1, e2, e3, e4⟩ := run_loop_fit wrap hw w hvalid.2.1 w.length fuel 0 alpha g0
    (by omega) hf hinv (fun e hmem => hfit e (List.mem_cons_of_mem _ hmem)) hp
    (by rw [he]) (by
      rw [ht]
      show 1 + countBelow (w.drop 0) < 2 ^ 64
      simpa [lexRank] using hb)
  have hdrop : w.drop 0 = w := rfl
  rw [hdrop, ht, he] at e2
  rw [hdrop, ht, hk] at e4
  have hsum : (gf.totalPenalty : ℚ) + gf.extraSum = (lexRank w : ℚ) := by
    rw [e2]
    unfold lexRank
    push_cast
    ring
  refine ⟨gf, ?_, ?_, hsum, e3⟩
  · rw [hmain, e1, printedRank_eq wrap hw gf (lexRank w) hb e3 hsum]
  · unfold lexRank
    omega

/-- A mismatch is charged only when a letter not yet matched is below the letter of the
word. -/
theorem exists_smaller_of_indexOf (w : List Nat) (i : Nat) (alpha : List Nat) (g : Globals)
    (h : rankInv w i alpha g) (hi : i < w.length) (h0 : alpha.indexOf (w.getD i 0) ≠ 0) :
    ∃ b ∈ w.drop (i + 1), b < w.getD i 0 := by
  rw [indexOf_alpha w i alpha g h hi] at h0
  have hne : (w.drop i).filter (fun b => b < w.getD i 0) ≠ [] := by
    intro e; rw [e] at h0; exact h0 rfl
  obtain ⟨b, hb⟩ := List.exists_mem_of_ne_nil _ hne
  rw [List.mem_filter] at hb
  have hlt : b < w.getD i 0 := by simpa using hb.2
  have hb1 := hb.1
  rw [drop_eq_getD_cons w i hi] at hb1
  rcases List.mem_cons.1 hb1 with e | e
  · omega
  · exact ⟨b, e, hlt⟩

/-- Every event of a run from a state that satisfies the invariant has the property `P`,
as soon as `P` holds of the calls, scans, lookups and printings that the invariant allows,
and of the mismatch at every position where a letter not yet matched is below the letter
of the word. -/
theorem trace_forall_mismatch (wrap : Nat → Nat) (w : List Nat) (P : Event → Prop)
    (hcall : ∀ i alpha g, rankInv w i alpha g → countsInv w i g →
      P (Event.call alpha (w.length - i) i g))
    (hscan : ∀ i c, i < w.length → 1 ≤ c → c ≤ w.length - i → P (Event.scan i c))
    (hmis : ∀ i alpha g, rankInv w i alpha g → countsInv w i g → i < w.length →
      (∃ b ∈ w.drop (i + 1), b < w.getD i 0) →
      P (if g.repeatsTrue ≠ 0 then Event.divide (w.length - i - 1) g.counts
        else Event.table (w.length - i - 1)))
    (hlook : ∀ c, c ≤ 26 → P (Event.lookup c))
    (hprint : ∀ r, P (Event.print r)) :
    ∀ (d fuel i : Nat) (alpha : List Nat) (g : Globals),
      w.length - i = d → d < fuel → rankInv w i alpha g → countsInv w i g →
      ∀ e ∈ wordToNumberTrace wrap w fuel alpha alpha.length i i g, P e := by
  intro d
  induction d with
  | zero =>
    intro fuel i alpha g hd hf hinv _ e he
    cases fuel with
    | zero => omega
    | succ f =>
      have hi : ¬ i < g.wordLength := by rw [hinv.1]; omega
      rw [wordToNumberTrace, if_neg hi, List.mem_singleton] at he
      rw [he]
      exact hprint _
  | succ d ih =>
    intro fuel i alpha g hd hf hinv hcnt e he
    cases fuel with
    | zero => omega
    | succ f =>
      have hi : i < w.length := by omega
      have hmem := mem_alpha_of_inv w i alpha g hinv hi
      have hj0 : alpha.indexOf (w.getD i 0) < alpha.length := indexOf_lt_of_mem _ _ hmem
      have hal : alpha.length = w.length - i := by
        rw [hinv.2.2.2.1.length_eq, List.length_drop]
      obtain ⟨s1, s2⟩ := step_inv wrap w i alpha g hinv hcnt hi
      rw [wordToNumberTrace_step wrap w f i alpha g hinv hi] at he
      rcases List.mem_append.1 he with he | he
      · rcases List.mem_append.1 he with he | he
        · rw [(List.mem_replicate.1 he).2]
          exact hmis i alpha g hinv hcnt hi
            (exists_smaller_of_indexOf w i alpha g hinv hi (List.mem_replicate.1 he).1)
        · rw [List.mem_singleton.1 he]
          exact hscan i _ hi (by omega) (by omega)
      · rcases List.mem_cons.1 he with he | he
        · rw [he]
          exact hlook _ (decrementCountCompares_le _ 26 0 _)
        · rcases List.mem_cons.1 he with he | he
          · rw [he]
            have hl : (alpha.erase (w.getD i 0)).length = w.length - (i + 1) := by
              rw [s1.2.2.2.1.length_eq, List.length_drop]
            rw [hl]
            exact hcall _ _ _ s1 s2
          · exact ih f (i + 1) _ _ (by omega) (by omega) s1 s2 e he

/-- In the run of a valid word every event fits as soon as the mismatch does at every
position where a letter not yet matched is below the letter of the word. -/
theorem fits_of_mismatch (wrap : Nat → Nat) (w : List Nat) (hvalid : validWord w)
    (fuel : Nat) (name : List Nat) (hf : w.length < fuel)
    (hmis : ∀ i alpha g, rankInv w i alpha g → i < w.length →
      (∃ b ∈ w.drop (i + 1), b < w.getD i 0) → g.repeatsTrue ≠ 0 →
      (Event.divide (w.length - i - 1) g.counts).fits = true) :
    ∀ e ∈ mainTrace wrap fuel [name, w], e.fits = true := by
  obtain ⟨alpha, g0, hall, hinv, hcnt, _⟩ := main_start w hvalid fuel name hf
  rw [(hall wrap).2]
  intro e he
  rcases List.mem_cons.1 he with he | he
  · rw [he]; rfl
  · refine trace_forall_mismatch wrap w (fun e => e.fits = true) (fun _ _ _ _ _ => rfl)
      (fun _ _ _ _ _ => rfl) ?_ (fun _ _ => rfl) (fun _ => rfl) w.length fuel 0 alpha g0
      (by omega) hf hinv hcnt e he
    intro i al g h1 _ hi hex
    by_cases hr : g.repeatsTrue ≠ 0
    · rw [if_pos hr]
      exact hmis i al g h1 hi hex hr
    · rw [if_neg hr]
      rfl

/-- In the run of a valid word of at most 20 letters the products of every call of
`divFactorials` fit in 64 bits. -/
theorem fits_of_length (wrap : Nat → Nat) (w : List Nat) (hvalid : validWord w)
    (hl : w.length ≤ 20) (fuel : Nat) (name : List Nat) (hf : w.length < fuel) :
    ∀ e ∈ mainTrace wrap fuel [name, w], e.fits = true := by
  apply fits_of_mismatch wrap w hvalid fuel name hf
  intro i al g h1 hi _ _
  obtain ⟨b1, b2⟩ := products_lt w i al g h1 hl hi
  unfold Event.fits
  rw [Bool.and_eq_true, decide_eq_true_iff, decide_eq_true_iff]
  exact ⟨b1, b2⟩

/-- The run of a valid word of distinct letters never calls `divFactorials`. -/
theorem fits_of_nodup (wrap : Nat → Nat) (w : List Nat) (hvalid : validWord w)
    (hn : w.Nodup) (fuel : Nat) (name : List Nat) (hf : w.length < fuel) :
    ∀ e ∈ mainTrace wrap fuel [name, w], e.fits = true := by
  apply fits_of_mismatch wrap w hvalid fuel name hf
  intro i al g h1 _ _ hr
  exact absurd (repeatsTrue_zero_of_nodup w i al g h1
    (List.Nodup.sublist (List.drop_sublist i w) hn)) hr

/-- The run of a valid word in ascending order charges no penalty. -/
theorem fits_of_sorted (wrap : Nat → Nat) (w : List Nat) (hvalid : validWord w)
    (hs : w.Sorted (fun a b => a ≤ b)) (fuel : Nat) (name : List Nat) (hf : w.length < fuel) :
    ∀ e ∈ mainTrace wrap fuel [name, w], e.fits = true := by
  apply fits_of_mismatch wrap w hvalid fuel name hf
  intro i al g _ hi hex _
  exfalso
  obtain ⟨b, hb, hlt⟩ := hex
  have hsd : (w.drop i).Sorted (fun a b => a ≤ b) :=
    List.Pairwise.sublist (List.drop_sublist i w) hs
  rw [drop_eq_getD_cons w i hi, List.sorted_cons] at hsd
  have := hsd.1 b hb
  omega

/-! ## The rounding error of the floating-point arithmetic -/

/-- Rounding to the nearest integer moves a number by at most one half. -/
theorem roundHalfEven_near (m : ℚ) : |((roundHalfEven m : ℤ) : ℚ) - m| ≤ 1 / 2 := by
  have h1 := Int.floor_le m
  have h2 := Int.lt_floor_add_one m
  unfold roundHalfEven
  split_ifs <;> rw [abs_le] <;> constructor <;> push_cast <;> linarith

/-- A number less than one half away from an integer is rounded to that integer. -/
theorem roundHalfEven_eq (m : ℚ) (n : ℤ) (h : |m - (n : ℚ)| < 1 / 2) : roundHalfEven m = n := by
  rw [abs_lt] at h
  by_cases hm : (n : ℚ) ≤ m
  · have hfl : ⌊m⌋ = n := Int.floor_eq_iff.2 ⟨hm, by linarith⟩
    unfold roundHalfEven
    rw [hfl, if_pos (by linarith)]
  · have hfl : ⌊m⌋ = n - 1 := Int.floor_eq_iff.2 ⟨by push_cast; linarith, by push_cast; linarith⟩
    unfold roundHalfEven
    rw [hfl, if_neg (by push_cast; linarith), if_pos (by push_cast; linarith)]
    ring

theorem roundHalfEven_nonneg (m : ℚ) (hm : 0 ≤ m) : 0 ≤ roundHalfEven m := by
  have h1 : 0 ≤ ⌊m⌋ := Int.floor_nonneg.2 hm
  unfold roundHalfEven
  split_ifs <;> omega

/-- Rounding keeps a number that is not negative so. -/
theorem roundNearest_nonneg (p : Nat) (x : ℚ) (hx : 0 ≤ x) : 0 ≤ roundNearest p x := by
  unfold roundNearest
  by_cases h0 : x = 0
  · rw [if_pos h0]
  · rw [if_neg h0, if_neg (not_lt.2 hx), one_mul]
    apply mul_nonneg
    · exact_mod_cast roundHalfEven_nonneg _ (div_nonneg (abs_nonneg _) (le_of_lt (zpow_pos (by norm_num) _)))
    · exact le_of_lt (zpow_pos (by norm_num) _)

/-- The relative error of rounding to `p` bits is at most `2 ^ (-p)`. -/
theorem roundNearest_error (p : Nat) (x : ℚ) (hx : 0 ≤ x) :
    |roundNearest p x - x| ≤ x / 2 ^ p := by
  unfold roundNearest
  by_cases h0 : x = 0
  · rw [if_pos h0, h0]
    simp
  · have hpos : 0 < x := lt_of_le_of_ne hx (Ne.symm h0)
    rw [if_neg h0, if_neg (not_lt.2 hx), one_mul, abs_of_pos hpos]
    have hu : (0 : ℚ) < (2 : ℚ) ^ (Int.log 2 x - (p : ℤ) + 1) := zpow_pos (by norm_num) _
    have hlog : (2 : ℚ) ^ Int.log 2 x ≤ x := by
      have := Int.zpow_log_le_self (b := 2) (by norm_num) hpos
      exact_mod_cast this
    have hueq : (2 : ℚ) ^ (Int.log 2 x - (p : ℤ) + 1) * 2 ^ p = 2 ^ Int.log 2 x * 2 := by
      rw [← zpow_natCast (2 : ℚ) p, ← zpow_add₀ (by norm_num : (2 : ℚ) ≠ 0),
        ← zpow_add_one₀ (by norm_num : (2 : ℚ) ≠ 0)]
      congr 1
      ring
    have hr := roundHalfEven_near (x / (2 : ℚ) ^ (Int.log 2 x - (p : ℤ) + 1))
    generalize (2 : ℚ) ^ (Int.log 2 x - (p : ℤ) + 1) = u at hu hueq hr ⊢
    generalize ((roundHalfEven (x / u) : ℤ) : ℚ) = r at hr ⊢
    have h2p : (0 : ℚ) < 2 ^ p := pow_pos (by norm_num) p
    have hux : u / 2 ≤ x / 2 ^ p := by
      rw [le_div_iff₀ h2p]
      have : u / 2 * 2 ^ p = (u * 2 ^ p) / 2 := by ring
      rw [this, hueq]
      linarith
    have hre : r * u - x = (r - x / u) * u := by
      field_simp
    rw [hre, abs_mul, abs_of_pos hu]
    calc |r - x / u| * u ≤ 1 / 2 * u := mul_le_mul_of_nonneg_right hr (le_of_lt hu)
      _ = u / 2 := by ring
      _ ≤ x / 2 ^ p := hux

/-- A number within `2 ^ (-30)` of a natural number between 1 and 1000 is converted to
that number by `(float)`. -/
theorem toFloat_near_natural (k : Nat) (hk1 : 1 ≤ k) (hk2 : k ≤ 1000) (y : ℚ)
    (hy : |y - (k : ℚ)| ≤ 1 / 2 ^ 30) : toFloat y = (k : ℚ) := by
  rw [abs_le] at hy
  have hk1' : (1 : ℚ) ≤ (k : ℚ) := by exact_mod_cast hk1
  have hk2' : (k : ℚ) ≤ 1000 := by exact_mod_cast hk2
  have hpos : 0 < y := by linarith [hy.1]
  have hlo : -1 ≤ Int.log 2 y := by
    rw [← Int.zpow_le_iff_le_log (by norm_num) hpos]
    norm_num
    linarith [hy.1]
  have hhi : Int.log 2 y < 10 := by
    rw [← Int.lt_zpow_iff_log_lt (by norm_num) hpos]
    norm_num
    linarith [hy.2]
  unfold toFloat roundNearest
  rw [if_neg (ne_of_gt hpos), if_neg (not_lt.2 (le_of_lt hpos)), one_mul, abs_of_pos hpos]
  generalize Int.log 2 y = e at hlo hhi
  have ht : ((23 - e).toNat : ℤ) = 23 - e := Int.toNat_of_nonneg (by omega)
  generalize (23 - e).toNat = t at ht
  have he : e - ((24 : Nat) : ℤ) + 1 = -(t : ℤ) := by push_cast; omega
  have ht24 : t ≤ 24 := by omega
  rw [he, zpow_neg, zpow_natCast]
  have h2t : (0 : ℚ) < 2 ^ t := pow_pos (by norm_num) t
  have h2t24 : (2 : ℚ) ^ t ≤ 2 ^ 24 := pow_le_pow_right₀ (by norm_num) ht24
  have key : roundHalfEven (y / ((2 : ℚ) ^ t)⁻¹) = (k : ℤ) * 2 ^ t := by
    apply roundHalfEven_eq
    push_cast
    rw [div_inv_eq_mul, ← sub_mul, abs_mul, abs_of_pos h2t]
    have habs : |y - (k : ℚ)| ≤ 1 / 2 ^ 30 := abs_le.2 hy
    calc |y - (k : ℚ)| * 2 ^ t ≤ 1 / 2 ^ 30 * 2 ^ 24 :=
          mul_le_mul habs h2t24 (le_of_lt h2t) (by norm_num)
      _ < 1 / 2 := by norm_num
  rw [key]
  push_cast
  field_simp

/-- The error of a rounded quotient of two rounded numbers: for `0 < r ≤ d` and a
relative error `U ≤ 1 / 8` in each of the three roundings, the result is within `8 * U`
of `r / d`. -/
theorem div_round_error (r d a b c U : ℚ) (hr : 0 < r) (hrd : r ≤ d) (hU : 0 < U)
    (hU8 : U ≤ 1 / 8) (ha : |a - r| ≤ r * U) (hb : |b - d| ≤ d * U)
    (hc : |c - a / b| ≤ a / b * U) : |c - r / d| ≤ 8 * U ∧ 0 ≤ c := by
  rw [abs_le] at ha hb hc
  have hd : 0 < d := lt_of_lt_of_le hr hrd
  have hq0 : 0 < r / d := div_pos hr hd
  have hq1 : r / d ≤ 1 := (div_le_one hd).2 hrd
  have hqd : r / d * d = r := div_mul_cancel₀ r (ne_of_gt hd)
  have hbpos : 0 < b := by nlinarith [hb.1]
  have ha0 : 0 ≤ a := by nlinarith [ha.1]
  have hup : a / b ≤ r / d * (1 + 3 * U) := by
    rw [div_le_iff₀ hbpos]
    have h1 : r / d * (1 + 3 * U) * (d * (1 - U)) ≤ r / d * (1 + 3 * U) * b :=
      mul_le_mul_of_nonneg_left (by linarith [hb.1]) (by positivity)
    have h2 : r / d * (1 + 3 * U) * (d * (1 - U)) = r * ((1 + 3 * U) * (1 - U)) := by
      have : r / d * (1 + 3 * U) * (d * (1 - U)) = r / d * d * ((1 + 3 * U) * (1 - U)) := by
        ring
      rw [this, hqd]
    have h3 : r * (1 + U) ≤ r * ((1 + 3 * U) * (1 - U)) :=
      mul_le_mul_of_nonneg_left (by nlinarith) (le_of_lt hr)
    linarith [ha.2]
  have hlo : r / d * (1 - 2 * U) ≤ a / b := by
    rw [le_div_iff₀ hbpos]
    have h1 : r / d * (1 - 2 * U) * b ≤ r / d * (1 - 2 * U) * (d * (1 + U)) :=
      mul_le_mul_of_nonneg_left (by linarith [hb.2])
        (mul_nonneg (le_of_lt hq0) (by linarith))
    have h2 : r / d * (1 - 2 * U) * (d * (1 + U)) = r * ((1 - 2 * U) * (1 + U)) := by
      have : r / d * (1 - 2 * U) * (d * (1 + U)) = r / d * d * ((1 - 2 * U) * (1 + U)) := by
        ring
      rw [this, hqd]
    have h3 : r * ((1 - 2 * U) * (1 + U)) ≤ r * (1 - U) :=
      mul_le_mul_of_nonneg_left (by nlinarith) (le_of_lt hr)
    linarith [ha.1]
  have hab0 : 0 ≤ a / b := div_nonneg ha0 (le_of_lt hbpos)
  have hab2 : a / b ≤ 2 := by nlinarith
  refine ⟨?_, by nlinarith [hc.1]⟩
  rw [abs_le]
  constructor
  · nlinarith [hc.1]
  · nlinarith [hc.2]

/-- The fraction that `divFactorials` adds to `extraSum` is below 1. -/
theorem exBit_lt_one (wrap : Nat → Nat) (n : Nat) (den : List Nat)
    (hd : demSum wrap n den ≠ 0) : exBit wrap n den < 1 := by
  unfold exBit
  split_ifs with h
  · have hpos : 0 < demSum wrap n den := Nat.pos_of_ne_zero hd
    rw [div_lt_one (by exact_mod_cast hpos)]
    exact_mod_cast Nat.mod_lt _ hpos
  · norm_num

/-- The value `exBit` in `double` arithmetic is within `2 ^ (-50)` of the exact
fraction. -/
theorem exBitDouble_error (wrap : Nat → Nat) (n : Nat) (den : List Nat)
    (hd : demSum wrap n den ≠ 0) :
    |exBitDouble wrap n den - exBit wrap n den| ≤ 8 / 2 ^ 53 ∧ 0 ≤ exBitDouble wrap n den := by
  unfold exBitDouble exBit
  split_ifs with h
  · have hpos : 0 < demSum wrap n den := Nat.pos_of_ne_zero hd
    have hrpos : 0 < numSum wrap n den % demSum wrap n den := Nat.pos_of_ne_zero h
    have hle : ((numSum wrap n den % demSum wrap n den : Nat) : ℚ) ≤
        ((demSum wrap n den : Nat) : ℚ) := by
      exact_mod_cast le_of_lt (Nat.mod_lt _ hpos)
    have hr0 : (0 : ℚ) < ((numSum wrap n den % demSum wrap n den : Nat) : ℚ) := by
      exact_mod_cast hrpos
    have hd0 : (0 : ℚ) < ((demSum wrap n den : Nat) : ℚ) := by exact_mod_cast hpos
    have e1 := roundNearest_error 53 _ (le_of_lt hr0)
    have e2 := roundNearest_error 53 _ (le_of_lt hd0)
    have n1 := roundNearest_nonneg 53 _ (le_of_lt hr0)
    have n2 := roundNearest_nonneg 53 _ (le_of_lt hd0)
    have e3 := roundNearest_error 53
      (toDouble ((numSum wrap n den % demSum wrap n den : Nat) : ℚ) /
        toDouble ((demSum wrap n den : Nat) : ℚ)) (div_nonneg n1 n2)
    have := div_round_error _ _ _ _ _ (1 / 2 ^ 53) hr0 hle (by norm_num)
      (by norm_num) (by rw [mul_one_div]; exact e1) (by rw [mul_one_div]; exact e2)
      (by rw [mul_one_div]; exact e3)
    unfold toDouble
    unfold toDouble at this
    constructor
    · calc _ ≤ 8 * (1 / 2 ^ 53 : ℚ) := this.1
        _ = 8 / 2 ^ 53 := by ring
    · exact this.2
  · norm_num

/-- The `double` variable `extraSum` stays within `2 ^ (-32)` of the exact sum of the
fractions, over up to 1000 calls of `divFactorials`. -/
theorem extraSumDouble_error (wrap : Nat → Nat) :
    ∀ (es : List Event) (n : Nat) (sd s : ℚ),
      (∀ e ∈ es, ∀ m den, e = Event.divide m den → demSum wrap m den ≠ 0) →
      n + (es.filter Event.isDivide).length ≤ 1000 →
      0 ≤ sd → 0 ≤ s → s ≤ (n : ℚ) → |sd - s| ≤ (n : ℚ) / 2 ^ 42 →
      |extraSumDouble wrap es sd - (s + (es.map (fractionOf wrap)).sum)| ≤ 1000 / 2 ^ 42 ∧
        0 ≤ extraSumDouble wrap es sd ∧ s + (es.map (fractionOf wrap)).sum ≤ 1000 := by
  intro es
  induction es with
  | nil =>
    intro n sd s _ hn h1 _ h3 h4
    have hn' : (n : ℚ) ≤ 1000 := by
      have : n ≤ 1000 := by simpa using hn
      exact_mod_cast this
    simp only [extraSumDouble, List.map_nil, List.sum_nil, add_zero]
    refine ⟨?_, h1, le_trans h3 hn'⟩
    calc |sd - s| ≤ (n : ℚ) / 2 ^ 42 := h4
      _ ≤ 1000 / 2 ^ 42 := by
        apply div_le_div_of_nonneg_right hn' (by norm_num)
  | cons e es ih =>
    intro n sd s hok hn h1 h2 h3 h4
    have hok' : ∀ e' ∈ es, ∀ m den, e' = Event.divide m den → demSum wrap m den ≠ 0 :=
      fun e' he' => hok e' (List.mem_cons_of_mem _ he')
    cases e with
    | divide m den =>
      have hd := hok _ (List.mem_cons_self _ _) m den rfl
      obtain ⟨x1, x2⟩ := exBitDouble_error wrap m den hd
      have x3 := exBit_nonneg wrap m den
      have x4 := exBit_lt_one wrap m den hd
      have hcount : n + 1 + (es.filter Event.isDivide).length ≤ 1000 := by
        simp only [List.filter, Event.isDivide, List.length_cons] at hn
        omega
      have hn' : (n : ℚ) + 1 ≤ 1000 := by
        have : n + 1 ≤ 1000 := by omega
        exact_mod_cast this
      rw [abs_le] at x1 h4
      have hsum0 : 0 ≤ sd + exBitDouble wrap m den := add_nonneg h1 x2
      have e1 := roundNearest_error 53 _ hsum0
      have e2 := roundNearest_nonneg 53 _ hsum0
      rw [abs_le] at e1
      have hbig : sd + exBitDouble wrap m den ≤ 1024 := by
        have : (n : ℚ) / 2 ^ 42 ≤ 1 := by
          rw [div_le_one (by norm_num)]
          linarith [show (1000 : ℚ) ≤ 2 ^ 42 by norm_num]
        have : (8 : ℚ) / 2 ^ 53 ≤ 1 := by norm_num
        linarith [x1.2, h4.2]
      have hstep : (sd + exBitDouble wrap m den) / 2 ^ 53 ≤ 1 / 2 ^ 42 - 8 / 2 ^ 53 := by
        calc (sd + exBitDouble wrap m den) / 2 ^ 53 ≤ 1024 / 2 ^ 53 :=
              div_le_div_of_nonneg_right hbig (by norm_num)
          _ ≤ 1 / 2 ^ 42 - 8 / 2 ^ 53 := by norm_num
      have := ih (n + 1) (toDouble (sd + exBitDouble wrap m den)) (s + exBit wrap m den) hok'
        hcount e2 (add_nonneg h2 x3) (by push_cast; linarith) (by
          rw [abs_le]
          unfold toDouble
          push_cast
          constructor
          · have : ((n : ℚ) + 1) / 2 ^ 42 = (n : ℚ) / 2 ^ 42 + 1 / 2 ^ 42 := by ring
            linarith [e1.1, x1.1, h4.1]
          · have : ((n : ℚ) + 1) / 2 ^ 42 = (n : ℚ) / 2 ^ 42 + 1 / 2 ^ 42 := by ring
            linarith [e1.2, x1.2, h4.2])
      simp only [extraSumDouble, List.map_cons, List.sum_cons, fractionOf]
      rw [← add_assoc]
      exact this
    | call a b c d =>
      have := ih n sd s hok' (by simpa [List.filter, Event.isDivide] using hn) h1 h2 h3 h4
      simpa [extraSumDouble, fractionOf] using this
    | scan a b =>
      have := ih n sd s hok' (by simpa [List.filter, Event.isDivide] using hn) h1 h2 h3 h4
      simpa [extraSumDouble, fractionOf] using this
    | table a =>
      have := ih n sd s hok' (by simpa [List.filter, Event.isDivide] using hn) h1 h2 h3 h4
      simpa [extraSumDouble, fractionOf] using this
    | lookup a =>
      have := ih n sd s hok' (by simpa [List.filter, Event.isDivide] using hn) h1 h2 h3 h4
      simpa [extraSumDouble, fractionOf] using this
    | shrinkError =>
      have := ih n sd s hok' (by simpa [List.filter, Event.isDivide] using hn) h1 h2 h3 h4
      simpa [extraSumDouble, fractionOf] using this
    | print a =>
      have := ih n sd s hok' (by simpa [List.filter, Event.isDivide] using hn) h1 h2 h3 h4
      simpa [extraSumDouble, fractionOf] using this

/-- A `double` within `2 ^ (-32)` of a natural number up to 1000 is truncated to that
number by `(unsigned long long)(float)`. -/
theorem floor_toFloat_near (k : Nat) (hk : k ≤ 1000) (y : ℚ) (hy0 : 0 ≤ y)
    (hy : |y - (k : ℚ)| ≤ 1000 / 2 ^ 42) : Int.toNat ⌊toFloat y⌋ = k := by
  by_cases h0 : k = 0
  · subst h0
    have e1 := roundNearest_error 24 y hy0
    have e2 := roundNearest_nonneg 24 y hy0
    rw [abs_le] at e1 hy
    have hlt : toFloat y < 1 := by
      unfold toFloat
      have : y / 2 ^ 24 ≤ y := div_le_self hy0 (by norm_num)
      have : y ≤ 1000 / 2 ^ 42 := by simpa using hy.2
      have : (1000 : ℚ) / 2 ^ 42 < 1 / 2 := by norm_num
      linarith [e1.2]
    have hfl : ⌊toFloat y⌋ = 0 := Int.floor_eq_iff.2 ⟨by simpa using e2, by simpa using hlt⟩
    rw [hfl]
    rfl
  · have h30 : |y - (k : ℚ)| ≤ 1 / 2 ^ 30 :=
      le_trans hy (by norm_num)
    rw [toFloat_near_natural k (by omega) hk y h30, Int.floor_natCast, Int.toNat_natCast]

/-- The conversion through `float` is not the truncation of the exact value: at
`1 - 2 ^ (-31)` it rounds up to 1, where the exact value truncates to 0. -/
theorem toFloat_rounds_up :
    toFloat (1 - 1 / 2 ^ 31) = 1 ∧ Int.toNat ⌊toFloat (1 - 1 / 2 ^ 31)⌋ = 1 ∧
      Int.toNat ⌊(1 - 1 / 2 ^ 31 : ℚ)⌋ = 0 := by
  have h := toFloat_near_natural 1 (le_refl 1) (by norm_num) (1 - 1 / 2 ^ 31) (by
    rw [abs_le]
    constructor <;> norm_num)
  rw [Nat.cast_one] at h
  refine ⟨h, ?_, ?_⟩
  · rw [h]
    simp
  · have : ⌊(1 - 1 / 2 ^ 31 : ℚ)⌋ = 0 := Int.floor_eq_iff.2 ⟨by norm_num, by norm_num⟩
    rw [this]
    rfl

/-! ## The run in floating-point arithmetic -/

/-- The variable `extraSum` after `t` mismatches in a row, whatever the arithmetic. -/
theorem addPenalty_iterate_extraSum (wrap : Nat → Nat) (w : List Nat) (reit : Nat)
    (g : Globals) : ∀ t : Nat,
    ((addPenalty wrap w reit)^[t] g).extraSum =
      g.extraSum + (t : ℚ) * costF wrap (w.length - reit - 1) g := by
  intro t
  induction t with
  | zero => simp
  | succ t ih =>
    obtain ⟨f1, f2, _, _⟩ := addPenalty_iterate_fields wrap w reit g t
    rw [Function.iterate_succ_apply', addPenalty_eq]
    show ((addPenalty wrap w reit)^[t] g).extraSum + _ = _
    rw [ih, costF_congr wrap (w.length - reit - 1) g _ f1 f2]
    push_cast
    ring

/-- The fraction of the event of a mismatch, in the arithmetic `wrap`. -/
theorem fractionOf_mismatch (wrap : Nat → Nat) (m : Nat) (g : Globals) :
    fractionOf wrap (if g.repeatsTrue ≠ 0 then Event.divide m g.counts else Event.table m) =
      costF wrap m g := by
  unfold costF
  by_cases hr : g.repeatsTrue ≠ 0
  · rw [if_pos hr, if_pos hr]
    rfl
  · rw [if_neg hr, if_neg hr]
    rfl

/-- From a state that satisfies the invariant, whatever the arithmetic: `extraSum` grows
by the sum of the fractions of the calls of `divFactorials`, of which there are at most
25 for each remaining position. -/
theorem trace_carry (wrap : Nat → Nat) (w : List Nat) (hl : w.length ≤ 25) :
    ∀ (d fuel i : Nat) (alpha : List Nat) (g : Globals),
      w.length - i = d → d < fuel → rankInv w i alpha g →
      ∃ gf : Globals,
        wordToNumberLoop wrap w fuel alpha alpha.length i i g =
          some (printedRank wrap gf, gf) ∧
        gf.extraSum = g.extraSum +
          ((wordToNumberTrace wrap w fuel alpha alpha.length i i g).map (fractionOf wrap)).sum ∧
        ((wordToNumberTrace wrap w fuel alpha alpha.length i i g).filter
          Event.isDivide).length ≤ 25 * (w.length - i) := by
  intro d
  induction d with
  | zero =>
    intro fuel i alpha g hd hf hinv
    cases fuel with
    | zero => omega
    | succ f =>
      have hi : ¬ i < g.wordLength := by rw [hinv.1]; omega
      refine ⟨g, wordToNumberLoop_done wrap w f alpha _ i i g hi, ?_, ?_⟩
      · rw [wordToNumberTrace, if_neg hi]
        simp [fractionOf]
      · rw [wordToNumberTrace, if_neg hi]
        simp [List.filter, Event.isDivide]
  | succ d ih =>
    intro fuel i alpha g hd hf hinv
    cases fuel with
    | zero => omega
    | succ f =>
      have hi : i < w.length := by omega
      have hmem := mem_alpha_of_inv w i alpha g hinv hi
      have hj0 : alpha.indexOf (w.getD i 0) < alpha.length := indexOf_lt_of_mem _ _ hmem
      have hal : alpha.length = w.length - i := by
        rw [hinv.2.2.2.1.length_eq, List.length_drop]
      obtain ⟨f1, f2, f3, _⟩ := addPenalty_iterate_fields wrap w i g (alpha.indexOf (w.getD i 0))
      have i2 := addPenalty_iterate_extraSum wrap w i g (alpha.indexOf (w.getD i 0))
      obtain ⟨m1, _, _, m4, _, m6, m7⟩ := matchStep_fields wrap (w.getD i 0)
        ((addPenalty wrap w i)^[alpha.indexOf (w.getD i 0)] g)
      have hinv1 := rankInv_congr w i alpha g _ hinv f3 f1 f2
      have hinv3 := rankInv_step w i alpha _ _ hinv1 hi m1 m6 m7
      obtain ⟨gf, e1, e2, e3⟩ := ih f (i + 1) _ _ (by omega) (by omega) hinv3
      refine ⟨gf, ?_, ?_, ?_⟩
      · rw [wordToNumberLoop_step wrap w f i alpha g hinv hi]
        exact e1
      · rw [wordToNumberTrace_step wrap w f i alpha g hinv hi,
          sum_map_step (fractionOf wrap) _ _ _ _ _ _ (by rfl) (by rfl) (by rfl),
          fractionOf_mismatch, e2, m4, i2]
        ring
      · rw [wordToNumberTrace_step wrap w f i alpha g hinv hi, List.filter_append,
          List.filter_append, List.length_append, List.length_append]
        have h1 : ((List.replicate (alpha.indexOf (w.getD i 0))
            (if g.repeatsTrue ≠ 0 then Event.divide (w.length - i - 1) g.counts
              else Event.table (w.length - i - 1))).filter Event.isDivide).length ≤
            alpha.indexOf (w.getD i 0) := by
          have := List.length_filter_le Event.isDivide (List.replicate (alpha.indexOf (w.getD i 0))
            (if g.repeatsTrue ≠ 0 then Event.divide (w.length - i - 1) g.counts
              else Event.table (w.length - i - 1)))
          rw [List.length_replicate] at this
          exact this
        simp only [List.filter, Event.isDivide, List.length_nil]
        have h25 : w.length - i ≤ 25 := by omega
        omega

/-- With 64-bit arithmetic no call of `divFactorials` in the run of a valid word divides
by 0. -/
theorem demSum_ne_zero_of_run (w : List Nat) (hl : w.length ≤ 25) :
    ∀ (d fuel i : Nat) (alpha : List Nat) (g : Globals),
      w.length - i = d → d < fuel → rankInv w i alpha g → countsInv w i g →
      ∀ e ∈ wordToNumberTrace u64 w fuel alpha alpha.length i i g,
        ∀ m den, e = Event.divide m den → demSum u64 m den ≠ 0 := by
  apply trace_forall u64 w (fun e => ∀ m den, e = Event.divide m den → demSum u64 m den ≠ 0)
  · intro _ _ _ _ _ m den h
    cases h
  · intro _ _ _ _ _ m den h
    cases h
  · intro i alpha g hinv _ hi m den h
    by_cases hr : g.repeatsTrue ≠ 0
    · rw [if_pos hr] at h
      injection h with h1 h2
      rw [← h1, ← h2]
      apply demSum_u64_ne_zero _ _ (by omega)
      have h3 := repeatSum_counts w i alpha g hinv
      rw [List.length_drop] at h3
      omega
    · rw [if_neg hr] at h
      cases h
  · intro _ _ m den h
    cases h
  · intro _ m den h
    cases h

/-- When the exact fractional carry of the 64-bit run of a valid word is a whole number,
the run in floating-point arithmetic prints the same rank. -/
theorem mainFloat_of_whole (w : List Nat) (hvalid : validWord w) (fuel : Nat)
    (name : List Nat) (hf : w.length < fuel) (r : Nat) (g : Globals)
    (hmain : main u64 fuel [name, w] = some (0, some r, g)) (k : Nat)
    (hk : g.extraSum = (k : ℚ)) : mainFloat u64 fuel [name, w] = some (0, some r) := by
  obtain ⟨alpha, g0, hall, hinv, hcnt, _, _, he, _⟩ := main_start w hvalid fuel name hf
  obtain ⟨hm, htr⟩ := hall u64
  obtain ⟨gf, e1, e2, e3⟩ := trace_carry u64 w hvalid.2.1 w.length fuel 0 alpha g0
    (by omega) hf hinv
  have hok := demSum_ne_zero_of_run w hvalid.2.1 w.length fuel 0 alpha g0 (by omega) hf hinv hcnt
  have hmain' := hmain
  rw [hm, e1] at hmain'
  have hr : printedRank u64 gf = r := by
    injection hmain' with h1
    injection h1 with _ h2
    injection h2 with h3 _
    injection h3
  have hg : gf = g := by
    injection hmain' with h1
    injection h1 with _ h2
    injection h2
  subst hg
  rw [he, zero_add, hk] at e2
  have hlen : w.length ≤ 25 := hvalid.2.1
  obtain ⟨b1, b2, b3⟩ := extraSumDouble_error u64
    (wordToNumberTrace u64 w fuel alpha alpha.length 0 0 g0) 0 0 0 hok
    (by rw [Nat.sub_zero] at e3; omega) (le_refl _) (le_refl _) (by simp) (by simp)
  rw [zero_add, ← e2] at b1 b3
  have hk1000 : k ≤ 1000 := by exact_mod_cast b3
  have hfloor := floor_toFloat_near k hk1000 _ b2 b1
  unfold mainFloat
  rw [hmain, htr]
  show some (0, some (printedRankFloat u64 gf.totalPenalty
    (extraSumDouble u64 (wordToNumberTrace u64 w fuel alpha alpha.length 0 0 g0) 0))) = _
  unfold printedRankFloat
  rw [hfloor, ← hr]
  unfold printedRank
  rw [hk]
  have : Rat.floor (k : ℚ) = (k : ℤ) := @Int.floor_natCast ℚ _ _ k
  rw [this, Int.toNat_natCast]

/-! ## The claims on the printed rank -/

/-- The program prints the rank of every valid word whose rank is below `2 ^ 64` and in
whose run no product wraps, with `extraSum` an exact rational number and with `extraSum`
in floating-point arithmetic alike. -/
theorem prints_rank_of_fits (w : List Nat) (hv : validWord w) (hb : lexRank w < 2 ^ 64)
    (fuel : Nat) (name : List Nat) (hf : w.length < fuel) (hfit : runFits fuel name w) :
    (∃ g, main u64 fuel [name, w] = some (0, some (lexRank w), g)) ∧
      mainFloat u64 fuel [name, w] = some (0, some (lexRank w)) := by
  obtain ⟨g, h1, _, h3, h4⟩ := main_rank_fit u64 u64_of_lt w hv hb fuel name hf hfit
  have hle : (g.totalPenalty : ℚ) ≤ (lexRank w : ℚ) := by linarith
  have hle' : g.totalPenalty ≤ lexRank w := by exact_mod_cast hle
  have hk : g.extraSum = ((lexRank w - g.totalPenalty : Nat) : ℚ) := by
    rw [Nat.cast_sub hle']
    linarith
  exact ⟨⟨g, h1⟩, mainFloat_of_whole w hv fuel name hf _ g h1 _ hk⟩

/-- The program prints the rank of every valid word of at most 20 letters. -/
theorem prints_rank_of_length (w : List Nat) (hv : validWord w) (hl : w.length ≤ 20)
    (fuel : Nat) (name : List Nat) (hf : w.length < fuel) :
    (∃ g, main u64 fuel [name, w] = some (0, some (lexRank w), g)) ∧
      mainFloat u64 fuel [name, w] = some (0, some (lexRank w)) :=
  prints_rank_of_fits w hv (lexRank_lt_of_length w hl) fuel name hf
    (fits_of_length u64 w hv hl fuel name hf)

/-- The program prints the rank of every valid word of distinct letters whose rank is
below `2 ^ 64`. -/
theorem prints_rank_of_nodup (w : List Nat) (hv : validWord w) (hn : w.Nodup)
    (hb : lexRank w < 2 ^ 64) (fuel : Nat) (name : List Nat) (hf : w.length < fuel) :
    (∃ g, main u64 fuel [name, w] = some (0, some (lexRank w), g)) ∧
      mainFloat u64 fuel [name, w] = some (0, some (lexRank w)) :=
  prints_rank_of_fits w hv hb fuel name hf (fits_of_nodup u64 w hv hn fuel name hf)

/-- A run prints one rank. -/
theorem printed_unique (fuel : Nat) (name w : List Nat) (r s : Nat)
    (h1 : (∃ g, main u64 fuel [name, w] = some (0, some r, g)) ∨
      mainFloat u64 fuel [name, w] = some (0, some r))
    (h2 : (∃ g, main u64 fuel [name, w] = some (0, some s, g)) ∧
      mainFloat u64 fuel [name, w] = some (0, some s)) : r = s := by
  obtain ⟨⟨g2, e2⟩, f2⟩ := h2
  rcases h1 with ⟨g1, e1⟩ | f1
  · rw [e1] at e2
    injection e2 with e3
    injection e3 with _ e4
    injection e4 with e5 _
    injection e5
  · rw [f1] at f2
    injection f2 with f3
    injection f3 with _ f4
    injection f4

set_option maxRecDepth 100000 in
theorem lexRank_wordBACD : lexRank wordBACD = 51090942171709440001 := by
  rw [lexRank_eq_counting]
  decide

set_option maxRecDepth 100000 in
theorem lexRank_wordB19A6 : lexRank wordB19A6 = 177100 := by
  rw [lexRank_eq_counting]
  decide

set_option maxRecDepth 100000 in
theorem lexRank_wordA5B19A : lexRank wordA5B19A = 20 := by
  rw [lexRank_eq_counting]
  decide

set_option maxRecDepth 100000 in
/-- In the run of `BBBBBBBBBBBBBBBBBBBAAAAAA` no product wraps. -/
theorem runFits_wordB19A6 : runFits 26 [] wordB19A6 := by
  unfold runFits
  decide!

set_option maxRecDepth 100000 in
/-- In the run of `AAAAABBBBBBBBBBBBBBBBBBBA` no product wraps. -/
theorem runFits_wordA5B19A : runFits 26 [] wordA5B19A := by
  unfold runFits
  decide!

/-- C1, counterexample: the valid 22-letter word `BACDEFGHIJKLMNOPQRSTUV` has rank
`1 + 21!`, and the program reports rank 2 for it. -/
theorem c1_counterexample :
    validWord wordBACD ∧ reportedRank wordBACD = some 2 ∧
      lexRank wordBACD = 51090942171709440001 ∧ ¬ reports wordBACD (lexRank wordBACD) := by
  have h1 : reportedRank wordBACD = some 2 := by decide
  refine ⟨by decide, h1, lexRank_wordBACD, ?_⟩
  intro h
  have h2 := reportedRank_of_reports _ _ h
  rw [h1, lexRank_wordBACD] at h2
  exact absurd h2 (by decide)

/-- C1, amended: for every valid word whose rank is below `2 ^ 64`, in every run in which
no product of `divFactorials` wraps, the program prints the rank of the word, 1 plus the
number of distinct rearrangements of its letters that are lexicographically smaller:
`totalPenalty` plus the truncated fractional carry, with the carry an exact rational
number and with the carry in `double` arithmetic converted through `float` alike. -/
theorem c1_rank_correct (w : List Nat) (hv : validWord w) (hb : lexRank w < 2 ^ 64)
    (fuel : Nat) (name : List Nat) (hf : w.length < fuel) (hfit : runFits fuel name w) :
    (∃ g, main u64 fuel [name, w] = some (0, some (1 + countBelow w), g)) ∧
      mainFloat u64 fuel [name, w] = some (0, some (1 + countBelow w)) :=
  prints_rank_of_fits w hv hb fuel name hf hfit

theorem c1_rank_correct_witness :
    validWord wordB19A6 ∧ wordB19A6.length = 25 ∧ lexRank wordB19A6 = 177100 ∧
      runFits 26 [] wordB19A6 ∧
      (∃ g, main u64 26 [[], wordB19A6] = some (0, some (1 + countBelow wordB19A6), g)) ∧
      mainFloat u64 26 [[], wordB19A6] = some (0, some (1 + countBelow wordB19A6)) :=
  ⟨by decide, by decide, lexRank_wordB19A6, runFits_wordB19A6,
    c1_rank_correct wordB19A6 (by decide) (by rw [lexRank_wordB19A6]; decide) 26 []
      (by decide) runFits_wordB19A6⟩

/-- C3, counterexample: `BACDEFGHIJKLMNOPQRSTUV` and `ABCDEFGHIJKLMNOPQRSTVU` are two
distinct rearrangements of the same 22 letters, and the program reports rank 2 for both;
the rank of the first is `1 + 21!`. -/
theorem c3_counterexample :
    validWord wordBACD ∧ wordBACD.Perm wordABVU ∧ wordBACD ≠ wordABVU ∧
      reportedRank wordBACD = some 2 ∧ reportedRank wordABVU = some 2 := by
  refine ⟨by decide, by decide, by decide, by decide, by decide⟩

/-- C3, amended: for every valid word `u` and every rearrangement `v` of its letters, both
of rank below `2 ^ 64`, in runs in which no product of `divFactorials` wraps, the program
prints ranks `ru` and `rv` (with the fractional carry exact, and in floating-point
arithmetic alike) such that: distinct rearrangements get distinct ranks, a
lexicographically smaller one gets a smaller rank, and two lexicographically consecutive
ones get ranks that differ by exactly 1. -/
theorem c3_rank_strictly_increasing (u v : List Nat) (hv : validWord u) (hp : u.Perm v)
    (hbu : lexRank u < 2 ^ 64) (hbv : lexRank v < 2 ^ 64) (fuel : Nat) (nu nv : List Nat)
    (hf : u.length < fuel) (hfu : runFits fuel nu u) (hfv : runFits fuel nv v) :
    ∃ ru rv,
      ((∃ g, main u64 fuel [nu, u] = some (0, some ru, g)) ∧
        mainFloat u64 fuel [nu, u] = some (0, some ru)) ∧
      ((∃ g, main u64 fuel [nv, v] = some (0, some rv, g)) ∧
        mainFloat u64 fuel [nv, v] = some (0, some rv)) ∧
      (u ≠ v → ru ≠ rv) ∧
      (lexLt u v = true → ru < rv) ∧
      (lexLt u v = true →
        (∀ p : List Nat, p.Perm u → ¬ (lexLt u p = true ∧ lexLt p v = true)) →
        rv = ru + 1) := by
  have hlt : ∀ a b : List Nat, a.Perm b → lexLt a b = true → lexRank a < lexRank b := by
    intro a b hab h
    have := countBelow_lt_of_lexLt a b hab h
    unfold lexRank
    omega
  refine ⟨lexRank u, lexRank v, prints_rank_of_fits u hv hbu fuel nu hf hfu,
    prints_rank_of_fits v (validWord_perm u v hp hv) hbv fuel nv
      (by rw [← hp.length_eq]; exact hf) hfv, ?_, hlt u v hp, ?_⟩
  · intro hne
    rcases lexLt_total u v hne with h | h
    · exact Nat.ne_of_lt (hlt u v hp h)
    · exact Nat.ne_of_gt (hlt v u hp.symm h)
  · intro h hc
    have := countBelow_succ_of_consecutive u v hp h hc
    unfold lexRank
    omega

theorem c3_rank_strictly_increasing_witness :
    validWord wordA5B19A ∧ wordA5B19A.Perm wordB19A6 ∧ lexLt wordA5B19A wordB19A6 = true ∧
      ∃ ru rv,
        ((∃ g, main u64 26 [[], wordA5B19A] = some (0, some ru, g)) ∧
          mainFloat u64 26 [[], wordA5B19A] = some (0, some ru)) ∧
        ((∃ g, main u64 26 [[], wordB19A6] = some (0, some rv, g)) ∧
          mainFloat u64 26 [[], wordB19A6] = some (0, some rv)) ∧ ru < rv := by
  obtain ⟨ru, rv, h1, h2, _, h4, _⟩ :=
    c3_rank_strictly_increasing wordA5B19A wordB19A6 (by decide) (by decide)
      (by rw [lexRank_wordA5B19A]; decide) (by rw [lexRank_wordB19A6]; decide) 26 [] []
      (by decide) runFits_wordA5B19A runFits_wordB19A6
  exact ⟨by decide, by decide, by decide, ru, rv, h1, h2, h4 (by decide)⟩

set_option maxRecDepth 100000 in
/-- C4, counterexample: the valid 21-letter word `HMOEDUFJGLASKQBCIRTNP` is not in
ascending order, and the program reports rank 1 for it; its rank is `2 ^ 64 + 1`. -/
theorem c4_counterexample :
    validWord wordHMOE ∧ reportedRank wordHMOE = some 1 ∧
      ¬ wordHMOE.Sorted (fun a b => a ≤ b) ∧ lexRank wordHMOE = 2 ^ 64 + 1 := by
  refine ⟨by decide, by decide, by decide, ?_⟩
  rw [lexRank_eq_counting]
  decide

/-- C4, amended: for every valid word in ascending order the program prints rank 1; and
for a valid word whose rank is below `2 ^ 64`, in a run in which no product of
`divFactorials` wraps, it prints rank 1 only if the word is in ascending order. Both hold
with the fractional carry exact and in floating-point arithmetic. -/
theorem c4_rank_one_iff_sorted (w : List Nat) (hv : validWord w) (fuel : Nat)
    (name : List Nat) (hf : w.length < fuel) :
    (w.Sorted (fun a b => a ≤ b) →
        (∃ g, main u64 fuel [name, w] = some (0, some 1, g)) ∧
          mainFloat u64 fuel [name, w] = some (0, some 1)) ∧
      (lexRank w < 2 ^ 64 → runFits fuel name w →
        ((∃ g, main u64 fuel [name, w] = some (0, some 1, g)) ∨
          mainFloat u64 fuel [name, w] = some (0, some 1)) →
        w.Sorted (fun a b => a ≤ b)) := by
  constructor
  · intro hs
    have h0 : countBelow w = 0 := (countBelow_eq_zero_iff w).2 hs
    have h1 : lexRank w = 1 := by unfold lexRank; omega
    have := prints_rank_of_fits w hv (by rw [h1]; decide) fuel name hf
      (fits_of_sorted u64 w hv hs fuel name hf)
    rw [h1] at this
    exact this
  · intro hb hfit h1
    have h2 := printed_unique fuel name w 1 (lexRank w) h1
      (prints_rank_of_fits w hv hb fuel name hf hfit)
    apply (countBelow_eq_zero_iff w).1
    unfold lexRank at h2
    omega

set_option maxRecDepth 100000 in
theorem lexRank_wordAtoSUT : lexRank wordAtoSUT = 2 := by
  rw [lexRank_eq_counting]
  decide

theorem c4_rank_one_iff_sorted_witness :
    (validWord wordAtoY ∧ wordAtoY.length = 25 ∧ wordAtoY.Sorted (fun a b => a ≤ b) ∧
        mainFloat u64 26 [[], wordAtoY] = some (0, some 1)) ∧
      (validWord wordAtoSUT ∧ wordAtoSUT.length = 21 ∧ lexRank wordAtoSUT = 2 ∧
        (mainFloat u64 22 [[], wordAtoSUT] = some (0, some 1) →
          wordAtoSUT.Sorted (fun a b => a ≤ b))) :=
  ⟨⟨by decide, by decide, by decide,
      ((c4_rank_one_iff_sorted wordAtoY (by decide) 26 [] (by decide)).1 (by decide)).2⟩,
    ⟨by decide, by decide, lexRank_wordAtoSUT,
      fun h => (c4_rank_one_iff_sorted wordAtoSUT (by decide) 22 [] (by decide)).2
        (by rw [lexRank_wordAtoSUT]; decide)
        (fits_of_nodup u64 wordAtoSUT (by decide) (by decide) 22 [] (by decide))
        (Or.inr h)⟩⟩

set_option maxRecDepth 100000 in
/-- C5, counterexample: for the valid 21-letter word `HMOEDUFJGLASKQBCIRPTN` the program
reports rank 0, which is below 1; the rank of the word is `2 ^ 64`. -/
theorem c5_counterexample :
    validWord wordHMOP ∧ reportedRank wordHMOP = some 0 ∧ lexRank wordHMOP = 2 ^ 64 := by
  refine ⟨by decide, by decide, ?_⟩
  rw [lexRank_eq_counting]
  decide

/-- C5, amended: for every valid word whose rank is below `2 ^ 64`, in every run in which
no product of `divFactorials` wraps, the printed rank (with the fractional carry exact, and
in floating-point arithmetic alike) lies between 1 and `n! / (r_1! * ... * r_k!)`, and this
quotient is exact. -/
theorem c5_rank_range (w : List Nat) (hv : validWord w) (hb : lexRank w < 2 ^ 64)
    (fuel : Nat) (name : List Nat) (hf : w.length < fuel) (hfit : runFits fuel name w) :
    ∃ r, ((∃ g, main u64 fuel [name, w] = some (0, some r, g)) ∧
        mainFloat u64 fuel [name, w] = some (0, some r)) ∧
      1 ≤ r ∧ r ≤ arrangementCount w ∧
      arrangementCount w * repeatProduct w = w.length.factorial := by
  refine ⟨lexRank w, prints_rank_of_fits w hv hb fuel name hf hfit, ?_, ?_, ?_⟩
  · unfold lexRank; omega
  · rw [arrangementCount_eq]
    have := countBelow_lt_length w
    unfold lexRank
    omega
  · rw [arrangementCount_eq]
    exact length_rearrangements_mul w

set_option maxRecDepth 100000 in
theorem c5_rank_range_witness :
    validWord wordA5B19A ∧ wordA5B19A.length = 25 ∧ lexRank wordA5B19A = 20 ∧
      arrangementCount wordA5B19A = 177100 ∧
      ∃ r, ((∃ g, main u64 26 [[], wordA5B19A] = some (0, some r, g)) ∧
          mainFloat u64 26 [[], wordA5B19A] = some (0, some r)) ∧
        1 ≤ r ∧ r ≤ arrangementCount wordA5B19A ∧
        arrangementCount wordA5B19A * repeatProduct wordA5B19A =
          wordA5B19A.length.factorial :=
  ⟨by decide, by decide, lexRank_wordA5B19A, by decide!,
    c5_rank_range wordA5B19A (by decide) (by rw [lexRank_wordA5B19A]; decide) 26 []
      (by decide) runFits_wordA5B19A⟩

set_option maxRecDepth 100000 in
/-- C6, counterexample: the valid word `UTSRQPONMLKJIHGFEDCBA` has 21 distinct letters
in descending order, `21!` is 51090942171709440000, and the program reports the rank
14197454024290336768. -/
theorem c6_counterexample :
    validWord wordUTSR ∧ wordUTSR.Sorted (fun a b => a ≥ b) ∧ wordUTSR.Nodup ∧
      reportedRank wordUTSR = some 14197454024290336768 ∧
      arrangementCount wordUTSR = 51090942171709440000 ∧
      wordUTSR.length.factorial = 51090942171709440000 := by
  refine ⟨by decide, by decide, by decide, by decide, by decide!, by decide⟩

/-- C6, amended: for every valid word in descending order for which
`n! / (r_1! * ... * r_k!)` is below `2 ^ 64`, in every run in which no product of
`divFactorials` wraps, the printed rank (with the fractional carry exact, and in
floating-point arithmetic alike) is `n! / (r_1! * ... * r_k!)`, which is `n!` when the
letters are distinct; and no rearrangement of the word gets a higher rank printed in such a
run. -/
theorem c6_descending_rank (w : List Nat) (hv : validWord w)
    (hd : w.Sorted (fun a b => a ≥ b)) (hb : arrangementCount w < 2 ^ 64) (fuel : Nat)
    (name : List Nat) (hf : w.length < fuel) (hfit : runFits fuel name w) :
    ((∃ g, main u64 fuel [name, w] = some (0, some (arrangementCount w), g)) ∧
        mainFloat u64 fuel [name, w] = some (0, some (arrangementCount w))) ∧
      (w.Nodup → arrangementCount w = w.length.factorial) ∧
      ∀ v nv : List Nat, v.Perm w → runFits fuel nv v →
        ∃ r, ((∃ g, main u64 fuel [nv, v] = some (0, some r, g)) ∧
            mainFloat u64 fuel [nv, v] = some (0, some r)) ∧
          r ≤ arrangementCount w := by
  have h1 : lexRank w = arrangementCount w := by
    rw [arrangementCount_eq, ← countBelow_of_sorted_ge w hd]
    unfold lexRank
    omega
  refine ⟨?_, ?_, ?_⟩
  · rw [← h1]
    exact prints_rank_of_fits w hv (by rw [h1]; exact hb) fuel name hf hfit
  · intro hn
    rw [arrangementCount_eq, length_rearrangements_of_nodup w hn]
  · intro v nv hp hfv
    have hle : lexRank v ≤ arrangementCount w := by
      rw [← arrangementCount_perm v w hp, arrangementCount_eq]
      have := countBelow_lt_length v
      unfold lexRank
      omega
    exact ⟨lexRank v, prints_rank_of_fits v (validWord_perm w v hp.symm hv)
      (by omega) fuel nv (by rw [hp.length_eq]; exact hf) hfv, hle⟩

set_option maxRecDepth 100000 in
theorem c6_descending_rank_witness :
    validWord wordB19A6 ∧ wordB19A6.length = 25 ∧ wordB19A6.Sorted (fun a b => a ≥ b) ∧
      arrangementCount wordB19A6 = 177100 ∧
      (∃ g, main u64 26 [[], wordB19A6] =
        some (0, some (arrangementCount wordB19A6), g)) ∧
      mainFloat u64 26 [[], wordB19A6] = some (0, some (arrangementCount wordB19A6)) :=
  ⟨by decide, by decide, by decide, by decide!,
    (c6_descending_rank wordB19A6 (by decide) (by decide)
      (by
        have h : arrangementCount wordB19A6 = 177100 := by decide!
        rw [h]
        decide) 26 [] (by decide)
      runFits_wordB19A6).1⟩

/-! ## The claim on the products of `divFactorials` -/

set_option maxRecDepth 100000 in
/-- C8, failing input: the valid word `BBCEGGGHEBCHGFAADDHHGFFDH`, of rank
57121951837843602. The mismatch at its first letter calls `divFactorials(24, counts)`.
The quotient `24! / ∏ r!` of that call is 24934429725004800 and fits in 64 bits, and the
numerator factors that a pass over every numerator factor leaves multiply to just that
number, the denominator factors to 1. The loop of the program, which skips the numerator
factor after every cancellation, leaves numerator factors that multiply to
22440986752504320000, which is not below `2 ^ 64`, and denominator factors that multiply
to 900: the 64-bit product `numSum` wraps to 3994242678794768384, and the program prints
16129187229600153 instead of the rank. -/
theorem c8_products_wrap_after_skip :
    validWord wordBBCE ∧
      (mainTrace u64 26 [[], wordBBCE]).get? 1 =
        some (Event.divide 24 (letterCounts wordBBCE)) ∧
      Nat.factorial 24 / denomProduct (letterCounts wordBBCE) = 24934429725004800 ∧
      totalUp id (referenceCancelled true 24 (letterCounts wordBBCE)).1 24 0 1 =
        24934429725004800 ∧
      totalUp id (referenceCancelled true 24 (letterCounts wordBBCE)).2
        (denomCount 24 (letterCounts wordBBCE)) 0 1 = 1 ∧
      numSum id 24 (letterCounts wordBBCE) = 22440986752504320000 ∧
      demSum id 24 (letterCounts wordBBCE) = 900 ∧
      ¬ numSum id 24 (letterCounts wordBBCE) < 2 ^ 64 ∧
      numSum u64 24 (letterCounts wordBBCE) = 3994242678794768384 ∧
      ¬ runFits 26 [] wordBBCE ∧
      lexRank wordBBCE = 57121951837843602 ∧
      reportedRank wordBBCE = some 16129187229600153 := by
  have hget : (mainTrace u64 26 [[], wordBBCE]).get? 1 =
      some (Event.divide 24 (letterCounts wordBBCE)) := rfl
  refine ⟨by decide, hget, by decide, by decide, by decide, by decide, by decide, by decide,
    by decide, ?_, wordBBCE_misreported.2.1, wordBBCE_misreported.2.2.1⟩
  intro h
  have h1 := h _ (List.get?_mem hget)
  exact absurd h1 (by decide)

/-! ## Beyond 20 letters: a descending word -/

set_option maxRecDepth 100000 in
/-- The word `JIIIIIIIHHHGGFFFEDCCCBBBA` is in descending order and has
1187353796428800000 distinct rearrangements, a number below `2 ^ 64`. The mismatch at its
first letter calls `divFactorials(24, counts)`, and the numerator factors that the loop of
the program leaves multiply to 29921315670005760000, which is not below `2 ^ 64`: in the
run of this word a product wraps. -/
theorem wordJIII_wraps :
    validWord wordJIII ∧ wordJIII.Sorted (fun a b => a ≥ b) ∧
      arrangementCount wordJIII = 1187353796428800000 ∧
      (mainTrace u64 26 [[], wordJIII]).get? 1 =
        some (Event.divide 24 (letterCounts wordJIII)) ∧
      numSum id 24 (letterCounts wordJIII) = 29921315670005760000 ∧
      ¬ runFits 26 [] wordJIII := by
  have hget : (mainTrace u64 26 [[], wordJIII]).get? 1 =
      some (Event.divide 24 (letterCounts wordJIII)) := rfl
  refine ⟨by decide, by decide, by decide!, hget, by decide, ?_⟩
  intro h
  have h1 := h _ (List.get?_mem hget)
  exact absurd h1 (by decide)

end WordRank
